import Mathlib

/-!
Verification of the spreadsheet incremental-computation engine
(`src/backend.rs`, `src/parser.rs` of the RustLab290 repository).

The engine's data model and operations are shallow-embedded below:
- Rust `i32` values are `Int` with explicit wrapping modulo `2^32`
  (release-mode arithmetic semantics: `+`, `-`, `*`, `abs`, `/` wrap);
- Rust `usize` is `Nat` with explicit wrapping modulo `2^64` at the two
  places the parser can overflow or underflow it;
- the grid is a `List (List CellData)`; the raw-pointer cell accesses of
  the Rust code become functional reads/updates at `(row, col)`;
- the imperative work-list loops (cycle-detection DFS, marker reset,
  in-degree marking, topological processing) take an explicit fuel and
  return `none` if the fuel runs out; the fuel passed by the wrappers is
  proven sufficient on well-formed grids;
- `stdev_function` accumulates its variance in `f64` and takes a floating
  square root; that single floating-point computation is not exactly
  representable, so the whole development is parameterized by the function
  `stdevVal` computing the rounded standard deviation from the collected
  values, their sum and their count.  No claim depends on its value.
-/

namespace RustLab

/-- `i32` modulus. -/
def M32 : Int := 2 ^ 32

/-- `usize` modulus (64-bit target). -/
def U64 : Nat := 2 ^ 64

/-- Normalize an integer into the `i32` range `[-2^31, 2^31)`:
release-mode wrapping arithmetic. -/
def wrap32 (n : Int) : Int := (n + 2 ^ 31) % M32 - 2 ^ 31

/-- Rust `i32::abs` (release mode: `i32::MIN.abs()` wraps to `i32::MIN`). -/
def i32abs (n : Int) : Int := wrap32 (if n < 0 then -n else n)

/-- Rust `i32` division, truncation toward zero, as a total function.
On the single overflowing pair `i32::MIN / -1` Rust's `/` panics in
every build profile, while this total model returns the wrapped value
`i32::MIN`: the model is an over-approximation there, never an
under-approximation elsewhere.  The multiply guard (dividend
`2147483647`) and `avg`/`stdev` (positive divisor) can never reach that
pair, so their uses are exact; `divide_op` can reach it, which the C5
correction records with a concrete reaching run. -/
def i32div (a b : Int) : Int :=
  if (0 ≤ a) = (0 ≤ b) then wrap32 ((a.natAbs / b.natAbs : Nat) : Int)
  else wrap32 (-((a.natAbs / b.natAbs : Nat) : Int))

/-- A grid coordinate: `struct Cell { row, col }` (0-based). -/
structure Cell where
  row : Nat
  col : Nat
deriving DecidableEq, Repr

/-- `enum CellError` of the structs module used by `backend.rs`. -/
inductive CellError where
  | NoError
  | DivideByZero
  | Overflow
  | DependencyError
deriving DecidableEq, Repr

/-- `enum OperandType`. -/
inductive OperandType where
  | Cell
  | Int
deriving DecidableEq, Repr

/-- `enum OperandData`: payload of an operand. -/
inductive OperandData where
  | Cell (c : Cell)
  | Value (v : Int)
deriving DecidableEq, Repr

/-- `struct Operand { type_, data }`. -/
structure Operand where
  type_ : OperandType
  data : OperandData
deriving DecidableEq, Repr

/-- `struct BinaryOp { first, second }`. -/
structure BinaryOp where
  first : Operand
  second : Operand
deriving DecidableEq, Repr

/-- `struct RangeFunction { top_left, bottom_right }`. -/
structure RangeFunction where
  top_left : Cell
  bottom_right : Cell
deriving DecidableEq, Repr

/-- `enum FunctionType`. -/
inductive FunctionType where
  | Constant
  | Min
  | Max
  | Avg
  | Sum
  | Stdev
  | Sleep
  | Plus
  | Minus
  | Multiply
  | Divide
deriving DecidableEq, Repr

/-- `enum FunctionData`: the tagged payload of a formula. -/
inductive FunctionData where
  | Value (v : Int)
  | BinaryOp (b : BinaryOp)
  | RangeFunction (r : RangeFunction)
  | SleepValue (op : Operand)
deriving DecidableEq, Repr

/-- `struct Function { type_, data }`. -/
structure Function where
  type_ : FunctionType
  data : FunctionData
deriving DecidableEq, Repr

/-- `Function::new_constant`. -/
def Function.new_constant (v : Int) : Function :=
  ⟨FunctionType.Constant, FunctionData.Value v⟩

/-- `Function::new_binary_op`. -/
def Function.new_binary_op (t : FunctionType) (b : BinaryOp) : Function :=
  ⟨t, FunctionData.BinaryOp b⟩

/-- `Function::new_range_function`. -/
def Function.new_range_function (t : FunctionType) (r : RangeFunction) : Function :=
  ⟨t, FunctionData.RangeFunction r⟩

/-- `Function::new_sleep` (integer-literal operand). -/
def Function.new_sleep (v : Int) : Function :=
  ⟨FunctionType.Sleep, FunctionData.SleepValue ⟨OperandType.Int, OperandData.Value v⟩⟩

/-- `Function::new_sleep_cell` (cell-reference operand). -/
def Function.new_sleep_cell (c : Cell) : Function :=
  ⟨FunctionType.Sleep, FunctionData.SleepValue ⟨OperandType.Cell, OperandData.Cell c⟩⟩

/-- `struct CellData`: one grid slot. -/
structure CellData where
  value : Int
  dependents : List Cell
  function : Function
  error : CellError
  dirty_parents : Int
deriving DecidableEq, Repr

instance : Inhabited CellData :=
  ⟨⟨0, [], Function.new_constant 0, CellError.NoError, 0⟩⟩

/-- `enum ExpressionError`: the two edit failures of `set_cell_value`. -/
inductive ExpressionError where
  | CouldNotParse
  | CircularDependency
deriving DecidableEq, Repr

/-- The grid: `rows` lists of `cols` cells. -/
abbrev Grid := List (List CellData)

/-- `struct Backend` (gui configuration: with `formula_strings`). -/
structure Backend where
  grid : Grid
  rows : Nat
  cols : Nat
  formula_strings : List (List (List Char))
deriving DecidableEq, Repr

/-! ### Grid access helpers (the raw-pointer reads/writes of the Rust code) -/

/-- Read the cell record at `c` (out of bounds: junk default, never used
under the well-formedness hypotheses of the theorems). -/
def getCell (g : Grid) (c : Cell) : CellData :=
  (g.getD c.row []).getD c.col default

/-- Write the cell record at `c` (out of bounds: no-op). -/
def setCell (g : Grid) (c : Cell) (d : CellData) : Grid :=
  g.set c.row ((g.getD c.row []).set c.col d)

/-- Update the cell record at `c` through `f`. -/
def updCell (g : Grid) (c : Cell) (f : CellData → CellData) : Grid :=
  setCell g c (f (getCell g c))

def setDirty (g : Grid) (c : Cell) (n : Int) : Grid :=
  updCell g c (fun cd => { cd with dirty_parents := n })

def incDirty (g : Grid) (c : Cell) : Grid :=
  updCell g c (fun cd => { cd with dirty_parents := cd.dirty_parents + 1 })

def decDirty (g : Grid) (c : Cell) : Grid :=
  updCell g c (fun cd => { cd with dirty_parents := cd.dirty_parents - 1 })

/-- Number of cell slots of the grid (fuel bound). -/
def cellCount (g : Grid) : Nat :=
  g.foldl (fun a row => a + row.length) 0

/-- Sum of the positive dirty counters (fuel bound for the processing pass). -/
def sumPosDirty (g : Grid) : Nat :=
  g.foldl (fun a row => a + row.foldl (fun b cd => b + cd.dirty_parents.toNat) 0) 0

/-! ### Parser (`parser.rs`) -/

/-- Accumulated column value of the leading uppercase letters, with the
`usize` wrap of `cell.col * 26 + (letter - 'A' + 1)`; returns the value and
the rest of the string. -/
def colLoop : List Char → Nat → Nat × List Char
  | [], acc => (acc, [])
  | c :: cs, acc =>
      if c.isUpper then colLoop cs ((acc * 26 + (c.toNat - 'A'.toNat + 1)) % U64)
      else (acc, c :: cs)

/-- Exact numeric value of a digit string. -/
def digitsToNat (s : List Char) : Nat :=
  s.foldl (fun a c => a * 10 + (c.toNat - '0'.toNat)) 0

/-- `parse_cell_reference(reference, rows, cols)`: letters then digits,
`usize` conversion to 0-based indices, bounds check.  Row `parse::<usize>`
fails on overflow; the `-= 1` conversions wrap modulo `2^64`. -/
def parse_cell_reference (reference : List Char) (rows cols : Nat) : Option Cell :=
  match reference with
  | [] => none
  | c0 :: _ =>
    if !c0.isUpper then none
    else
      let p := colLoop reference 0
      match p.2 with
      | [] => none
      | d0 :: _ =>
        if !d0.isDigit then none
        else if !(p.2.all Char.isDigit) then none
        else
          let rowv := digitsToNat p.2
          if U64 ≤ rowv then none
          else
            let row0 := (rowv + (U64 - 1)) % U64
            let col0 := (p.1 + (U64 - 1)) % U64
            if rows ≤ row0 ∨ cols ≤ col0 then none
            else some ⟨row0, col0⟩

/-- Rust `str::parse::<i32>`: optional sign, all digits, range check. -/
def parseI32 : List Char → Option Int
  | [] => none
  | '-' :: rest =>
      if rest ≠ [] ∧ rest.all Char.isDigit ∧ digitsToNat rest ≤ 2 ^ 31 then
        some (-(digitsToNat rest : Int))
      else none
  | '+' :: rest =>
      if rest ≠ [] ∧ rest.all Char.isDigit ∧ digitsToNat rest ≤ 2 ^ 31 - 1 then
        some ((digitsToNat rest : Int))
      else none
  | s =>
      if s.all Char.isDigit ∧ digitsToNat s ≤ 2 ^ 31 - 1 then
        some ((digitsToNat s : Int))
      else none

/-- The digit loop of `parse_binary_op`: wrapping `i32` accumulation,
breaking with failure at the first non-digit. -/
def operandIntLoop : List Char → Int → Int × Bool
  | [], acc => (acc, true)
  | c :: cs, acc =>
      if c.isDigit then operandIntLoop cs (wrap32 (acc * 10 + ((c.toNat - '0'.toNat : Nat) : Int)))
      else (acc, false)

/-- One operand of `parse_binary_op`: integer literal if it starts with a
digit, otherwise a cell reference. -/
def parseOperand (s : List Char) (rows cols : Nat) : Operand × Bool :=
  match s with
  | c :: _ =>
      if c.isDigit then
        let p := operandIntLoop s 0
        (⟨OperandType.Int, OperandData.Value p.1⟩, p.2)
      else
        match parse_cell_reference s rows cols with
        | some cell => (⟨OperandType.Cell, OperandData.Cell cell⟩, true)
        | none => (⟨OperandType.Int, OperandData.Value 0⟩, false)
  | [] => (⟨OperandType.Int, OperandData.Value 0⟩, false)

/-- `parse_binary_op(operand1, operand2, ...)`. -/
def parse_binary_op (operand1 operand2 : List Char) (rows cols : Nat) : BinaryOp × Bool :=
  let p1 := parseOperand operand1 rows cols
  let p2 := parseOperand operand2 rows cols
  (⟨p1.1, p2.1⟩, p1.2 && p2.2)

/-- `parse_range_function(expression, function_type, ...)`. -/
def parse_range_function (expression : List Char) (ft : FunctionType) (rows cols : Nat) :
    Function × Bool :=
  let start_pos := if ft = FunctionType.Stdev then 6 else 4
  let content := expression.drop start_pos
  match content.findIdx? (· = ')') with
  | none => (Function.new_constant 0, false)
  | some end_pos =>
    let range_str := content.take end_pos
    match range_str.findIdx? (· = ':') with
    | none => (Function.new_constant 0, false)
    | some separator_pos =>
      let top_left_str := range_str.take separator_pos
      let bottom_right_str := range_str.drop (separator_pos + 1)
      match parse_cell_reference top_left_str rows cols with
      | none => (Function.new_constant 0, false)
      | some top_left =>
        match parse_cell_reference bottom_right_str rows cols with
        | none => (Function.new_constant 0, false)
        | some bottom_right =>
          if bottom_right.row < top_left.row ∨ bottom_right.col < top_left.col then
            (Function.new_constant 0, false)
          else
            (Function.new_range_function ft ⟨top_left, bottom_right⟩, true)

def startsWithL : List Char → List Char → Bool
  | [], _ => true
  | _ :: _, [] => false
  | a :: as, b :: bs => a == b && startsWithL as bs

def isOpChar (c : Char) : Bool := c == '+' || c == '-' || c == '*' || c == '/'

/-- First operator position at a non-leading index. -/
def findOpIdx (s : List Char) : Option Nat :=
  match s with
  | [] => none
  | _ :: rest =>
    match rest.findIdx? isOpChar with
    | some j => some (j + 1)
    | none => none

/-- `parse_expression(expression, backend)` (needs only the grid bounds). -/
def parse_expression (expression : List Char) (rows cols : Nat) : Function × Bool :=
  if expression.isEmpty then (Function.new_constant 0, false)
  else if 4 ≤ expression.length && startsWithL "MIN(".data expression then
    parse_range_function expression FunctionType.Min rows cols
  else if 4 ≤ expression.length && startsWithL "MAX(".data expression then
    parse_range_function expression FunctionType.Max rows cols
  else if 4 ≤ expression.length && startsWithL "AVG(".data expression then
    parse_range_function expression FunctionType.Avg rows cols
  else if 4 ≤ expression.length && startsWithL "SUM(".data expression then
    parse_range_function expression FunctionType.Sum rows cols
  else if 4 ≤ expression.length && startsWithL "STDEV(".data expression then
    parse_range_function expression FunctionType.Stdev rows cols
  else if 4 ≤ expression.length && startsWithL "SLEEP(".data expression then
    let content := expression.drop 6
    match content.findIdx? (· = ')') with
    | none => (Function.new_constant 0, false)
    | some end_pos =>
      let value_str := content.take end_pos
      if (value_str.headD ' ').isDigit || value_str.headD ' ' = '-' then
        match parseI32 value_str with
        | some value => (Function.new_sleep value, true)
        | none => (Function.new_constant 0, false)
      else
        match parse_cell_reference value_str rows cols with
        | some cell => (Function.new_sleep_cell cell, true)
        | none => (Function.new_constant 0, false)
  else
    match findOpIdx expression with
    | some i =>
      let operator := expression.getD i ' '
      let operand1 := expression.take i
      let operand2 := expression.drop (i + 1)
      let p := parse_binary_op operand1 operand2 rows cols
      if !p.2 then (Function.new_constant 0, false)
      else
        match operator with
        | '+' => (Function.new_binary_op FunctionType.Plus p.1, true)
        | '-' => (Function.new_binary_op FunctionType.Minus p.1, true)
        | '*' => (Function.new_binary_op FunctionType.Multiply p.1, true)
        | '/' => (Function.new_binary_op FunctionType.Divide p.1, true)
        | _ => (Function.new_constant 0, false)
    | none =>
      match expression with
      | [] => (Function.new_constant 0, false)
      | c :: _ =>
        if c.isDigit || c = '-' then
          match parseI32 expression with
          | some value => (Function.new_constant value, true)
          | none => (Function.new_constant 0, false)
        else
          match parse_cell_reference expression rows cols with
          | some cell =>
            (Function.new_binary_op FunctionType.Plus
              ⟨⟨OperandType.Cell, OperandData.Cell cell⟩,
               ⟨OperandType.Int, OperandData.Value 0⟩⟩, true)
          | none => (Function.new_constant 0, false)

/-! ### Evaluator (`backend.rs`) -/

/-- The cells of a range rectangle in row-major order (empty when the
bounds are inverted, as Rust's `a..=b`). -/
def rangeCells (r : RangeFunction) : List Cell :=
  (List.range (r.bottom_right.row + 1 - r.top_left.row)).flatMap (fun i =>
    (List.range (r.bottom_right.col + 1 - r.top_left.col)).map (fun j =>
      Cell.mk (r.top_left.row + i) (r.top_left.col + j)))

/-- `get_operand_value`: literal, or the referenced cell's value / error. -/
def get_operand_value (g : Grid) (operand : Operand) : Except CellError Int :=
  match operand.data with
  | OperandData.Cell cell =>
    match (getCell g cell).error with
    | CellError.NoError => Except.ok (getCell g cell).value
    | CellError.DivideByZero => Except.error CellError.DivideByZero
    | CellError.DependencyError => Except.error CellError.DependencyError
    | CellError.Overflow => Except.error CellError.Overflow
  | OperandData.Value value => Except.ok value

/-- `plus_op`. -/
def plus_op (g : Grid) (bin_op : BinaryOp) : Except CellError Int := do
  let first ← get_operand_value g bin_op.first
  let second ← get_operand_value g bin_op.second
  Except.ok (wrap32 (first + second))

/-- `minus_op`. -/
def minus_op (g : Grid) (bin_op : BinaryOp) : Except CellError Int := do
  let first ← get_operand_value g bin_op.first
  let second ← get_operand_value g bin_op.second
  Except.ok (wrap32 (first - second))

/-- `multiply_op`: overflow guard via `2147483647 / abs`, then product. -/
def multiply_op (g : Grid) (bin_op : BinaryOp) : Except CellError Int := do
  let first ← get_operand_value g bin_op.first
  let second ← get_operand_value g bin_op.second
  if first ≠ 0 ∧ second ≠ 0 ∧
      (i32div 2147483647 (i32abs second) < i32abs first ∨
       i32div 2147483647 (i32abs first) < i32abs second) then
    Except.error CellError.Overflow
  else
    Except.ok (wrap32 (first * second))

/-- `divide_op`. -/
def divide_op (g : Grid) (bin_op : BinaryOp) : Except CellError Int := do
  let first ← get_operand_value g bin_op.first
  let second ← get_operand_value g bin_op.second
  if second = 0 then Except.error CellError.DivideByZero
  else Except.ok (i32div first second)

/-- Row-major scan of `min_function`. -/
def minScan (g : Grid) : List Cell → Int → Except CellError Int
  | [], acc => Except.ok acc
  | c :: cs, acc =>
    match (getCell g c).error with
    | CellError.NoError => minScan g cs (min acc (getCell g c).value)
    | CellError.DivideByZero => Except.error CellError.DivideByZero
    | CellError.DependencyError => Except.error CellError.DependencyError
    | CellError.Overflow => Except.error CellError.Overflow

/-- `min_function`. -/
def min_function (g : Grid) (range : RangeFunction) : Except CellError Int :=
  minScan g (rangeCells range) (2 ^ 31 - 1)

/-- Row-major scan of `max_function`. -/
def maxScan (g : Grid) : List Cell → Int → Except CellError Int
  | [], acc => Except.ok acc
  | c :: cs, acc =>
    match (getCell g c).error with
    | CellError.NoError => maxScan g cs (max acc (getCell g c).value)
    | CellError.DivideByZero => Except.error CellError.DivideByZero
    | CellError.DependencyError => Except.error CellError.DependencyError
    | CellError.Overflow => Except.error CellError.Overflow

/-- `max_function`. -/
def max_function (g : Grid) (range : RangeFunction) : Except CellError Int :=
  maxScan g (rangeCells range) (-(2 ^ 31))

/-- Row-major scan accumulating the wrapped sum and the count. -/
def sumScan (g : Grid) : List Cell → Int → Int → Except CellError (Int × Int)
  | [], s, k => Except.ok (s, k)
  | c :: cs, s, k =>
    match (getCell g c).error with
    | CellError.NoError => sumScan g cs (wrap32 (s + (getCell g c).value)) (k + 1)
    | CellError.DivideByZero => Except.error CellError.DivideByZero
    | CellError.DependencyError => Except.error CellError.DependencyError
    | CellError.Overflow => Except.error CellError.Overflow

/-- `sum_function`. -/
def sum_function (g : Grid) (range : RangeFunction) : Except CellError Int := do
  let p ← sumScan g (rangeCells range) 0 0
  Except.ok p.1

/-- `avg_function`. -/
def avg_function (g : Grid) (range : RangeFunction) : Except CellError Int := do
  let p ← sumScan g (rangeCells range) 0 0
  if p.2 = 0 then Except.error CellError.DivideByZero
  else Except.ok (i32div p.1 p.2)

/-- Row-major scan collecting values (for `stdev_function`). -/
def collectScan (g : Grid) : List Cell → List Int → Except CellError (List Int)
  | [], acc => Except.ok acc.reverse
  | c :: cs, acc =>
    match (getCell g c).error with
    | CellError.NoError => collectScan g cs ((getCell g c).value :: acc)
    | CellError.DivideByZero => Except.error CellError.DivideByZero
    | CellError.DependencyError => Except.error CellError.DependencyError
    | CellError.Overflow => Except.error CellError.Overflow

/-- `stdev_function`: the error scan and the integer mean are exact; the
`f64` variance accumulation and rounded square root are the parameter
`stdevVal values mean count`. -/
def stdev_function (stdevVal : List Int → Int → Int → Int) (g : Grid)
    (range : RangeFunction) : Except CellError Int := do
  let values ← collectScan g (rangeCells range) []
  let p ← sumScan g (rangeCells range) 0 0
  if p.2 = 0 then Except.error CellError.DivideByZero
  else Except.ok (stdevVal values (i32div p.1 p.2) p.2)

/-- `sleep_function`: the thread block is a side effect; the value is the
resolved operand. -/
def sleep_function (g : Grid) (operand : Operand) : Except CellError Int :=
  get_operand_value g operand

/-- `evaluate_expression(func) -> (value, error)`. -/
def evaluate_expression (stdevVal : List Int → Int → Int → Int) (g : Grid)
    (func : Function) : Int × CellError :=
  match func.data with
  | FunctionData.BinaryOp bin_op =>
    match func.type_ with
    | FunctionType.Plus =>
      match plus_op g bin_op with
      | Except.ok v => (v, CellError.NoError)
      | Except.error e => (0, e)
    | FunctionType.Minus =>
      match minus_op g bin_op with
      | Except.ok v => (v, CellError.NoError)
      | Except.error e => (0, e)
    | FunctionType.Multiply =>
      match multiply_op g bin_op with
      | Except.ok v => (v, CellError.NoError)
      | Except.error e => (0, e)
    | FunctionType.Divide =>
      match divide_op g bin_op with
      | Except.ok v => (v, CellError.NoError)
      | Except.error e => (0, e)
    | _ => (0, CellError.DependencyError)
  | FunctionData.RangeFunction range =>
    match func.type_ with
    | FunctionType.Min =>
      match min_function g range with
      | Except.ok v => (v, CellError.NoError)
      | Except.error e => (0, e)
    | FunctionType.Max =>
      match max_function g range with
      | Except.ok v => (v, CellError.NoError)
      | Except.error e => (0, e)
    | FunctionType.Avg =>
      match avg_function g range with
      | Except.ok v => (v, CellError.NoError)
      | Except.error e => (0, e)
    | FunctionType.Sum =>
      match sum_function g range with
      | Except.ok v => (v, CellError.NoError)
      | Except.error e => (0, e)
    | FunctionType.Stdev =>
      match stdev_function stdevVal g range with
      | Except.ok v => (v, CellError.NoError)
      | Except.error e => (0, e)
    | _ => (0, CellError.DependencyError)
  | FunctionData.SleepValue operand =>
    match sleep_function g operand with
    | Except.ok v => (v, CellError.NoError)
    | Except.error e => (0, e)
  | FunctionData.Value value => (value, CellError.NoError)

/-! ### Dependency graph operations (`backend.rs`) -/

/-- The cells directly referenced by a formula, with multiplicity
(the cells whose `dependents` lists `update_graph` touches). -/
def refsList (f : Function) : List Cell :=
  match f.data with
  | FunctionData.Value _ => []
  | FunctionData.BinaryOp b =>
    (match b.first.data with
     | OperandData.Cell c => [c]
     | OperandData.Value _ => []) ++
    (match b.second.data with
     | OperandData.Cell c => [c]
     | OperandData.Value _ => [])
  | FunctionData.RangeFunction r => rangeCells r
  | FunctionData.SleepValue op =>
    match op.data with
    | OperandData.Cell c => [c]
    | OperandData.Value _ => []

/-- One removal step of `update_graph`: `Vec::retain` dropping every
occurrence of `cell` from `p`'s dependents (order kept). -/
def remDepStep (cell : Cell) (gr : Grid) (p : Cell) : Grid :=
  updCell gr p (fun cd => { cd with dependents := cd.dependents.filter (· ≠ cell) })

/-- One addition step of `update_graph`: `Vec::push` of `cell` onto `p`'s
dependents. -/
def addDepStep (cell : Cell) (gr : Grid) (p : Cell) : Grid :=
  updCell gr p (fun cd => { cd with dependents := cd.dependents ++ [cell] })

/-- `update_graph(cell, old_function)`: remove `cell` from the dependents
of every cell referenced by the old formula (`Vec::retain`, all
occurrences, order kept), then push `cell` onto the dependents of every
cell referenced by the formula currently stored at `cell`. -/
def update_graph (g : Grid) (cell : Cell) (old_function : Function) : Grid :=
  let g1 := (refsList old_function).foldl (remDepStep cell) g
  (refsList (getCell g1 cell).function).foldl (addDepStep cell) g1

/-- Main loop of `check_circular_dependency`: DFS along `dependents`,
marking via `dirty_parents`; the first dependent equal to `start` stops
everything with a found cycle. -/
def flagStep (cond : Int → Bool) (v : Int) (p : Grid × List Cell) (d : Cell) :
    Grid × List Cell :=
  if cond (getCell p.1 d).dirty_parents then (setDirty p.1 d v, d :: p.2) else p

def cycleLoop (start : Cell) : Nat → Grid → List Cell → Option (Bool × Grid)
  | 0, _, _ => none
  | _ + 1, g, [] => some (false, g)
  | fuel + 1, g, current :: rest =>
    let deps := (getCell g current).dependents
    if deps.contains start then some (true, g)
    else
      let p := deps.foldl (flagStep (fun x => x = 0) 1) (g, rest)
      cycleLoop start fuel p.1 p.2

/-- Main loop of `reset_found`: DFS clearing every positive marker. -/
def resetLoop : Nat → Grid → List Cell → Option Grid
  | 0, _, _ => none
  | _ + 1, g, [] => some g
  | fuel + 1, g, current :: rest =>
    let deps := (getCell g current).dependents
    let p := deps.foldl (flagStep (fun x => 0 < x) 0) (g, rest)
    resetLoop fuel p.1 p.2

/-- Fuel sufficient for the marker DFS loops. -/
def dfsFuel (g : Grid) : Nat := 2 * cellCount g + 2

/-- `reset_found(start)`. -/
def reset_found (g : Grid) (start : Cell) : Option Grid :=
  resetLoop (dfsFuel g) (setDirty g start 0) [start]

/-- `check_circular_dependency(start)`: marking DFS, then the mirrored
reset traversal, returning whether a cycle through `start` was found. -/
def check_circular_dependency (g : Grid) (start : Cell) : Option (Bool × Grid) :=
  match cycleLoop start (dfsFuel g) (setDirty g start 1) [start] with
  | none => none
  | some (found, g1) =>
    match reset_found g1 start with
    | none => none
    | some g2 => some (found, g2)

/-- Main loop of `set_dirty_parents`: DFS accumulating, in
`dirty_parents`, the in-degree of every reachable cell within the
reachable subgraph (push on first discovery, increment every time). -/
def degStep (p : Grid × List Cell) (d : Cell) : Grid × List Cell :=
  let st := if (getCell p.1 d).dirty_parents = 0 then d :: p.2 else p.2
  (incDirty p.1 d, st)

def markLoop : Nat → Grid → List Cell → Option Grid
  | 0, _, _ => none
  | _ + 1, g, [] => some g
  | fuel + 1, g, current :: rest =>
    let deps := (getCell g current).dependents
    let p := deps.foldl degStep (g, rest)
    markLoop fuel p.1 p.2

/-- `set_dirty_parents(cell, stack)` (the stack starts empty at the call
site in `update_dependents`). -/
def set_dirty_parents (g : Grid) (cell : Cell) : Option Grid :=
  markLoop (dfsFuel g) (setDirty g cell 0) [cell]

/-- One decrement step of the processing pass (also of its seeding fold):
decrement the dependent's counter and enqueue it when the counter reaches
zero. -/
def procStep (p : Grid × List Cell) (d : Cell) : Grid × List Cell :=
  let g2 := decDirty p.1 d
  if (getCell g2 d).dirty_parents = 0 then (g2, d :: p.2) else (g2, p.2)

/-- Processing pass of `update_dependents`: pop a ready cell, evaluate its
formula against the current grid, store value and error, decrement its
dependents' counters, enqueue those that reach zero.  Also returns the
evaluation trace in processing order. -/
def processLoop (stdevVal : List Int → Int → Int → Int) :
    Nat → Grid → List Cell → List Cell → Option (Grid × List Cell)
  | 0, _, _, _ => none
  | _ + 1, g, [], trace => some (g, trace.reverse)
  | fuel + 1, g, current :: rest, trace =>
    let ve := evaluate_expression stdevVal g (getCell g current).function
    let g1 := updCell g current (fun cd => { cd with value := ve.1, error := ve.2 })
    let deps := (getCell g1 current).dependents
    let p := deps.foldl procStep (g1, rest)
    processLoop stdevVal fuel p.1 p.2 (current :: trace)

/-- Fuel sufficient for the processing pass from an initial stack. -/
def procFuel (g : Grid) (stack : List Cell) : Nat :=
  stack.length + 2 * sumPosDirty g + 1

/-- `update_dependents(cell)`: in-degree marking pass, seed with the
edited cell's direct dependents, then the topological processing pass.
Returns the updated grid and the evaluation trace. -/
def update_dependents (stdevVal : List Int → Int → Int → Int) (g : Grid) (cell : Cell) :
    Option (Grid × List Cell) :=
  match set_dirty_parents g cell with
  | none => none
  | some g1 =>
    let deps := (getCell g1 cell).dependents
    let p := deps.foldl procStep (g1, [])
    processLoop stdevVal (procFuel p.1 p.2) p.1 p.2 []

/-! ### Mutation orchestrator (`backend.rs::set_cell_value`) -/

/-- The immediate self-reference check of `set_cell_value`. -/
def selfRef (f : Function) (cell : Cell) : Bool :=
  match f.data with
  | FunctionData.BinaryOp bin_op =>
    bin_op.first.data = OperandData.Cell cell || bin_op.second.data = OperandData.Cell cell
  | FunctionData.RangeFunction range => (rangeCells range).contains cell
  | FunctionData.SleepValue operand => operand.data = OperandData.Cell cell
  | FunctionData.Value _ => false

def setFS (fs : List (List (List Char))) (cell : Cell) (s : List Char) :
    List (List (List Char)) :=
  fs.set cell.row ((fs.getD cell.row []).set cell.col s)

/-- `Backend::new(rows, cols)`. -/
def Backend.new (rows cols : Nat) : Backend :=
  { grid := List.replicate rows (List.replicate cols
      ⟨0, [], Function.new_constant 0, CellError.NoError, 0⟩),
    rows := rows,
    cols := cols,
    formula_strings := List.replicate rows (List.replicate cols "=0".data) }

/-- `get_cell_value` as observed by the frontends: `(value, error)`. -/
def getValueError (b : Backend) (cell : Cell) : Int × CellError :=
  ((getCell b.grid cell).value, (getCell b.grid cell).error)

/-- `set_cell_value(cell, expression)`: parse, constant fast path,
self-reference fast failure, tentative graph update, cycle check with
rollback, evaluation, propagation. -/
def set_cell_value (stdevVal : List Int → Int → Int → Int) (b : Backend) (cell : Cell)
    (expression : List Char) : Option (Except ExpressionError Unit × Backend) :=
  let pr := parse_expression expression b.rows b.cols
  if pr.2 = false then some (Except.error ExpressionError.CouldNotParse, b)
  else
    let new_function := pr.1
    let old_function := (getCell b.grid cell).function
    if new_function.type_ = FunctionType.Constant then
      let ve := evaluate_expression stdevVal b.grid new_function
      let g1 := updCell b.grid cell (fun cd =>
        { cd with value := ve.1, error := ve.2, function := new_function })
      let g2 := update_graph g1 cell old_function
      match update_dependents stdevVal g2 cell with
      | none => none
      | some (g3, _) =>
        some (Except.ok (),
          { b with
            grid := g3,
            formula_strings := setFS b.formula_strings cell ('=' :: expression) })
    else if selfRef new_function cell then
      some (Except.error ExpressionError.CircularDependency, b)
    else
      let g1 := updCell b.grid cell (fun cd => { cd with function := new_function })
      let g2 := update_graph g1 cell old_function
      match check_circular_dependency g2 cell with
      | none => none
      | some (true, g3) =>
        let g4 := updCell g3 cell (fun cd => { cd with function := old_function })
        let g5 := update_graph g4 cell new_function
        some (Except.error ExpressionError.CircularDependency, { b with grid := g5 })
      | some (false, g3) =>
        let ve := evaluate_expression stdevVal g3 new_function
        let g4 := updCell g3 cell (fun cd =>
          { cd with value := if ve.2 = CellError.NoError then ve.1 else 0, error := ve.2 })
        match update_dependents stdevVal g4 cell with
        | none => none
        | some (g5, _) =>
          some (Except.ok (),
            { b with
              grid := g5,
              formula_strings := setFS b.formula_strings cell expression })

/-! ### Snapshots (`backend.rs`) -/

/-- `create_snapshot()`: row-major clone of every cell with its formula
string. -/
def create_snapshot (b : Backend) : List (List (CellData × List Char)) :=
  (List.range b.rows).map (fun row =>
    (List.range b.cols).map (fun col =>
      (getCell b.grid ⟨row, col⟩, (b.formula_strings.getD row []).getD col [])))

/-- `apply_snapshot(snapshot)`: write every snapshot entry back. -/
def apply_snapshot (b : Backend) (snapshot : List (List (CellData × List Char))) : Backend :=
  (snapshot.enum.foldl (fun acc rowp =>
    (rowp.2.enum.foldl (fun acc2 valp =>
      { acc2 with
        grid := setCell acc2.grid ⟨rowp.1, valp.1⟩ valp.2.1,
        formula_strings := setFS acc2.formula_strings ⟨rowp.1, valp.1⟩ valp.2.2 }) acc)) b)

/-! ### Basic arithmetic lemmas -/

/-- A fixed instantiation of the standard-deviation parameter, used by the
concrete examples (none of which evaluates a `STDEV` formula). -/
def sv0 : List Int → Int → Int → Int := fun _ _ _ => 0

theorem wrap32_bounds (n : Int) : -(2 ^ 31) ≤ wrap32 n ∧ wrap32 n < 2 ^ 31 := by
  unfold wrap32 M32
  omega

theorem wrap32_eq_self {n : Int} (h1 : -(2 ^ 31) ≤ n) (h2 : n < 2 ^ 31) : wrap32 n = n := by
  unfold wrap32 M32
  omega

theorem wrap32_mod (n : Int) : wrap32 n % M32 = n % M32 := by
  unfold wrap32 M32
  omega

theorem i32abs_eq_natAbs {a : Int} (h1 : -(2 ^ 31) < a) (h2 : a < 2 ^ 31) :
    i32abs a = (a.natAbs : Int) := by
  unfold i32abs
  split
  · rw [wrap32_eq_self (by omega) (by omega)]
    omega
  · rw [wrap32_eq_self (by omega) (by omega)]
    omega

theorem i32div_nonneg_eq {a b : Int} (ha : 0 ≤ a) (hb : 0 ≤ b) (hlt : a < 2 ^ 31) :
    i32div a b = ((a.natAbs / b.natAbs : Nat) : Int) := by
  unfold i32div
  rw [if_pos (by simp [ha, hb])]
  have h0 : (0 : Int) ≤ ((a.natAbs / b.natAbs : Nat) : Int) := Int.ofNat_nonneg _
  refine wrap32_eq_self (by omega) ?_
  have h1 : (a.natAbs / b.natAbs : Nat) ≤ a.natAbs := Nat.div_le_self _ _
  have h2 : (a.natAbs : Int) = a := Int.natAbs_of_nonneg ha
  omega

/-! ### C4: immediate self-reference fast path -/

/-- C4: for every grid state, every cell `c` and every expression that
parses to a non-constant formula whose operands or range rectangle include
`c` itself, `set_cell_value` fails with `CircularDependency` immediately
and the backend is returned completely unchanged (no graph mutation is
attempted). -/
theorem C4_selfref_fast_fail (sv : List Int → Int → Int → Int) (b : Backend) (cell : Cell)
    (s : List Char)
    (hp : (parse_expression s b.rows b.cols).2 = true)
    (hnc : (parse_expression s b.rows b.cols).1.type_ ≠ FunctionType.Constant)
    (hsr : selfRef (parse_expression s b.rows b.cols).1 cell = true) :
    set_cell_value sv b cell s = some (Except.error ExpressionError.CircularDependency, b) := by
  simp [set_cell_value, hp, hnc, hsr]

/-- Witness for C4: setting `A1` to `A1+1` on a fresh 2×2 grid. -/
theorem C4_selfref_fast_fail_witness :
    set_cell_value sv0 (Backend.new 2 2) ⟨0, 0⟩ ['A', '1', '+', '1']
      = some (Except.error ExpressionError.CircularDependency, Backend.new 2 2) :=
  C4_selfref_fast_fail sv0 (Backend.new 2 2) ⟨0, 0⟩ ['A', '1', '+', '1']
    (by decide) (by decide) (by decide)

/-! ### C6: multiply overflow guard -/

/-- Unfolding of `multiply_op` on resolved (literal) operands. -/
theorem multiply_op_val (g : Grid) (a b : Int) :
    multiply_op g ⟨⟨OperandType.Int, OperandData.Value a⟩, ⟨OperandType.Int, OperandData.Value b⟩⟩
      = if a ≠ 0 ∧ b ≠ 0 ∧
            (i32div 2147483647 (i32abs b) < i32abs a ∨
             i32div 2147483647 (i32abs a) < i32abs b) then
          Except.error CellError.Overflow
        else Except.ok (wrap32 (a * b)) := rfl

/-- C6 (counterexample to the claim as stated): `2 * (-1073741824)` is
`-2147483648 = i32::MIN`, which fits in `i32`, yet `multiply_op` reports
`Overflow`; and for the operand pair `(i32::MIN, i32::MIN)` the product
does not fit, yet `multiply_op` returns `Ok 0` (the wrapped `abs` defeats
the guard). -/
theorem C6_counterexample :
    multiply_op [] ⟨⟨OperandType.Int, OperandData.Value 2⟩,
        ⟨OperandType.Int, OperandData.Value (-1073741824)⟩⟩
      = Except.error CellError.Overflow ∧
    (2 : Int) * (-1073741824) = -2147483648 ∧
    -(2 ^ 31 : Int) ≤ -2147483648 ∧
    multiply_op [] ⟨⟨OperandType.Int, OperandData.Value (-2147483648)⟩,
        ⟨OperandType.Int, OperandData.Value (-2147483648)⟩⟩
      = Except.ok 0 := ⟨rfl, by norm_num, by norm_num, rfl⟩

/-- C6 (amended): for error-free resolved operands `a`, `b` strictly
between the `i32` extremes (neither equal to `i32::MIN`), `multiply_op`
returns `Overflow` exactly when the product's absolute value exceeds
`i32::MAX` (so the representable product `i32::MIN` is also reported as
overflow), and otherwise returns the exact product. -/
theorem C6_multiply_overflow_guard (g : Grid) (a b : Int)
    (ha : -(2 ^ 31) < a ∧ a < 2 ^ 31) (hb : -(2 ^ 31) < b ∧ b < 2 ^ 31) :
    (multiply_op g ⟨⟨OperandType.Int, OperandData.Value a⟩,
        ⟨OperandType.Int, OperandData.Value b⟩⟩ = Except.error CellError.Overflow
      ↔ 2 ^ 31 - 1 < (a * b).natAbs) ∧
    ((a * b).natAbs ≤ 2 ^ 31 - 1 →
      multiply_op g ⟨⟨OperandType.Int, OperandData.Value a⟩,
        ⟨OperandType.Int, OperandData.Value b⟩⟩ = Except.ok (a * b)) := by
  rw [multiply_op_val]
  have habs : (a * b).natAbs = a.natAbs * b.natAbs := Int.natAbs_mul a b
  have hw0 : wrap32 0 = 0 := by decide
  by_cases ha0 : a = 0
  · subst ha0
    simp [hw0]
  by_cases hb0 : b = 0
  · subst hb0
    simp [hw0]
  have hpa : 0 < a.natAbs := Int.natAbs_pos.mpr ha0
  have hpb : 0 < b.natAbs := Int.natAbs_pos.mpr hb0
  have hay := i32abs_eq_natAbs ha.1 ha.2
  have hby := i32abs_eq_natAbs hb.1 hb.2
  have hda : i32div 2147483647 (i32abs a) = ((2147483647 / a.natAbs : Nat) : Int) := by
    rw [hay, i32div_nonneg_eq (by norm_num) (Int.ofNat_nonneg _) (by norm_num)]
    norm_num
  have hdb : i32div 2147483647 (i32abs b) = ((2147483647 / b.natAbs : Nat) : Int) := by
    rw [hby, i32div_nonneg_eq (by norm_num) (Int.ofNat_nonneg _) (by norm_num)]
    norm_num
  have hcond : (i32div 2147483647 (i32abs b) < i32abs a ∨
      i32div 2147483647 (i32abs a) < i32abs b) ↔ 2 ^ 31 - 1 < (a * b).natAbs := by
    rw [hda, hdb, hay, hby, habs]
    have e1 : ((2147483647 / b.natAbs : Nat) : Int) < (a.natAbs : Int)
        ↔ 2147483647 / b.natAbs < a.natAbs := Int.ofNat_lt
    have e2 : ((2147483647 / a.natAbs : Nat) : Int) < (b.natAbs : Int)
        ↔ 2147483647 / a.natAbs < b.natAbs := Int.ofNat_lt
    rw [e1, e2, Nat.div_lt_iff_lt_mul hpb, Nat.div_lt_iff_lt_mul hpa]
    constructor
    · rintro (h | h)
      · simpa [Nat.mul_comm] using h
      · simpa [Nat.mul_comm] using h
    · intro h
      left
      omega
  constructor
  · constructor
    · intro h
      by_contra hlt
      rw [if_neg (by tauto)] at h
      exact Except.noConfusion h
    · intro h
      rw [if_pos ⟨ha0, hb0, hcond.mpr h⟩]
  · intro h
    rw [if_neg (by
      rintro ⟨-, -, hc⟩
      have := hcond.mp hc
      omega)]
    have hr : -(2 ^ 31) ≤ a * b ∧ a * b < 2 ^ 31 := by
      constructor <;> omega
    rw [wrap32_eq_self hr.1 hr.2]

/-- Witness for C6 (amended): `2147483647 * 2` yields `Overflow`. -/
theorem C6_multiply_overflow_guard_witness :
    multiply_op [] ⟨⟨OperandType.Int, OperandData.Value 2147483647⟩,
        ⟨OperandType.Int, OperandData.Value 2⟩⟩ = Except.error CellError.Overflow :=
  (C6_multiply_overflow_guard [] 2147483647 2 (by decide) (by decide)).1.mpr (by decide)

/-! ### C7: plus and minus never fail on their operands -/

/-- C7: for every pair of error-free resolved `i32` operand values, `Plus`
and `Minus` formulas evaluate without failure: the result is `Ok` with the
(wrapping) `i32` sum / difference and `NoError`, also when the
mathematical sum or difference lies outside the `i32` range; the stored
result is again an in-range `i32` congruent to the mathematical result
modulo `2^32`. -/
theorem C7_plus_minus_never_fail (sv : List Int → Int → Int → Int) (g : Grid) (a b : Int)
    (ha : -(2 ^ 31) ≤ a ∧ a < 2 ^ 31) (hb : -(2 ^ 31) ≤ b ∧ b < 2 ^ 31) :
    evaluate_expression sv g (Function.new_binary_op FunctionType.Plus
        ⟨⟨OperandType.Int, OperandData.Value a⟩, ⟨OperandType.Int, OperandData.Value b⟩⟩)
      = (wrap32 (a + b), CellError.NoError) ∧
    evaluate_expression sv g (Function.new_binary_op FunctionType.Minus
        ⟨⟨OperandType.Int, OperandData.Value a⟩, ⟨OperandType.Int, OperandData.Value b⟩⟩)
      = (wrap32 (a - b), CellError.NoError) ∧
    (-(2 ^ 31) ≤ wrap32 (a + b) ∧ wrap32 (a + b) < 2 ^ 31 ∧
      wrap32 (a + b) % M32 = (a + b) % M32) ∧
    (-(2 ^ 31) ≤ wrap32 (a - b) ∧ wrap32 (a - b) < 2 ^ 31 ∧
      wrap32 (a - b) % M32 = (a - b) % M32) := by
  refine ⟨rfl, rfl, ?_, ?_⟩
  · exact ⟨(wrap32_bounds _).1, (wrap32_bounds _).2, wrap32_mod _⟩
  · exact ⟨(wrap32_bounds _).1, (wrap32_bounds _).2, wrap32_mod _⟩

/-- Witness for C7: `2147483647 + 1` still returns `Ok` (wrapping). -/
theorem C7_plus_minus_never_fail_witness :
    evaluate_expression sv0 [] (Function.new_binary_op FunctionType.Plus
        ⟨⟨OperandType.Int, OperandData.Value 2147483647⟩,
         ⟨OperandType.Int, OperandData.Value 1⟩⟩)
      = (wrap32 (2147483647 + 1), CellError.NoError) :=
  (C7_plus_minus_never_fail sv0 [] 2147483647 1 (by decide) (by decide)).1

/-! ### C8: cell-reference parsing -/

/-- Exact base-26 value of a letter string (`A`=1 … `Z`=26, `AA`=27, …). -/
def lettersVal (L : List Char) : Nat :=
  L.foldl (fun a c => a * 26 + (c.toNat - 'A'.toNat + 1)) 0

/-- Base-26 value accumulated with the 64-bit `usize` wrap. -/
def lettersValWrap (L : List Char) : Nat :=
  L.foldl (fun a c => (a * 26 + (c.toNat - 'A'.toNat + 1)) % U64) 0

/-- The cell-reference text format exactly as the spec words it: one or
more uppercase letters encoding an exact base-26 column, one or more
digits encoding a 1-based row, both converted to 0-based indices and
bounds-checked; anything malformed or out of bounds is no cell. -/
def specCellRefExact (s : List Char) (rows cols : Nat) : Option Cell :=
  let L := s.takeWhile Char.isUpper
  let D := s.dropWhile Char.isUpper
  if L = [] ∨ D = [] ∨ ¬(D.all Char.isDigit = true) then none
  else if 1 ≤ digitsToNat D ∧ digitsToNat D - 1 < rows ∧ lettersVal L - 1 < cols then
    some ⟨digitsToNat D - 1, lettersVal L - 1⟩
  else none

/-- The cell-reference format with the implementation's 64-bit `usize`
arithmetic: the digit value must fit in `usize` (checked `parse`), and the
column accumulation and the two `-= 1` conversions wrap modulo `2^64`. -/
def specCellRef (s : List Char) (rows cols : Nat) : Option Cell :=
  let L := s.takeWhile Char.isUpper
  let D := s.dropWhile Char.isUpper
  if L = [] ∨ D = [] ∨ ¬(D.all Char.isDigit = true) ∨ U64 ≤ digitsToNat D then none
  else
    let row0 := (digitsToNat D + (U64 - 1)) % U64
    let col0 := (lettersValWrap L + (U64 - 1)) % U64
    if rows ≤ row0 ∨ cols ≤ col0 then none
    else some ⟨row0, col0⟩

theorem colLoop_spec (s : List Char) (acc : Nat) :
    colLoop s acc = ((s.takeWhile Char.isUpper).foldl
        (fun a c => (a * 26 + (c.toNat - 'A'.toNat + 1)) % U64) acc,
      s.dropWhile Char.isUpper) := by
  induction s generalizing acc with
  | nil => rfl
  | cons c cs ih =>
    by_cases hc : c.isUpper
    · simp only [colLoop, hc, if_true, List.takeWhile_cons, List.dropWhile_cons, ih,
        List.foldl_cons]
    · simp only [colLoop, hc, if_false, List.takeWhile_cons, List.dropWhile_cons,
        Bool.false_eq_true, List.foldl_nil]

/-- The column letters `GKGWBYLWRXTLPQ` denote the base-26 value
`2^64 + 1`, which wraps to column `A`. -/
def bigColRef : List Char :=
  ['G', 'K', 'G', 'W', 'B', 'Y', 'L', 'W', 'R', 'X', 'T', 'L', 'P', 'Q', '1']

/-- C8 (counterexample to the claim as stated): on a 10×10 grid the
reference `GKGWBYLWRXTLPQ1` names a column whose base-26 value `2^64 + 1`
is astronomically out of bounds, so the claim requires `None`; the parser
wraps the `usize` accumulation and returns cell `(0, 0)`. -/
theorem C8_counterexample :
    parse_cell_reference bigColRef 10 10 = some ⟨0, 0⟩ ∧
    specCellRefExact bigColRef 10 10 = none ∧
    lettersVal (bigColRef.takeWhile Char.isUpper) = 2 ^ 64 + 1 := by decide

/-- C8 (amended): `parse_cell_reference` returns `Some` exactly on
letters-then-digits references whose digit value fits in `usize` and
whose 0-based row and *wrapped* (modulo `2^64`) 0-based column lie within
the bounds, and then returns that coordinate; in particular `A0` wraps to
row `2^64 - 1`, fails the bounds check, and returns `None` rather than a
cell. -/
theorem C8_parse_cell_reference_spec (s : List Char) (rows cols : Nat) :
    parse_cell_reference s rows cols = specCellRef s rows cols := by
  cases s with
  | nil => rfl
  | cons c0 cs =>
    by_cases hc : c0.isUpper
    · simp only [parse_cell_reference, specCellRef, hc, Bool.not_true, Bool.false_eq_true,
        if_false, colLoop_spec, List.takeWhile_cons, List.dropWhile_cons, if_true]
      cases hD : List.dropWhile Char.isUpper cs with
      | nil => simp
      | cons d0 ds =>
        by_cases hd : d0.isDigit
        · by_cases hall : (d0 :: ds).all Char.isDigit = true
          · simp only [hd, hall, Bool.not_true, Bool.false_eq_true, if_false]
            by_cases hbig : U64 ≤ digitsToNat (d0 :: ds)
            · simp [hbig, lettersValWrap]
            · simp only [hbig, lettersValWrap]
              simp
          · have hd' : ¬((d0 :: ds).all Char.isDigit) = true := hall
            simp [hd, hd']
        · have hall : ¬((d0 :: ds).all Char.isDigit) = true := by
            simp [List.all_cons, hd]
          simp [hd, hall]
    · have hL : List.takeWhile Char.isUpper (c0 :: cs) = [] := by
        simp [List.takeWhile_cons, hc]
      simp [parse_cell_reference, specCellRef, hc, hL]

/-! ### C9: snapshot round trip -/

/-- The dimension consistency of a backend: `rows` lists of `cols` cells,
and the matching formula-string table.  `Backend::new` establishes it and
every operation preserves it. -/
def dimsOK (b : Backend) : Prop :=
  b.grid.length = b.rows ∧ (∀ row ∈ b.grid, row.length = b.cols) ∧
  b.formula_strings.length = b.rows ∧ (∀ row ∈ b.formula_strings, row.length = b.cols)

theorem foldl_fixed {α β : Type _} {f : β → α → β} {b : β} {l : List α}
    (h : ∀ x ∈ l, f b x = b) : l.foldl f b = b := by
  induction l with
  | nil => rfl
  | cons a l ih =>
    rw [List.foldl_cons, h a (by simp)]
    exact ih (fun x hx => h x (by simp [hx]))

theorem set_getD_self {α : Type _} (l : List α) (i : Nat) (d : α) (h : i < l.length) :
    l.set i (l.getD i d) = l := by
  induction l generalizing i with
  | nil => simp at h
  | cons a l ih =>
    cases i with
    | zero => simp [List.getD]
    | succ k =>
      simp only [List.getD_cons_succ, List.set_cons_succ, List.cons.injEq, true_and]
      exact ih k (by simpa using h)

theorem enum_map_range {α : Type _} (n : Nat) (f : Nat → α) :
    ((List.range n).map f).enum = (List.range n).map (fun i => (i, f i)) := by
  apply List.ext_getElem?
  intro i
  by_cases h : i < n
  · simp [List.getElem?_enum, List.getElem?_map, List.getElem?_range, h]
  · have hn : (List.range n)[i]? = none := List.getElem?_eq_none (by simpa using h)
    simp [List.getElem?_enum, List.getElem?_map, hn]

/-- C9: applying a snapshot created from the very same state restores the
state exactly: every cell's value, error, formula, dependents list, dirty
counter and stored formula string are identical; the round trip is the
identity on the backend. -/
theorem C9_snapshot_roundtrip (b : Backend) (h : dimsOK b) :
    apply_snapshot b (create_snapshot b) = b := by
  obtain ⟨hg, hrow, hf, hfrow⟩ := h
  unfold apply_snapshot create_snapshot
  rw [enum_map_range, List.foldl_map]
  refine foldl_fixed ?_
  intro i hi
  have hi' : i < b.rows := List.mem_range.mp hi
  rw [enum_map_range, List.foldl_map]
  refine foldl_fixed ?_
  intro j hj
  have hj' : j < b.cols := List.mem_range.mp hj
  have hrl : (b.grid.getD i []).length = b.cols := by
    have : i < b.grid.length := by omega
    rw [List.getD_eq_getElem b.grid [] this]
    exact hrow _ (List.getElem_mem this)
  have hfl : (b.formula_strings.getD i []).length = b.cols := by
    have : i < b.formula_strings.length := by omega
    rw [List.getD_eq_getElem b.formula_strings [] this]
    exact hfrow _ (List.getElem_mem this)
  have hig : i < b.grid.length := by omega
  have hjg : j < (b.grid.getD i []).length := by omega
  have hif : i < b.formula_strings.length := by omega
  have hjf : j < (b.formula_strings.getD i []).length := by omega
  have hsg : setCell b.grid ⟨i, j⟩ (getCell b.grid ⟨i, j⟩) = b.grid := by
    unfold setCell getCell
    dsimp only
    rw [set_getD_self _ _ _ hjg, set_getD_self _ _ _ hig]
  have hsf : setFS b.formula_strings ⟨i, j⟩ ((b.formula_strings.getD i []).getD j [])
      = b.formula_strings := by
    unfold setFS
    dsimp only
    rw [set_getD_self _ _ _ hjf, set_getD_self _ _ _ hif]
  show { b with
    grid := setCell b.grid ⟨i, j⟩ (getCell b.grid ⟨i, j⟩),
    formula_strings := setFS b.formula_strings ⟨i, j⟩
      ((b.formula_strings.getD i []).getD j []) } = b
  rw [hsg, hsf]

/-- Witness for C9: the round trip on a fresh 2×2 grid. -/
theorem C9_snapshot_roundtrip_witness :
    apply_snapshot (Backend.new 2 2) (create_snapshot (Backend.new 2 2)) = Backend.new 2 2 :=
  C9_snapshot_roundtrip (Backend.new 2 2) ⟨by decide, by decide, by decide, by decide⟩

/-! ### Pointwise characterization of grid updates -/

/-- `c` addresses a real slot of `g`. -/
def inB (g : Grid) (c : Cell) : Prop :=
  c.row < g.length ∧ c.col < (g.getD c.row []).length

instance (g : Grid) (c : Cell) : Decidable (inB g c) := by
  unfold inB
  infer_instance

theorem getD_set_self {α : Type _} (l : List α) (i : Nat) (a d : α) (h : i < l.length) :
    (l.set i a).getD i d = a := by
  induction l generalizing i with
  | nil => simp at h
  | cons x l ih =>
    cases i with
    | zero => simp
    | succ k => simpa using ih k (by simpa using h)

theorem getD_set_ne {α : Type _} (l : List α) (i j : Nat) (a d : α) (h : i ≠ j) :
    (l.set i a).getD j d = l.getD j d := by
  induction l generalizing i j with
  | nil => simp
  | cons x l ih =>
    cases i with
    | zero =>
      cases j with
      | zero => omega
      | succ m => simp
    | succ k =>
      cases j with
      | zero => simp
      | succ m => simpa using ih k m (by omega)

theorem length_setCell (g : Grid) (c : Cell) (d : CellData) :
    (setCell g c d).length = g.length := by
  simp [setCell]

theorem rowLen_setCell (g : Grid) (c : Cell) (d : CellData) (r : Nat) :
    ((setCell g c d).getD r []).length = (g.getD r []).length := by
  unfold setCell
  by_cases h : c.row = r
  · subst h
    by_cases hr : c.row < g.length
    · rw [getD_set_self _ _ _ _ hr]
      simp
    · rw [List.set_eq_of_length_le (by omega)]
  · rw [getD_set_ne _ _ _ _ _ h]

theorem inB_setCell (g : Grid) (c : Cell) (d : CellData) (q : Cell) :
    inB (setCell g c d) q ↔ inB g q := by
  unfold inB
  rw [length_setCell, rowLen_setCell]

/-- The single pointwise description of a cell write. -/
theorem getCell_setCell (g : Grid) (c : Cell) (d : CellData) (q : Cell) :
    getCell (setCell g c d) q = if q = c ∧ inB g c then d else getCell g q := by
  unfold getCell setCell inB
  by_cases hrow : q.row = c.row
  · by_cases hr : c.row < g.length
    · rw [hrow, getD_set_self _ _ _ _ hr]
      by_cases hcol : q.col = c.col
      · by_cases hc : c.col < (g.getD c.row []).length
        · rw [hcol, getD_set_self _ _ _ _ hc, if_pos]
          exact ⟨by cases q; cases c; simp_all, hr, hc⟩
        · rw [hcol, List.set_eq_of_length_le (by omega), if_neg]
          rintro ⟨-, -, h⟩
          omega
      · rw [getD_set_ne _ _ _ _ _ (fun h => hcol h.symm), if_neg]
        rintro ⟨h, -⟩
        exact hcol (by rw [h])
    · rw [List.set_eq_of_length_le (by omega), if_neg, hrow]
      rintro ⟨-, h, -⟩
      omega
  · rw [getD_set_ne _ _ _ _ _ (fun h => hrow h.symm), if_neg]
    rintro ⟨h, -⟩
    exact hrow (by rw [h])

theorem getCell_updCell (g : Grid) (c : Cell) (f : CellData → CellData) (q : Cell) :
    getCell (updCell g c f) q = if q = c ∧ inB g c then f (getCell g c) else getCell g q := by
  unfold updCell
  exact getCell_setCell g c _ q

theorem getCell_updCell_self {g : Grid} {c : Cell} (f : CellData → CellData) (h : inB g c) :
    getCell (updCell g c f) c = f (getCell g c) := by
  rw [getCell_updCell, if_pos ⟨rfl, h⟩]

theorem getCell_updCell_ne {g : Grid} {c : Cell} (f : CellData → CellData) {q : Cell}
    (h : q ≠ c) : getCell (updCell g c f) q = getCell g q := by
  rw [getCell_updCell, if_neg (fun hh => h hh.1)]

theorem length_updCell (g : Grid) (c : Cell) (f : CellData → CellData) :
    (updCell g c f).length = g.length := length_setCell _ _ _

theorem rowLen_updCell (g : Grid) (c : Cell) (f : CellData → CellData) (r : Nat) :
    ((updCell g c f).getD r []).length = (g.getD r []).length := rowLen_setCell _ _ _ _

theorem inB_updCell (g : Grid) (c : Cell) (f : CellData → CellData) (q : Cell) :
    inB (updCell g c f) q ↔ inB g q := inB_setCell _ _ _ _

/-- Two grids of the same shape that agree pointwise are equal. -/
theorem grid_ext {g g' : Grid} (hlen : g'.length = g.length)
    (hrow : ∀ r, (g'.getD r []).length = (g.getD r []).length)
    (hpt : ∀ q, getCell g' q = getCell g q) : g' = g := by
  apply List.ext_getElem (by omega)
  intro r hr hr'
  apply List.ext_getElem
  · have := hrow r
    rw [List.getD_eq_getElem g' [] hr, List.getD_eq_getElem g [] hr'] at this
    omega
  intro c hc hc'
  have := hpt ⟨r, c⟩
  unfold getCell at this
  rw [List.getD_eq_getElem g' [] hr, List.getD_eq_getElem g [] hr'] at this
  rw [List.getD_eq_getElem _ default hc, List.getD_eq_getElem _ default hc'] at this
  exact this

/-! ### Characterization of `update_graph` -/

theorem foldl_preserve {α β : Type _} (P : β → Prop) {f : β → α → β} {l : List α} {b : β}
    (hb : P b) (hf : ∀ b x, P b → x ∈ l → P (f b x)) : P (l.foldl f b) := by
  induction l generalizing b with
  | nil => exact hb
  | cons a l ih =>
    exact ih (hf b a hb (by simp)) (fun b' x h hx => hf b' x h (by simp [hx]))

theorem shape_foldl_remDepStep (L : List Cell) (g : Grid) (c : Cell) :
    (L.foldl (remDepStep c) g).length = g.length ∧
    ∀ r, ((L.foldl (remDepStep c) g).getD r []).length = (g.getD r []).length := by
  refine foldl_preserve (fun gr : Grid => gr.length = g.length ∧
      ∀ r, (gr.getD r []).length = (g.getD r []).length) ⟨rfl, fun _ => rfl⟩ ?_
  rintro gr p ⟨h1, h2⟩ -
  exact ⟨by rw [remDepStep, length_updCell, h1],
    fun r => by rw [remDepStep, rowLen_updCell]; exact h2 r⟩

theorem shape_foldl_addDepStep (L : List Cell) (g : Grid) (c : Cell) :
    (L.foldl (addDepStep c) g).length = g.length ∧
    ∀ r, ((L.foldl (addDepStep c) g).getD r []).length = (g.getD r []).length := by
  refine foldl_preserve (fun gr : Grid => gr.length = g.length ∧
      ∀ r, (gr.getD r []).length = (g.getD r []).length) ⟨rfl, fun _ => rfl⟩ ?_
  rintro gr p ⟨h1, h2⟩ -
  exact ⟨by rw [addDepStep, length_updCell, h1],
    fun r => by rw [addDepStep, rowLen_updCell]; exact h2 r⟩

theorem inB_foldl_remDepStep (L : List Cell) (g : Grid) (c : Cell) (q : Cell) :
    inB (L.foldl (remDepStep c) g) q ↔ inB g q := by
  unfold inB
  rw [(shape_foldl_remDepStep L g c).1, (shape_foldl_remDepStep L g c).2 q.row]

theorem remFold_pointwise (L : List Cell) (c : Cell) (g : Grid) (q : Cell) :
    getCell (L.foldl (remDepStep c) g) q
      = if q ∈ L ∧ inB g q then
          { getCell g q with dependents := (getCell g q).dependents.filter (· ≠ c) }
        else getCell g q := by
  induction L generalizing g with
  | nil => simp
  | cons p L ih =>
    rw [List.foldl_cons, ih]
    simp only [remDepStep, getCell_updCell, inB_updCell]
    have hfilt : ∀ l : List Cell, (l.filter (· ≠ c)).filter (· ≠ c) = l.filter (· ≠ c) := by
      intro l
      rw [List.filter_filter]
      simp
    by_cases hqp : q = p
    · subst hqp
      by_cases hin : inB g q
      · by_cases hq : q ∈ L <;> simp [hin, hq, hfilt, List.mem_cons]
      · by_cases hq : q ∈ L <;> simp [hin, hq, List.mem_cons]
    · by_cases hin : inB g q
      · by_cases hq : q ∈ L <;> simp [hin, hq, hqp, List.mem_cons]
      · by_cases hq : q ∈ L <;> simp [hin, hq, hqp, List.mem_cons]

theorem addFold_pointwise (L : List Cell) (c : Cell) (g : Grid) (q : Cell) :
    getCell (L.foldl (addDepStep c) g) q
      = if inB g q then
          { getCell g q with dependents :=
              (getCell g q).dependents ++ List.replicate (L.count q) c }
        else getCell g q := by
  induction L generalizing g with
  | nil => simp
  | cons p L ih =>
    rw [List.foldl_cons, ih]
    simp only [addDepStep, getCell_updCell, inB_updCell]
    by_cases hqp : q = p
    · subst hqp
      by_cases hin : inB g q
      · simp [hin, List.count_cons, List.replicate_succ, List.append_assoc,
          List.singleton_append]
      · simp [hin]
    · by_cases hin : inB g q
      · have hpq : p ≠ q := fun h => hqp h.symm
        simp [hin, hqp, hpq, List.count_cons]
      · simp [hin, hqp]

/-- Pointwise description of `update_graph`: for an in-bounds cell `q`,
the dependents list first loses every `cell` entry when `q` is referenced
by the old formula, then gains one `cell` entry per reference to `q` in
the formula currently stored at `cell`; nothing else changes. -/
theorem update_graph_pointwise (g : Grid) (cell : Cell) (old : Function) (q : Cell) :
    getCell (update_graph g cell old) q =
      if inB g q then
        { getCell g q with
          dependents :=
            (if q ∈ refsList old then (getCell g q).dependents.filter (· ≠ cell)
                else (getCell g q).dependents) ++
              List.replicate ((refsList (getCell g cell).function).count q) cell }
      else getCell g q := by
  unfold update_graph
  dsimp only
  have hfun : (getCell ((refsList old).foldl (remDepStep cell) g) cell).function
      = (getCell g cell).function := by
    rw [remFold_pointwise]
    split <;> rfl
  rw [hfun, addFold_pointwise, remFold_pointwise]
  simp only [inB_foldl_remDepStep]
  by_cases hin : inB g q
  · by_cases hq : q ∈ refsList old
    · simp [hin, hq]
    · simp [hin, hq]
  · simp [hin]

theorem length_update_graph (g : Grid) (cell : Cell) (old : Function) :
    (update_graph g cell old).length = g.length := by
  unfold update_graph
  rw [(shape_foldl_addDepStep _ _ _).1, (shape_foldl_remDepStep _ _ _).1]

theorem rowLen_update_graph (g : Grid) (cell : Cell) (old : Function) (r : Nat) :
    ((update_graph g cell old).getD r []).length = (g.getD r []).length := by
  unfold update_graph
  rw [(shape_foldl_addDepStep _ _ _).2, (shape_foldl_remDepStep _ _ _).2]

theorem inB_update_graph (g : Grid) (cell : Cell) (old : Function) (q : Cell) :
    inB (update_graph g cell old) q ↔ inB g q := by
  unfold inB
  rw [length_update_graph, rowLen_update_graph]

/-! ### The marker-flagging folds -/

theorem setCell_oob {g : Grid} {c : Cell} (h : ¬ inB g c) (d : CellData) :
    setCell g c d = g := by
  unfold setCell inB at *
  by_cases hr : c.row < g.length
  · rw [List.set_eq_of_length_le (l := g.getD c.row []) (by omega)]
    exact set_getD_self g c.row [] hr
  · exact List.set_eq_of_length_le (by omega)

theorem updCell_oob {g : Grid} {c : Cell} (h : ¬ inB g c) (f : CellData → CellData) :
    updCell g c f = g := setCell_oob h _

theorem inB_setDirty (g : Grid) (c : Cell) (n : Int) (q : Cell) :
    inB (setDirty g c n) q ↔ inB g q := inB_updCell _ _ _ _

theorem getCell_setDirty_self {g : Grid} {c : Cell} (n : Int) (h : inB g c) :
    getCell (setDirty g c n) c = { getCell g c with dirty_parents := n } :=
  getCell_updCell_self _ h

theorem getCell_setDirty_ne {g : Grid} {c : Cell} (n : Int) {q : Cell} (h : q ≠ c) :
    getCell (setDirty g c n) q = getCell g q := getCell_updCell_ne _ h

theorem setDirty_oob {g : Grid} {c : Cell} (h : ¬ inB g c) (n : Int) :
    setDirty g c n = g := updCell_oob h _

/-- Pointwise grid effect of a flagging fold: exactly the in-bounds
dependents whose marker satisfied `cond` at entry get marker `v`. -/
theorem flagFold_grid (cond : Int → Bool) (v : Int) (deps : List Cell) (g : Grid)
    (st : List Cell) (q : Cell) :
    getCell (deps.foldl (flagStep cond v) (g, st)).1 q =
      if inB g q ∧ cond (getCell g q).dirty_parents ∧ q ∈ deps then
        { getCell g q with dirty_parents := v }
      else getCell g q := by
  induction deps generalizing g st with
  | nil => simp
  | cons d deps ih =>
    rw [List.foldl_cons]
    by_cases hd : cond (getCell g d).dirty_parents
    · rw [show flagStep cond v (g, st) d = (setDirty g d v, d :: st) by
        unfold flagStep; rw [if_pos hd]]
      rw [ih]
      by_cases hqd : q = d
      · subst hqd
        by_cases hin : inB g q
        · have hg : getCell (setDirty g q v) q = { getCell g q with dirty_parents := v } :=
            getCell_setDirty_self _ hin
          have hin' : inB (setDirty g q v) q := (inB_setDirty g q v q).mpr hin
          have hdv : (getCell (setDirty g q v) q).dirty_parents = v := by rw [hg]
          by_cases hc2 : cond v = true ∧ q ∈ deps
          · rw [if_pos ⟨hin', by rw [hdv]; exact hc2.1, hc2.2⟩, hg,
              if_pos ⟨hin, hd, by simp⟩]
          · rw [if_neg (by
              rintro ⟨-, h1, h2⟩
              rw [hdv] at h1
              exact hc2 ⟨h1, h2⟩), hg, if_pos ⟨hin, hd, by simp⟩]
        · rw [setDirty_oob hin]
          rw [if_neg (by rintro ⟨h, -⟩; exact hin h), if_neg (by rintro ⟨h, -⟩; exact hin h)]
      · have hg : getCell (setDirty g d v) q = getCell g q := getCell_setDirty_ne _ hqd
        have hib : inB (setDirty g d v) q ↔ inB g q := inB_setDirty _ _ _ _
        rw [hg]
        by_cases hc2 : inB g q ∧ cond (getCell g q).dirty_parents = true ∧ q ∈ deps
        · rw [if_pos ⟨hib.mpr hc2.1, hc2.2.1, hc2.2.2⟩, if_pos ⟨hc2.1, hc2.2.1, by simp [hc2.2.2]⟩]
        · rw [if_neg (by
            rintro ⟨h1, h2, h3⟩
            exact hc2 ⟨hib.mp h1, h2, h3⟩), if_neg (by
            rintro ⟨h1, h2, h3⟩
            rcases List.mem_cons.mp h3 with h | h
            · exact hqd h
            · exact hc2 ⟨h1, h2, h⟩)]
    · rw [show flagStep cond v (g, st) d = (g, st) by unfold flagStep; rw [if_neg hd]]
      rw [ih]
      by_cases hqd : q = d
      · subst hqd
        rw [if_neg (by rintro ⟨-, h, -⟩; exact hd h), if_neg (by rintro ⟨-, h, -⟩; exact hd h)]
      · by_cases hc2 : inB g q ∧ cond (getCell g q).dirty_parents = true ∧ q ∈ deps
        · rw [if_pos hc2, if_pos ⟨hc2.1, hc2.2.1, by simp [hc2.2.2]⟩]
        · rw [if_neg hc2, if_neg (by
            rintro ⟨h1, h2, h3⟩
            rcases List.mem_cons.mp h3 with h | h
            · exact hqd h
            · exact hc2 ⟨h1, h2, h⟩)]

/-- Stack membership after a flagging fold. -/
theorem flagFold_stack (cond : Int → Bool) (v : Int) (deps : List Cell) (g : Grid)
    (st : List Cell) (q : Cell) :
    q ∈ (deps.foldl (flagStep cond v) (g, st)).2 ↔
      q ∈ st ∨ (q ∈ deps ∧ cond (getCell g q).dirty_parents) := by
  induction deps generalizing g st with
  | nil => simp
  | cons d deps ih =>
    rw [List.foldl_cons]
    by_cases hd : cond (getCell g d).dirty_parents
    · rw [show flagStep cond v (g, st) d = (setDirty g d v, d :: st) by
        unfold flagStep; rw [if_pos hd]]
      rw [ih]
      by_cases hqd : q = d
      · subst hqd
        simp [List.mem_cons, hd]
      · rw [getCell_setDirty_ne v hqd]
        simp only [List.mem_cons, hqd, false_or]
    · rw [show flagStep cond v (g, st) d = (g, st) by unfold flagStep; rw [if_neg hd]]
      rw [ih]
      by_cases hqd : q = d
      · subst hqd
        simp [List.mem_cons, hd]
      · simp only [List.mem_cons, hqd, false_or]

theorem shape_flagFold (cond : Int → Bool) (v : Int) (deps : List Cell) (g : Grid)
    (st : List Cell) :
    ((deps.foldl (flagStep cond v) (g, st)).1.length = g.length) ∧
    ∀ r, ((deps.foldl (flagStep cond v) (g, st)).1.getD r []).length
        = (g.getD r []).length := by
  refine foldl_preserve
    (fun p : Grid × List Cell => p.1.length = g.length ∧
      ∀ r, (p.1.getD r []).length = (g.getD r []).length) ⟨rfl, fun _ => rfl⟩ ?_
  rintro p d ⟨h1, h2⟩ -
  unfold flagStep
  split
  · exact ⟨by rw [setDirty, length_updCell, h1], fun r => by
      rw [setDirty, rowLen_updCell]; exact h2 r⟩
  · exact ⟨h1, h2⟩

theorem inB_flagFold (cond : Int → Bool) (v : Int) (deps : List Cell) (g : Grid)
    (st : List Cell) (q : Cell) :
    inB (deps.foldl (flagStep cond v) (g, st)).1 q ↔ inB g q := by
  unfold inB
  rw [(shape_flagFold cond v deps g st).1, (shape_flagFold cond v deps g st).2]

/-! ### Dependency walks -/

/-- `v` is a direct dependent of `u`. -/
def depEdge (g : Grid) (u v : Cell) : Prop := v ∈ (getCell g u).dependents

/-- `Walk g u l v`: a nonempty path `u → l₁ → … → lₙ → v` along
`dependents` edges (`l` lists the intermediate nodes). -/
def Walk (g : Grid) : Cell → List Cell → Cell → Prop
  | u, [], v => depEdge g u v
  | u, x :: l, v => depEdge g u x ∧ Walk g x l v

theorem Walk.suffix {g : Grid} {u x : Cell} {l1 l2 : List Cell} {v : Cell}
    (h : Walk g u (l1 ++ x :: l2) v) : Walk g x l2 v := by
  induction l1 generalizing u with
  | nil => exact h.2
  | cons y l1 ih => exact ih h.2

theorem Walk.snoc {g : Grid} {u : Cell} {l : List Cell} {v w : Cell}
    (h : Walk g u l v) (he : depEdge g v w) : Walk g u (l ++ [v]) w := by
  induction l generalizing u with
  | nil => exact ⟨h, he⟩
  | cons x l ih => exact ⟨h.1, ih h.2⟩

/-- Walks only read `dependents`, so they transfer between grids that
agree on every dependents list. -/
theorem Walk.congr {g g' : Grid} {u : Cell} {l : List Cell} {v : Cell}
    (hdeps : ∀ q, (getCell g' q).dependents = (getCell g q).dependents)
    (h : Walk g u l v) : Walk g' u l v := by
  induction l generalizing u with
  | nil =>
    unfold Walk depEdge at *
    rw [hdeps]
    exact h
  | cons x l ih =>
    refine ⟨?_, ih h.2⟩
    have h1 := h.1
    unfold depEdge at h1 ⊢
    rw [hdeps]
    exact h1

/-- Split a list at the last element satisfying `p`. -/
theorem exists_last_split {α : Type _} {p : α → Prop} [DecidablePred p] {l : List α}
    (h : ∃ x ∈ l, p x) : ∃ l1 y l2, l = l1 ++ y :: l2 ∧ p y ∧ ∀ x ∈ l2, ¬ p x := by
  induction l with
  | nil => simp at h
  | cons a l ih =>
    by_cases hl : ∃ x ∈ l, p x
    · obtain ⟨l1, y, l2, heq, hy, hl2⟩ := ih hl
      exact ⟨a :: l1, y, l2, by rw [heq]; rfl, hy, hl2⟩
    · have hpa : p a := by
        obtain ⟨x, hx, hpx⟩ := h
        rcases List.mem_cons.mp hx with rfl | hx'
        · exact hpx
        · exact absurd ⟨x, hx', hpx⟩ hl
      refine ⟨[], a, l, rfl, hpa, ?_⟩
      intro x hx hpx
      exact hl ⟨x, hx, hpx⟩

/-! ### The marking DFS and the mirrored reset restore the grid -/

/-- Equality of all cell fields except the scratch marker. -/
def sameButDirty (a b : CellData) : Prop :=
  a.value = b.value ∧ a.dependents = b.dependents ∧ a.function = b.function ∧ a.error = b.error

theorem sameButDirty_refl (a : CellData) : sameButDirty a a := ⟨rfl, rfl, rfl, rfl⟩

theorem sameButDirty_trans {a b c : CellData} (h1 : sameButDirty a b) (h2 : sameButDirty b c) :
    sameButDirty a c :=
  ⟨h1.1.trans h2.1, h1.2.1.trans h2.2.1, h1.2.2.1.trans h2.2.2.1, h1.2.2.2.trans h2.2.2.2⟩

theorem cellData_ext {a b : CellData} (h : sameButDirty a b)
    (hd : a.dirty_parents = b.dirty_parents) : a = b := by
  cases a
  cases b
  obtain ⟨h1, h2, h3, h4⟩ := h
  simp_all

/-- Marker positivity. -/
def Pos (g : Grid) (q : Cell) : Prop := 0 < (getCell g q).dirty_parents

/-- Every dependent of a real cell is a real cell. -/
def BoundsG (g : Grid) : Prop :=
  ∀ q, inB g q → ∀ d ∈ (getCell g q).dependents, inB g d

/-- Loop invariant of the marking DFS of `check_circular_dependency`,
relative to the original grid `g`: only markers changed, all markers are
nonnegative, positive markers sit on real cells, every stacked cell and
`start` are marked, and every marked cell is `start` or reachable from
`start` through marked cells. -/
structure MarkState (g : Grid) (start : Cell) (gc : Grid) (stack : List Cell) : Prop where
  shape : ∀ q, inB gc q ↔ inB g q
  same : ∀ q, sameButDirty (getCell gc q) (getCell g q)
  nonneg : ∀ q, 0 ≤ (getCell gc q).dirty_parents
  posInB : ∀ q, Pos gc q → inB g q
  stackPos : ∀ c ∈ stack, Pos gc c
  startPos : Pos gc start
  chain : ∀ q, Pos gc q → q = start ∨ ∃ l, Walk g start l q ∧ ∀ x ∈ l, Pos gc x

/-- Loop invariant of the mirrored reset traversal: only markers changed,
markers nonnegative, stacked cells are already cleared, and every still
positive marker is reachable from a stacked cell through positive
markers. -/
structure RstState (g : Grid) (gr : Grid) (stack : List Cell) : Prop where
  shape : ∀ q, inB gr q ↔ inB g q
  same : ∀ q, sameButDirty (getCell gr q) (getCell g q)
  nonneg : ∀ q, 0 ≤ (getCell gr q).dirty_parents
  posInB : ∀ q, Pos gr q → inB g q
  stackZero : ∀ c ∈ stack, ¬ Pos gr c
  anchor : ∀ q, Pos gr q → ∃ σ ∈ stack, ∃ l, Walk g σ l q ∧ ∀ x ∈ l, Pos gr x

theorem sameButDirty_setMark (cd : CellData) (n : Int) :
    sameButDirty { cd with dirty_parents := n } cd := ⟨rfl, rfl, rfl, rfl⟩

/-- One iteration of the marking DFS preserves the invariant. -/
theorem markFold_state {g : Grid} {start : Cell} (hB : BoundsG g) {gc : Grid}
    {current : Cell} {rest : List Cell}
    (ms : MarkState g start gc (current :: rest)) :
    MarkState g start
      ((getCell gc current).dependents.foldl (flagStep (fun x => x = 0) 1) (gc, rest)).1
      ((getCell gc current).dependents.foldl (flagStep (fun x => x = 0) 1) (gc, rest)).2 := by
  have hcur : Pos gc current := ms.stackPos current (by simp)
  have hcurB : inB g current := ms.posInB current hcur
  have hdepsg : (getCell gc current).dependents = (getCell g current).dependents :=
    (ms.same current).2.1
  have hdB : ∀ d ∈ (getCell gc current).dependents, inB g d := by
    rw [hdepsg]
    exact hB current hcurB
  have hgrid : ∀ q, getCell ((getCell gc current).dependents.foldl
      (flagStep (fun x => x = 0) 1) (gc, rest)).1 q =
      if inB gc q ∧ (getCell gc q).dirty_parents = 0 ∧ q ∈ (getCell gc current).dependents then
        { getCell gc q with dirty_parents := 1 }
      else getCell gc q := by
    intro q
    rw [flagFold_grid]
    simp only [decide_eq_true_eq]
  have hpos_mono : ∀ q, Pos gc q →
      Pos ((getCell gc current).dependents.foldl (flagStep (fun x => x = 0) 1) (gc, rest)).1 q := by
    intro q hq
    unfold Pos at hq ⊢
    rw [hgrid]
    split
    · simp
    · exact hq
  refine ⟨?_, ?_, ?_, ?_, ?_, ?_, ?_⟩
  · intro q
    rw [inB_flagFold]
    exact ms.shape q
  · intro q
    rw [hgrid]
    split
    · exact sameButDirty_trans (sameButDirty_setMark _ _) (ms.same q)
    · exact ms.same q
  · intro q
    rw [hgrid]
    split
    · simp
    · exact ms.nonneg q
  · intro q hq
    unfold Pos at hq
    rw [hgrid] at hq
    by_cases hc : inB gc q ∧ (getCell gc q).dirty_parents = 0 ∧
        q ∈ (getCell gc current).dependents
    · exact hdB q hc.2.2
    · rw [if_neg hc] at hq
      exact ms.posInB q hq
  · intro c hc
    rw [flagFold_stack] at hc
    simp only [decide_eq_true_eq] at hc
    rcases hc with hc | ⟨hmem, hz⟩
    · exact hpos_mono c (ms.stackPos c (by simp [hc]))
    · unfold Pos
      rw [hgrid, if_pos ⟨(ms.shape c).mpr (hdB c hmem), hz, hmem⟩]
      simp
  · exact hpos_mono start ms.startPos
  · intro q hq
    unfold Pos at hq
    rw [hgrid] at hq
    by_cases hc : inB gc q ∧ (getCell gc q).dirty_parents = 0 ∧
        q ∈ (getCell gc current).dependents
    · have hedge : depEdge g current q := by
        unfold depEdge
        rw [← hdepsg]
        exact hc.2.2
      rcases ms.chain current hcur with heq | ⟨l, hw, hl⟩
      · right
        refine ⟨[], ?_, by simp⟩
        rw [← heq]
        exact hedge
      · right
        refine ⟨l ++ [current], Walk.snoc hw hedge, ?_⟩
        intro x hx
        rcases List.mem_append.mp hx with h | h
        · exact hpos_mono x (hl x h)
        · rw [List.mem_singleton.mp h]
          exact hpos_mono current hcur
    · rw [if_neg hc] at hq
      rcases ms.chain q hq with heq | ⟨l, hw, hl⟩
      · exact Or.inl heq
      · exact Or.inr ⟨l, hw, fun x hx => hpos_mono x (hl x hx)⟩

/-- The marking DFS only sets markers: whatever it returns agrees with the
original grid on every field but the marker, keeps markers nonnegative and
on real cells, keeps `start` marked, and every marked cell is `start` or
reachable from `start` through marked cells. -/
theorem cycleLoop_restore {g : Grid} {start : Cell} (hB : BoundsG g) :
    ∀ (fuel : Nat) (gc : Grid) (stack : List Cell) {found : Bool} {gf : Grid},
    cycleLoop start fuel gc stack = some (found, gf) →
    MarkState g start gc stack →
    (∀ q, inB gf q ↔ inB g q) ∧ (∀ q, sameButDirty (getCell gf q) (getCell g q)) ∧
    (∀ q, 0 ≤ (getCell gf q).dirty_parents) ∧ (∀ q, Pos gf q → inB g q) ∧ Pos gf start ∧
    (∀ q, Pos gf q → q = start ∨ ∃ l, Walk g start l q ∧ ∀ x ∈ l, Pos gf x) := by
  intro fuel
  induction fuel with
  | zero =>
    intro gc stack found gf hres
    simp [cycleLoop] at hres
  | succ fuel ih =>
    intro gc stack found gf hres ms
    cases stack with
    | nil =>
      simp only [cycleLoop, Option.some.injEq, Prod.mk.injEq] at hres
      rw [← hres.2]
      exact ⟨ms.shape, ms.same, ms.nonneg, ms.posInB, ms.startPos, ms.chain⟩
    | cons current rest =>
      simp only [cycleLoop] at hres
      by_cases hcont : (getCell gc current).dependents.contains start
      · rw [if_pos hcont] at hres
        simp only [Option.some.injEq, Prod.mk.injEq] at hres
        rw [← hres.2]
        exact ⟨ms.shape, ms.same, ms.nonneg, ms.posInB, ms.startPos, ms.chain⟩
      · rw [if_neg hcont] at hres
        exact ih _ _ hres (markFold_state hB ms)

/-- One iteration of the reset traversal preserves the invariant. -/
theorem rstFold_state {g : Grid} (hB : BoundsG g) {gr : Grid}
    {current : Cell} {rest : List Cell}
    (rs : RstState g gr (current :: rest)) :
    RstState g
      ((getCell gr current).dependents.foldl (flagStep (fun x => 0 < x) 0) (gr, rest)).1
      ((getCell gr current).dependents.foldl (flagStep (fun x => 0 < x) 0) (gr, rest)).2 := by
  have hdepsg : (getCell gr current).dependents = (getCell g current).dependents :=
    (rs.same current).2.1
  have hgrid : ∀ q, getCell ((getCell gr current).dependents.foldl
      (flagStep (fun x => 0 < x) 0) (gr, rest)).1 q =
      if inB gr q ∧ 0 < (getCell gr q).dirty_parents ∧ q ∈ (getCell gr current).dependents then
        { getCell gr q with dirty_parents := 0 }
      else getCell gr q := by
    intro q
    rw [flagFold_grid]
    simp only [decide_eq_true_eq]
  have hstack : ∀ q, q ∈ ((getCell gr current).dependents.foldl
      (flagStep (fun x => 0 < x) 0) (gr, rest)).2 ↔
      q ∈ rest ∨ (q ∈ (getCell gr current).dependents ∧ 0 < (getCell gr q).dirty_parents) := by
    intro q
    rw [flagFold_stack]
    simp only [decide_eq_true_eq]
  have hposf : ∀ q, Pos ((getCell gr current).dependents.foldl
      (flagStep (fun x => 0 < x) 0) (gr, rest)).1 q →
      Pos gr q ∧ ¬ (q ∈ (getCell gr current).dependents ∧ 0 < (getCell gr q).dirty_parents) := by
    intro q hq
    unfold Pos at hq ⊢
    rw [hgrid] at hq
    by_cases hc : inB gr q ∧ 0 < (getCell gr q).dirty_parents ∧
        q ∈ (getCell gr current).dependents
    · rw [if_pos hc] at hq
      simp at hq
    · rw [if_neg hc] at hq
      refine ⟨hq, ?_⟩
      rintro ⟨h1, h2⟩
      exact hc ⟨(rs.shape q).mpr (rs.posInB q hq), h2, h1⟩
  have hpres : ∀ q, Pos gr q → q ∉ (getCell gr current).dependents →
      Pos ((getCell gr current).dependents.foldl (flagStep (fun x => 0 < x) 0) (gr, rest)).1 q := by
    intro q hq hnm
    unfold Pos at hq ⊢
    rw [hgrid, if_neg (by rintro ⟨-, -, h⟩; exact hnm h)]
    exact hq
  refine ⟨?_, ?_, ?_, ?_, ?_, ?_⟩
  · intro q
    rw [inB_flagFold]
    exact rs.shape q
  · intro q
    rw [hgrid]
    split
    · exact sameButDirty_trans (sameButDirty_setMark _ _) (rs.same q)
    · exact rs.same q
  · intro q
    rw [hgrid]
    split
    · simp
    · exact rs.nonneg q
  · intro q hq
    exact rs.posInB q (hposf q hq).1
  · intro c hc
    rw [hstack] at hc
    unfold Pos
    rw [hgrid]
    rcases hc with hc | ⟨hmem, hpos⟩
    · split
      · simp
      · exact rs.stackZero c (by simp [hc])
    · rw [if_pos ⟨(rs.shape c).mpr (rs.posInB c hpos), hpos, hmem⟩]
      simp
  · intro q hq
    obtain ⟨hqgr, hqnc⟩ := hposf q hq
    obtain ⟨σ, hσ, l, hw, hl⟩ := rs.anchor q hqgr
    by_cases hcl : ∃ x ∈ l, x ∈ (getCell gr current).dependents ∧ 0 < (getCell gr x).dirty_parents
    · obtain ⟨l1, y, l2, heq, hy, hl2⟩ := exists_last_split hcl
      refine ⟨y, (hstack y).mpr (Or.inr hy), l2, ?_, ?_⟩
      · rw [heq] at hw
        exact hw.suffix
      · intro x hx
        have hxl : x ∈ l := by rw [heq]; simp [hx]
        have hxpos : Pos gr x := hl x hxl
        refine hpres x hxpos ?_
        intro hmem
        exact hl2 x hx ⟨hmem, hxpos⟩
    · push_neg at hcl
      have hlpos : ∀ x ∈ l, Pos ((getCell gr current).dependents.foldl
          (flagStep (fun x => 0 < x) 0) (gr, rest)).1 x := by
        intro x hx
        refine hpres x (hl x hx) ?_
        intro hmem
        have h1 := hcl x hx
        have h2 : Pos gr x := hl x hx
        unfold Pos at h2
        simp [hmem] at h1
        omega
      rcases List.mem_cons.mp hσ with rfl | hσr
      · exfalso
        cases l with
        | nil =>
          have hedge : q ∈ (getCell gr σ).dependents := by
            rw [hdepsg]
            exact hw
          exact hqnc ⟨hedge, hqgr⟩
        | cons x l' =>
          have hedge : x ∈ (getCell gr σ).dependents := by
            rw [hdepsg]
            exact hw.1
          have hxpos : Pos gr x := hl x (by simp)
          have h1 := hcl x (by simp)
          unfold Pos at hxpos
          simp [hedge] at h1
          omega
      · exact ⟨σ, (hstack σ).mpr (Or.inl hσr), l, hw, hlpos⟩

/-- The reset traversal clears every marker (the invariant guarantees all
positive markers are anchored to the stack) and touches nothing else. -/
theorem resetLoop_restore {g : Grid} (hB : BoundsG g) :
    ∀ (fuel : Nat) (gr : Grid) (stack : List Cell) {gf : Grid},
    resetLoop fuel gr stack = some gf →
    RstState g gr stack →
    (∀ q, inB gf q ↔ inB g q) ∧ (∀ q, sameButDirty (getCell gf q) (getCell g q)) ∧
    (∀ q, (getCell gf q).dirty_parents = 0) := by
  intro fuel
  induction fuel with
  | zero =>
    intro gr stack gf hres
    simp [resetLoop] at hres
  | succ fuel ih =>
    intro gr stack gf hres rs
    cases stack with
    | nil =>
      simp only [resetLoop, Option.some.injEq] at hres
      rw [← hres]
      refine ⟨rs.shape, rs.same, ?_⟩
      intro q
      have h1 := rs.nonneg q
      have h2 : ¬ Pos gr q := by
        intro hp
        obtain ⟨σ, hσ, -⟩ := rs.anchor q hp
        simp at hσ
      unfold Pos at h2
      omega
    | cons current rest =>
      simp only [resetLoop] at hres
      exact ih _ _ hres (rstFold_state hB rs)

/-- The marking DFS preserves the grid dimensions. -/
theorem cycleLoop_shape {start : Cell} :
    ∀ (fuel : Nat) (gc : Grid) (stack : List Cell) {found : Bool} {gf : Grid},
    cycleLoop start fuel gc stack = some (found, gf) →
    gf.length = gc.length ∧ ∀ r, (gf.getD r []).length = (gc.getD r []).length := by
  intro fuel
  induction fuel with
  | zero =>
    intro gc stack found gf hres
    simp [cycleLoop] at hres
  | succ fuel ih =>
    intro gc stack found gf hres
    cases stack with
    | nil =>
      simp only [cycleLoop, Option.some.injEq, Prod.mk.injEq] at hres
      rw [← hres.2]
      exact ⟨rfl, fun _ => rfl⟩
    | cons current rest =>
      simp only [cycleLoop] at hres
      by_cases hcont : (getCell gc current).dependents.contains start
      · rw [if_pos hcont] at hres
        simp only [Option.some.injEq, Prod.mk.injEq] at hres
        rw [← hres.2]
        exact ⟨rfl, fun _ => rfl⟩
      · rw [if_neg hcont] at hres
        have h := ih _ _ hres
        have hs := shape_flagFold (fun x => decide (x = 0)) 1
          (getCell gc current).dependents gc rest
        exact ⟨h.1.trans hs.1, fun r => (h.2 r).trans (hs.2 r)⟩

/-- The reset traversal preserves the grid dimensions. -/
theorem resetLoop_shape :
    ∀ (fuel : Nat) (gr : Grid) (stack : List Cell) {gf : Grid},
    resetLoop fuel gr stack = some gf →
    gf.length = gr.length ∧ ∀ r, (gf.getD r []).length = (gr.getD r []).length := by
  intro fuel
  induction fuel with
  | zero =>
    intro gr stack gf hres
    simp [resetLoop] at hres
  | succ fuel ih =>
    intro gr stack gf hres
    cases stack with
    | nil =>
      simp only [resetLoop, Option.some.injEq] at hres
      rw [← hres]
      exact ⟨rfl, fun _ => rfl⟩
    | cons current rest =>
      simp only [resetLoop] at hres
      have h := ih _ _ hres
      have hs := shape_flagFold (fun x => decide (0 < x)) 0
        (getCell gr current).dependents gr rest
      exact ⟨h.1.trans hs.1, fun r => (h.2 r).trans (hs.2 r)⟩

/-- `check_circular_dependency` restores the grid exactly: starting from a
well-formed grid with all markers zero, whatever Boolean it returns, the
returned grid is the input grid. -/
theorem check_circular_restore {g : Grid} {start : Cell} (hB : BoundsG g)
    (hz : ∀ q, (getCell g q).dirty_parents = 0) (hstart : inB g start)
    {found : Bool} {gf : Grid}
    (hres : check_circular_dependency g start = some (found, gf)) : gf = g := by
  unfold check_circular_dependency at hres
  cases hcyc : cycleLoop start (dfsFuel g) (setDirty g start 1) [start] with
  | none => rw [hcyc] at hres; exact absurd hres (by simp)
  | some p =>
    obtain ⟨fnd, g1⟩ := p
    rw [hcyc] at hres
    dsimp only at hres
    have hms : MarkState g start (setDirty g start 1) [start] := by
      refine ⟨fun q => inB_setDirty _ _ _ _, ?_, ?_, ?_, ?_, ?_, ?_⟩
      · intro q
        by_cases hq : q = start
        · subst hq
          by_cases hib : inB g q
          · rw [getCell_setDirty_self _ hib]
            exact sameButDirty_setMark _ _
          · rw [setDirty_oob hib]
            exact sameButDirty_refl _
        · rw [getCell_setDirty_ne _ hq]
          exact sameButDirty_refl _
      · intro q
        by_cases hq : q = start
        · subst hq
          by_cases hib : inB g q
          · rw [getCell_setDirty_self _ hib]
            simp
          · rw [setDirty_oob hib, hz]
        · rw [getCell_setDirty_ne _ hq, hz]
      · intro q hq
        unfold Pos at hq
        by_cases hqs : q = start
        · subst hqs
          exact hstart
        · rw [getCell_setDirty_ne _ hqs, hz] at hq
          omega
      · intro c hc
        rw [List.mem_singleton.mp hc]
        unfold Pos
        rw [getCell_setDirty_self _ hstart]
        simp
      · unfold Pos
        rw [getCell_setDirty_self _ hstart]
        simp
      · intro q hq
        unfold Pos at hq
        by_cases hqs : q = start
        · exact Or.inl hqs
        · rw [getCell_setDirty_ne _ hqs, hz] at hq
          omega
    obtain ⟨h1shape, h1same, h1nonneg, h1posInB, h1startPos, h1chain⟩ :=
      cycleLoop_restore hB _ _ _ hcyc hms
    unfold reset_found at hres
    cases hrst : resetLoop (dfsFuel g1) (setDirty g1 start 0) [start] with
    | none => rw [hrst] at hres; exact absurd hres (by simp)
    | some g2 =>
      rw [hrst] at hres
      simp only [Option.some.injEq, Prod.mk.injEq] at hres
      have hstart1 : inB g1 start := (h1shape start).mpr hstart
      have hrs : RstState g (setDirty g1 start 0) [start] := by
        refine ⟨?_, ?_, ?_, ?_, ?_, ?_⟩
        · intro q
          rw [inB_setDirty]
          exact h1shape q
        · intro q
          by_cases hq : q = start
          · subst hq
            rw [getCell_setDirty_self _ hstart1]
            exact sameButDirty_trans (sameButDirty_setMark _ _) (h1same q)
          · rw [getCell_setDirty_ne _ hq]
            exact h1same q
        · intro q
          by_cases hq : q = start
          · subst hq
            rw [getCell_setDirty_self _ hstart1]
          · rw [getCell_setDirty_ne _ hq]
            exact h1nonneg q
        · intro q hq
          unfold Pos at hq
          by_cases hqs : q = start
          · subst hqs
            exact hstart
          · rw [getCell_setDirty_ne _ hqs] at hq
            exact h1posInB q hq
        · intro c hc
          rw [List.mem_singleton.mp hc]
          unfold Pos
          rw [getCell_setDirty_self _ hstart1]
          simp
        · intro q hq
          unfold Pos at hq
          by_cases hqs : q = start
          · subst hqs
            rw [getCell_setDirty_self _ hstart1] at hq
            simp at hq
          · rw [getCell_setDirty_ne _ hqs] at hq
            rcases h1chain q hq with heq | ⟨l, hw, hl⟩
            · exact absurd heq hqs
            · by_cases hsl : ∃ x ∈ l, x = start
              · obtain ⟨l1, y, l2, heq, hy, hl2⟩ := exists_last_split hsl
                subst hy
                refine ⟨y, by simp, l2, ?_, ?_⟩
                · rw [heq] at hw
                  exact hw.suffix
                · intro x hx
                  have hxl : x ∈ l := by rw [heq]; simp [hx]
                  have hxs : x ≠ y := fun h => hl2 x hx h
                  unfold Pos
                  rw [getCell_setDirty_ne _ hxs]
                  exact hl x hxl
              · push_neg at hsl
                refine ⟨start, by simp, l, hw, ?_⟩
                intro x hx
                unfold Pos
                rw [getCell_setDirty_ne _ (hsl x hx)]
                exact hl x hx
      obtain ⟨h2shape, h2same, h2zero⟩ := resetLoop_restore hB _ _ _ hrst hrs
      rw [← hres.2]
      have hlen1 := cycleLoop_shape _ _ _ hcyc
      have hlen2 := resetLoop_shape _ _ _ hrst
      refine grid_ext ?_ ?_ ?_
      · rw [hlen2.1, setDirty, length_updCell, hlen1.1, setDirty, length_updCell]
      · intro r
        rw [hlen2.2 r, setDirty, rowLen_updCell, hlen1.2 r, setDirty, rowLen_updCell]
      · intro q
        exact cellData_ext (h2same q) (by rw [h2zero q, hz q])

/-! ### Rolling back a rejected graph update -/

/-- Splitting a list into the entries different from `c` and the `c`
entries. -/
theorem perm_split (l : List Cell) (c : Cell) :
    l.Perm (l.filter (· ≠ c) ++ List.replicate (l.count c) c) := by
  induction l with
  | nil => simp
  | cons a l ih =>
    by_cases ha : a = c
    · subst ha
      have h1 : (a :: l).filter (· ≠ a) = l.filter (· ≠ a) := by simp
      have h2 : (a :: l).count a = l.count a + 1 := List.count_cons_self a l
      rw [h1, h2, List.replicate_succ]
      exact (ih.cons a).trans List.perm_middle.symm
    · have h1 : (a :: l).filter (· ≠ c) = a :: l.filter (· ≠ c) := by simp [ha]
      have h2 : (a :: l).count c = l.count c := by
        have hca : ¬ c = a := fun h => ha h.symm
        simp [List.count_cons, hca]
      rw [h1, h2, List.cons_append]
      exact ih.cons a

theorem filter_replicate_ne (n : Nat) (c : Cell) :
    (List.replicate n c).filter (· ≠ c) = [] := by
  induction n with
  | zero => rfl
  | succ n ih => simp [List.replicate_succ, ih]

theorem update_graph_fields (g : Grid) (c : Cell) (old : Function) (q : Cell) :
    (getCell (update_graph g c old) q).value = (getCell g q).value ∧
    (getCell (update_graph g c old) q).error = (getCell g q).error ∧
    (getCell (update_graph g c old) q).function = (getCell g q).function ∧
    (getCell (update_graph g c old) q).dirty_parents = (getCell g q).dirty_parents := by
  rw [update_graph_pointwise]
  split <;> exact ⟨rfl, rfl, rfl, rfl⟩

theorem update_graph_deps (g : Grid) (c : Cell) (old : Function) (q : Cell) (h : inB g q) :
    (getCell (update_graph g c old) q).dependents =
      (if q ∈ refsList old then (getCell g q).dependents.filter (· ≠ c)
       else (getCell g q).dependents) ++
      List.replicate ((refsList (getCell g c).function).count q) c := by
  rw [update_graph_pointwise, if_pos h]

theorem updCell_fn_fields (g : Grid) (c : Cell) (F : Function) (q : Cell) :
    (getCell (updCell g c (fun cd => { cd with function := F })) q).value
        = (getCell g q).value ∧
    (getCell (updCell g c (fun cd => { cd with function := F })) q).error
        = (getCell g q).error ∧
    (getCell (updCell g c (fun cd => { cd with function := F })) q).dependents
        = (getCell g q).dependents ∧
    (getCell (updCell g c (fun cd => { cd with function := F })) q).dirty_parents
        = (getCell g q).dirty_parents := by
  rw [getCell_updCell]
  by_cases h : q = c ∧ inB g c
  · rw [if_pos h, h.1]
    exact ⟨rfl, rfl, rfl, rfl⟩
  · rw [if_neg h]
    exact ⟨rfl, rfl, rfl, rfl⟩

theorem updCell_fn_function (g : Grid) (c : Cell) (F : Function) (q : Cell) :
    (getCell (updCell g c (fun cd => { cd with function := F })) q).function =
      if q = c ∧ inB g c then F else (getCell g q).function := by
  rw [getCell_updCell]
  split
  · rfl
  · rfl

theorem filter_ne_idem (l : List Cell) (c : Cell) :
    (l.filter (· ≠ c)).filter (· ≠ c) = l.filter (· ≠ c) := by
  rw [List.filter_filter]
  simp

/-- The two `update_graph` calls of a rejected edit restore every cell's
formula, value, error and marker exactly, and its dependents list up to
reordering (the removed `cell` entries are re-pushed at the end). -/
theorem rollback_pointwise (g0 : Grid) (c : Cell) (f : Function) (g2 g5 : Grid)
    (hcons : ∀ q, (getCell g0 q).dependents.count c
      = (refsList (getCell g0 c).function).count q)
    (hc : inB g0 c)
    (hg2 : g2 = update_graph (updCell g0 c (fun cd => { cd with function := f })) c
      ((getCell g0 c).function))
    (hg5 : g5 = update_graph (updCell g2 c (fun cd =>
      { cd with function := (getCell g0 c).function })) c f) (q : Cell) :
    (getCell g5 q).value = (getCell g0 q).value ∧
    (getCell g5 q).error = (getCell g0 q).error ∧
    (getCell g5 q).function = (getCell g0 q).function ∧
    (getCell g5 q).dirty_parents = (getCell g0 q).dirty_parents ∧
    (getCell g5 q).dependents.Perm (getCell g0 q).dependents := by
  have huf1 := updCell_fn_fields g0 c f
  have hug2 := update_graph_fields (updCell g0 c (fun cd => { cd with function := f })) c
    ((getCell g0 c).function)
  have huf4 := updCell_fn_fields g2 c ((getCell g0 c).function)
  have hug5 := update_graph_fields (updCell g2 c (fun cd =>
    { cd with function := (getCell g0 c).function })) c f
  have hinB1 : ∀ x, inB (updCell g0 c (fun cd => { cd with function := f })) x ↔ inB g0 x :=
    fun x => inB_updCell _ _ _ _
  have hinB2 : ∀ x, inB g2 x ↔ inB g0 x := by
    intro x
    rw [hg2, inB_update_graph]
    exact hinB1 x
  have hinB4 : ∀ x, inB (updCell g2 c (fun cd =>
      { cd with function := (getCell g0 c).function })) x ↔ inB g0 x := by
    intro x
    rw [inB_updCell]
    exact hinB2 x
  have hval : (getCell g5 q).value = (getCell g0 q).value := by
    rw [hg5]
    rw [(hug5 q).1, (huf4 q).1, hg2, (hug2 q).1, (huf1 q).1]
  have herr : (getCell g5 q).error = (getCell g0 q).error := by
    rw [hg5]
    rw [(hug5 q).2.1, (huf4 q).2.1, hg2, (hug2 q).2.1, (huf1 q).2.1]
  have hdirty : (getCell g5 q).dirty_parents = (getCell g0 q).dirty_parents := by
    rw [hg5]
    rw [(hug5 q).2.2.2, (huf4 q).2.2.2, hg2, (hug2 q).2.2.2, (huf1 q).2.2.2]
  have hfun2 : ∀ x, (getCell g2 x).function =
      if x = c ∧ inB g0 c then f else (getCell g0 x).function := by
    intro x
    rw [hg2, (update_graph_fields _ _ _ x).2.2.1, updCell_fn_function]
  have hfun : (getCell g5 q).function = (getCell g0 q).function := by
    rw [hg5, (update_graph_fields _ _ _ q).2.2.1, updCell_fn_function]
    by_cases hqc : q = c ∧ inB g2 c
    · rw [if_pos hqc, hqc.1]
    · rw [if_neg hqc, hfun2 q, if_neg (by
        rintro ⟨heq, h⟩
        exact hqc ⟨heq, (hinB2 c).mpr h⟩)]
  refine ⟨hval, herr, hfun, hdirty, ?_⟩
  by_cases hq : inB g0 q
  · have hf1c : (getCell (updCell g0 c (fun cd => { cd with function := f })) c).function
        = f := by
      rw [updCell_fn_function, if_pos ⟨rfl, hc⟩]
    have hdeps1 : ∀ x, (getCell (updCell g0 c (fun cd =>
        { cd with function := f })) x).dependents = (getCell g0 x).dependents :=
      fun x => (huf1 x).2.2.1
    have hdeps2 : (getCell g2 q).dependents =
        (if q ∈ refsList (getCell g0 c).function then
          (getCell g0 q).dependents.filter (· ≠ c)
        else (getCell g0 q).dependents) ++
        List.replicate ((refsList f).count q) c := by
      rw [hg2, update_graph_deps _ _ _ _ ((hinB1 q).mpr hq), hf1c, hdeps1]
    have hf4c : (getCell (updCell g2 c (fun cd =>
        { cd with function := (getCell g0 c).function })) c).function
        = (getCell g0 c).function := by
      rw [updCell_fn_function, if_pos ⟨rfl, (hinB2 c).mpr hc⟩]
    have hdeps5 : (getCell g5 q).dependents =
        (if q ∈ refsList f then (getCell g2 q).dependents.filter (· ≠ c)
          else (getCell g2 q).dependents) ++
        List.replicate ((refsList (getCell g0 c).function).count q) c := by
      rw [hg5, update_graph_deps _ _ _ _ ((hinB4 q).mpr hq), hf4c, (huf4 q).2.2.1]
    rw [hdeps5]
    by_cases hqf : q ∈ refsList f
    · rw [if_pos hqf, hdeps2, List.filter_append, filter_replicate_ne, List.append_nil]
      have hff : ((if q ∈ refsList (getCell g0 c).function then
            (getCell g0 q).dependents.filter (· ≠ c)
          else (getCell g0 q).dependents)).filter (· ≠ c)
          = (getCell g0 q).dependents.filter (· ≠ c) := by
        split
        · exact filter_ne_idem _ _
        · rfl
      rw [hff, ← hcons q]
      exact (perm_split _ c).symm
    · rw [if_neg hqf, hdeps2]
      have hk : (refsList f).count q = 0 := by
        rw [List.count_eq_zero]
        exact hqf
      rw [hk, List.replicate_zero, List.append_nil]
      by_cases hqo : q ∈ refsList (getCell g0 c).function
      · rw [if_pos hqo, ← hcons q]
        exact (perm_split _ c).symm
      · rw [if_neg hqo]
        have hm : (refsList (getCell g0 c).function).count q = 0 := by
          rw [List.count_eq_zero]
          exact hqo
        rw [hm, List.replicate_zero, List.append_nil]
  · have hqne : q ≠ c := fun h => hq (h ▸ hc)
    have h1 : getCell (updCell g0 c (fun cd => { cd with function := f })) q
        = getCell g0 q := getCell_updCell_ne _ hqne
    have h2 : getCell g2 q = getCell g0 q := by
      rw [hg2, update_graph_pointwise, if_neg (fun h => hq ((hinB1 q).mp h)), h1]
    have h4 : getCell (updCell g2 c (fun cd =>
        { cd with function := (getCell g0 c).function })) q = getCell g0 q := by
      rw [getCell_updCell_ne _ hqne, h2]
    have h5 : getCell g5 q = getCell g0 q := by
      rw [hg5, update_graph_pointwise, if_neg (fun h => hq ((hinB4 q).mp h)), h4]
    rw [h5]

theorem update_graph_deps_subset (g : Grid) (c : Cell) (old : Function) (q d : Cell)
    (h : d ∈ (getCell (update_graph g c old) q).dependents) :
    d ∈ (getCell g q).dependents ∨ d = c := by
  rw [update_graph_pointwise] at h
  by_cases hin : inB g q
  · rw [if_pos hin] at h
    rcases List.mem_append.mp h with h | h
    · split at h
      · exact Or.inl (List.mem_of_mem_filter h)
      · exact Or.inl h
    · exact Or.inr (List.eq_of_mem_replicate h)
  · rw [if_neg hin] at h
    exact Or.inl h

/-- The tentative graph state of a rejected edit is still well formed and
has untouched markers. -/
theorem mid_state_props (g0 : Grid) (c : Cell) (f : Function)
    (hB : BoundsG g0) (hc : inB g0 c) :
    BoundsG (update_graph (updCell g0 c (fun cd => { cd with function := f })) c
      ((getCell g0 c).function)) ∧
    (∀ q, (getCell (update_graph (updCell g0 c (fun cd => { cd with function := f })) c
      ((getCell g0 c).function)) q).dirty_parents = (getCell g0 q).dirty_parents) ∧
    inB (update_graph (updCell g0 c (fun cd => { cd with function := f })) c
      ((getCell g0 c).function)) c := by
  have hinB : ∀ x, inB (update_graph (updCell g0 c (fun cd => { cd with function := f })) c
      ((getCell g0 c).function)) x ↔ inB g0 x := by
    intro x
    rw [inB_update_graph, inB_updCell]
  refine ⟨?_, ?_, (hinB c).mpr hc⟩
  · intro q hq d hd
    rcases update_graph_deps_subset _ _ _ _ _ hd with h | h
    · rw [(updCell_fn_fields g0 c f q).2.2.1] at h
      exact (hinB d).mpr (hB q ((hinB q).mp hq) d h)
    · rw [h]
      exact (hinB c).mpr hc
  · intro q
    rw [(update_graph_fields _ _ _ q).2.2.2, (updCell_fn_fields g0 c f q).2.2.2]

/-- C1 (amended): on a well-formed grid (consistent dependents, cleared
markers), a `set_cell_value` call that returns an error — `CouldNotParse`
or `CircularDependency` — leaves every cell's value, error, formula and
marker exactly as before, and every cell's dependents list unchanged up
to reordering (a rejected cycle-creating edit re-pushes the rolled-back
edges at the end of the lists); the formula strings and dimensions are
also unchanged. -/
theorem C1_error_rollback (sv : List Int → Int → Int → Int) (b : Backend) (cell : Cell)
    (s : List Char) (e : ExpressionError) (b' : Backend)
    (hB : BoundsG b.grid)
    (hz : ∀ q, (getCell b.grid q).dirty_parents = 0)
    (hcons : ∀ q, (getCell b.grid q).dependents.count cell
      = (refsList (getCell b.grid cell).function).count q)
    (hcell : inB b.grid cell)
    (hres : set_cell_value sv b cell s = some (Except.error e, b')) :
    b'.rows = b.rows ∧ b'.cols = b.cols ∧ b'.formula_strings = b.formula_strings ∧
    ∀ q : Cell,
      (getCell b'.grid q).value = (getCell b.grid q).value ∧
      (getCell b'.grid q).error = (getCell b.grid q).error ∧
      (getCell b'.grid q).function = (getCell b.grid q).function ∧
      (getCell b'.grid q).dirty_parents = (getCell b.grid q).dirty_parents ∧
      (getCell b'.grid q).dependents.Perm (getCell b.grid q).dependents := by
  unfold set_cell_value at hres
  dsimp only at hres
  split at hres
  · -- parse failure: nothing was touched
    simp only [Option.some.injEq, Prod.mk.injEq] at hres
    rw [← hres.2]
    exact ⟨rfl, rfl, rfl, fun q => ⟨rfl, rfl, rfl, rfl, List.Perm.refl _⟩⟩
  · split at hres
    · -- constant fast path: returns Ok, never an error
      split at hres
      · exact absurd hres (by simp)
      · exact absurd hres (by simp)
    · split at hres
      · -- immediate self-reference: nothing was touched
        simp only [Option.some.injEq, Prod.mk.injEq] at hres
        rw [← hres.2]
        exact ⟨rfl, rfl, rfl, fun q => ⟨rfl, rfl, rfl, rfl, List.Perm.refl _⟩⟩
      · -- tentative install, cycle check
        split at hres
        · exact absurd hres (by simp)
        · -- cycle found: rollback
          next g3 heq =>
            obtain ⟨hBm, hdm, hcm⟩ := mid_state_props b.grid cell
              (parse_expression s b.rows b.cols).1 hB hcell
            have hzm : ∀ q, (getCell (update_graph (updCell b.grid cell (fun cd =>
                { cd with function := (parse_expression s b.rows b.cols).1 })) cell
                ((getCell b.grid cell).function)) q).dirty_parents = 0 := by
              intro q
              rw [hdm q, hz q]
            have hg3 : g3 = update_graph (updCell b.grid cell (fun cd =>
                { cd with function := (parse_expression s b.rows b.cols).1 })) cell
                ((getCell b.grid cell).function) :=
              check_circular_restore hBm hzm hcm heq
            simp only [Option.some.injEq, Prod.mk.injEq] at hres
            rw [← hres.2]
            refine ⟨rfl, rfl, rfl, ?_⟩
            intro q
            exact rollback_pointwise b.grid cell (parse_expression s b.rows b.cols).1 _ _
              hcons hcell rfl (by rw [hg3]) q
        · -- no cycle: returns Ok, never an error
          split at hres
          · exact absurd hres (by simp)
          · exact absurd hres (by simp)

deriving instance DecidableEq for Except

theorem replicate_getD {α : Type} (n i : Nat) (a d : α) (h : i < n) :
    (List.replicate n a).getD i d = a := by
  rw [List.getD_eq_getElem _ _ (by simpa using h), List.getElem_replicate]

theorem replicate_getD_oob {α : Type} (n i : Nat) (a d : α) (h : ¬ i < n) :
    (List.replicate n a).getD i d = d := by
  rw [List.getD_eq_default _ _ (by simpa using Nat.le_of_not_lt h)]

/-- Every slot of a fresh grid (in bounds or not) reads as the default
cell. -/
theorem getCell_new (rows cols : Nat) (q : Cell) :
    getCell (Backend.new rows cols).grid q = default := by
  unfold Backend.new getCell
  dsimp only
  by_cases hr : q.row < rows
  · rw [replicate_getD rows q.row _ _ hr]
    by_cases hc : q.col < cols
    · rw [replicate_getD cols q.col _ _ hc]
      rfl
    · rw [replicate_getD_oob cols q.col _ _ hc]
  · rw [replicate_getD_oob rows q.row _ _ hr]
    rfl

theorem boundsG_new (rows cols : Nat) : BoundsG (Backend.new rows cols).grid := by
  intro q hq d hd
  rw [getCell_new] at hd
  exact absurd hd (List.not_mem_nil d)

theorem zeroDirty_new (rows cols : Nat) (q : Cell) :
    (getCell (Backend.new rows cols).grid q).dirty_parents = 0 := by
  rw [getCell_new]
  rfl

theorem cons_new (rows cols : Nat) (cell q : Cell) :
    (getCell (Backend.new rows cols).grid q).dependents.count cell
      = (refsList (getCell (Backend.new rows cols).grid cell).function).count q := by
  rw [getCell_new, getCell_new]
  rfl

/-- Witness for C1 (amended): a failing parse on a fresh 1×1 grid. -/
theorem C1_error_rollback_witness :
    (Backend.new 1 1).formula_strings = (Backend.new 1 1).formula_strings ∧
    (getCell (Backend.new 1 1).grid ⟨0, 0⟩).dependents.Perm
      (getCell (Backend.new 1 1).grid ⟨0, 0⟩).dependents :=
  let h := C1_error_rollback sv0 (Backend.new 1 1) ⟨0, 0⟩ ['#']
    ExpressionError.CouldNotParse (Backend.new 1 1) (boundsG_new 1 1)
    (zeroDirty_new 1 1) (cons_new 1 1 ⟨0, 0⟩) (by decide) (by decide)
  ⟨h.2.2.1, (h.2.2.2 ⟨0, 0⟩).2.2.2.2⟩

/-- The grid after `B1 = "A1"`, `A2 = "A1"`, `B2 = "B1"` on a fresh 2×2
backend: `A1`'s dependents list is `[B1, A2]`. -/
def c1Before : Backend :=
  (((set_cell_value sv0 (Backend.new 2 2) ⟨0, 1⟩ ['A', '1']).bind (fun p =>
    (set_cell_value sv0 p.2 ⟨1, 0⟩ ['A', '1']).bind (fun p2 =>
    set_cell_value sv0 p2.2 ⟨1, 1⟩ ['B', '1']))).map Prod.snd).getD (Backend.new 2 2)

/-- The rejected cycle-creating edit `B1 = "B2+0"` on that grid. -/
def c1Call : Option (Except ExpressionError Unit × Backend) :=
  set_cell_value sv0 c1Before ⟨0, 1⟩ ['B', '2', '+', '0']

/-- C1 (counterexample to the claim as stated): the edit `B1 = "B2+0"` is
rejected with `CircularDependency`, yet `A1`'s dependents list changes
from `[B1, A2]` to `[A2, B1]` — the rollback re-pushes the removed edge at
the end, so the grid is not byte-for-byte identical. -/
theorem C1_counterexample :
    c1Call.map Prod.fst = some (Except.error ExpressionError.CircularDependency) ∧
    (getCell c1Before.grid ⟨0, 0⟩).dependents = [⟨0, 1⟩, ⟨1, 0⟩] ∧
    c1Call.map (fun p => (getCell p.2.grid ⟨0, 0⟩).dependents)
      = some [⟨1, 0⟩, ⟨0, 1⟩] := by decide

/-! ### Reachability along `dependents` edges, and acyclicity -/

theorem getCell_oob {g : Grid} {c : Cell} (h : ¬ inB g c) : getCell g c = default := by
  unfold getCell inB at *
  push_neg at h
  by_cases hr : c.row < g.length
  · exact List.getD_eq_default _ _ (h hr)
  · rw [List.getD_eq_default g _ (by omega)]
    rfl

/-- Reachable in one or more `dependents` steps. -/
def ReachP (g : Grid) (u v : Cell) : Prop := ∃ l, Walk g u l v

/-- No cell lies on a nonempty `dependents` cycle. -/
def Acyclic (g : Grid) : Prop := ∀ c : Cell, ¬ ReachP g c c

theorem Walk.prefix {g : Grid} {u : Cell} {l1 : List Cell} {x : Cell} {l2 : List Cell}
    {v : Cell} (h : Walk g u (l1 ++ x :: l2) v) : Walk g u l1 x := by
  induction l1 generalizing u with
  | nil => exact h.1
  | cons y l1 ih => exact ⟨h.1, ih h.2⟩

theorem Walk.append {g : Grid} {u : Cell} {l1 : List Cell} {v : Cell} {l2 : List Cell}
    {w : Cell} (h1 : Walk g u l1 v) (h2 : Walk g v l2 w) : Walk g u (l1 ++ v :: l2) w := by
  induction l1 generalizing u with
  | nil => exact ⟨h1, h2⟩
  | cons x l1 ih => exact ⟨h1.1, ih h1.2⟩

theorem Walk.mono {g g' : Grid} (hsub : ∀ u v, depEdge g' u v → depEdge g u v) :
    ∀ {l : List Cell} {u v : Cell}, Walk g' u l v → Walk g u l v := by
  intro l
  induction l with
  | nil => intro u v h; exact hsub _ _ h
  | cons x l ih => intro u v h; exact ⟨hsub _ _ h.1, ih h.2⟩

theorem acyclic_mono {g g' : Grid} (hsub : ∀ u v, depEdge g' u v → depEdge g u v)
    (hac : Acyclic g) : Acyclic g' := by
  rintro c ⟨l, hw⟩
  exact hac c ⟨l, hw.mono hsub⟩

/-- A walk that repeats a node contains a cycle. -/
theorem cycle_of_dup {g : Grid} :
    ∀ (l : List Cell) (u v : Cell), Walk g u l v → ¬ (u :: l).Nodup →
    ∃ c l', Walk g c l' c := by
  intro l
  induction l with
  | nil =>
    intro u v _ hnd
    exact absurd (List.nodup_singleton u) hnd
  | cons x l ih =>
    intro u v hw hnd
    rw [List.nodup_cons] at hnd
    push_neg at hnd
    by_cases hmem : u ∈ x :: l
    · obtain ⟨s, t, hst⟩ := List.append_of_mem hmem
      rw [hst] at hw
      exact ⟨u, s, hw.prefix⟩
    · exact ih x v hw.2 (hnd hmem)

/-- A cycle visiting `x` gives a cycle at `x`. -/
theorem cycle_through {g : Grid} {c : Cell} {l : List Cell} (hw : Walk g c l c) {x : Cell}
    (hx : x ∈ c :: l) : ∃ l', Walk g x l' x := by
  rcases List.mem_cons.mp hx with rfl | hx
  · exact ⟨l, hw⟩
  · obtain ⟨s, t, hst⟩ := List.append_of_mem hx
    rw [hst] at hw
    exact ⟨t ++ c :: s, hw.suffix.append hw.prefix⟩

theorem nodup_length_le {l U : List Cell} (hnd : l.Nodup) (hsub : ∀ x ∈ l, x ∈ U) :
    l.length ≤ U.length := by
  induction l generalizing U with
  | nil => simp
  | cons a l ih =>
    rw [List.nodup_cons] at hnd
    have ha : a ∈ U := hsub a (by simp)
    have hlen := List.length_erase_of_mem ha
    have hsub' : ∀ x ∈ l, x ∈ U.erase a := by
      intro x hx
      refine (List.mem_erase_of_ne (fun h => ?_)).mpr (hsub x (List.mem_cons_of_mem a hx))
      subst h
      exact hnd.1 hx
    have h1 := ih hnd.2 hsub'
    have h2 : 0 < U.length := List.length_pos_of_mem ha
    rw [List.length_cons]
    omega

theorem exists_long_walk (g : Grid) (U : List Cell)
    (hU : ∀ d ∈ U, ∃ u ∈ U, d ∈ (getCell g u).dependents) :
    ∀ (n : Nat) (d : Cell), d ∈ U →
    ∃ u l, u ∈ U ∧ (∀ x ∈ l, x ∈ U) ∧ l.length = n ∧ Walk g u l d := by
  intro n
  induction n with
  | zero =>
    intro d hd
    obtain ⟨u, hu, he⟩ := hU d hd
    exact ⟨u, [], hu, by simp, rfl, he⟩
  | succ n ih =>
    intro d hd
    obtain ⟨u, l, hu, hl, hlen, hw⟩ := ih d hd
    obtain ⟨u', hu', he'⟩ := hU u hu
    refine ⟨u', u :: l, hu', ?_, by simp [hlen], he', hw⟩
    intro x hx
    rcases List.mem_cons.mp hx with rfl | hx
    · exact hu
    · exact hl x hx

/-- Kahn completeness core: in an acyclic graph, a set in which every node
has a predecessor inside the set is empty. -/
theorem pred_closed_empty {g : Grid} (hac : Acyclic g) (U : List Cell)
    (hU : ∀ d ∈ U, ∃ u ∈ U, d ∈ (getCell g u).dependents) : U = [] := by
  cases hU0 : U with
  | nil => rfl
  | cons d0 U' =>
    exfalso
    have hd0 : d0 ∈ U := by rw [hU0]; simp
    obtain ⟨u, l, hu, hl, hlen, hw⟩ := exists_long_walk g U hU U.length d0 hd0
    have hnd : ¬ (u :: l).Nodup := by
      intro hnd
      have h1 := nodup_length_le hnd (by
        intro x hx
        rcases List.mem_cons.mp hx with rfl | hx
        · exact hu
        · exact hl x hx)
      rw [List.length_cons, hlen] at h1
      omega
    obtain ⟨c, l', hcyc⟩ := cycle_of_dup l u d0 hw hnd
    exact hac c ⟨l', hcyc⟩

/-! ### Decidable bridges for concrete grids -/

theorem boundsG_iff (g : Grid) : BoundsG g ↔
    ∀ r < g.length, ∀ k < (g.getD r []).length,
      ∀ d ∈ (getCell g ⟨r, k⟩).dependents, inB g d := by
  constructor
  · intro h r hr k hk d hd
    exact h ⟨r, k⟩ ⟨hr, hk⟩ d hd
  · intro h q hq d hd
    obtain ⟨hr, hk⟩ := hq
    cases q
    exact h _ hr _ hk d hd

theorem zeroDirty_iff (g : Grid) : (∀ q, (getCell g q).dirty_parents = 0) ↔
    ∀ r < g.length, ∀ k < (g.getD r []).length,
      (getCell g ⟨r, k⟩).dirty_parents = 0 := by
  constructor
  · intro h r hr k hk
    exact h ⟨r, k⟩
  · intro h q
    by_cases hq : inB g q
    · obtain ⟨hr, hk⟩ := hq
      cases q
      exact h _ hr _ hk
    · rw [getCell_oob hq]
      rfl

/-- A strictly edge-increasing rank function certifies acyclicity; the
hypothesis only quantifies over real cells, so it is decidable on a
concrete grid. -/
theorem acyclic_of_rank (g : Grid) (rank : Cell → Nat)
    (h : ∀ r < g.length, ∀ k < (g.getD r []).length,
      ∀ v ∈ (getCell g ⟨r, k⟩).dependents, rank ⟨r, k⟩ < rank v) : Acyclic g := by
  have h' : ∀ u v, depEdge g u v → rank u < rank v := by
    intro u v he
    unfold depEdge at he
    by_cases hu : inB g u
    · obtain ⟨hr, hk⟩ := hu
      cases u
      exact h _ hr _ hk v he
    · rw [getCell_oob hu] at he
      exact absurd he (List.not_mem_nil v)
  have hwalk : ∀ (l : List Cell) (u v : Cell), Walk g u l v → rank u < rank v := by
    intro l
    induction l with
    | nil => exact fun u v hw => h' u v hw
    | cons x l ih => exact fun u v hw => Nat.lt_trans (h' u x hw.1) (ih x v hw.2)
  rintro c ⟨l, hw⟩
  exact absurd (hwalk l c c hw) (by omega)

/-! ### Soundness of the cycle-detection DFS -/

theorem flagFold_stack_nodup (cond : Int → Bool) (v : Int) (deps : List Cell) (g : Grid)
    (st : List Cell) (hst : st.Nodup)
    (hstC : ∀ q ∈ st, ¬ (cond (getCell g q).dirty_parents = true))
    (hdeps : ∀ d ∈ deps, inB g d) (hv : ¬ (cond v = true)) :
    (deps.foldl (flagStep cond v) (g, st)).2.Nodup := by
  induction deps generalizing g st with
  | nil => exact hst
  | cons d deps ih =>
    rw [List.foldl_cons]
    by_cases hd : cond (getCell g d).dirty_parents = true
    · rw [show flagStep cond v (g, st) d = (setDirty g d v, d :: st) by
        unfold flagStep; rw [if_pos hd]]
      have hdin : inB g d := hdeps d (by simp)
      have hdst : d ∉ st := fun h => hstC d h hd
      refine ih _ _ (List.nodup_cons.mpr ⟨hdst, hst⟩) ?_ ?_
      · intro q hq
        rcases List.mem_cons.mp hq with rfl | hq'
        · rw [getCell_setDirty_self _ hdin]
          exact hv
        · rw [getCell_setDirty_ne _ (fun h : q = d => hdst (h ▸ hq'))]
          exact hstC q hq'
      · intro x hx
        rw [inB_setDirty]
        exact hdeps x (by simp [hx])
    · rw [show flagStep cond v (g, st) d = (g, st) by unfold flagStep; rw [if_neg hd]]
      exact ih _ _ hst hstC (fun x hx => hdeps x (by simp [hx]))

/-- Loop invariant of the marking DFS for soundness: markers sit on real
cells, the graph is untouched, stacked cells are marked, and every marked
cell not on the stack already had all its dependents marked and checked
not to be `start`. -/
structure CycState (g : Grid) (start : Cell) (gc : Grid) (stack : List Cell) : Prop where
  shape : ∀ q, inB gc q ↔ inB g q
  deps_eq : ∀ q, (getCell gc q).dependents = (getCell g q).dependents
  mInB : ∀ q, (getCell gc q).dirty_parents ≠ 0 → inB g q
  startM : (getCell gc start).dirty_parents ≠ 0
  stackM : ∀ c ∈ stack, (getCell gc c).dirty_parents ≠ 0
  snd : stack.Nodup
  closed : ∀ u, (getCell gc u).dirty_parents ≠ 0 → u ∉ stack →
    (∀ d ∈ (getCell g u).dependents, (getCell gc d).dirty_parents ≠ 0) ∧
    start ∉ (getCell g u).dependents

theorem cycFold_state {g : Grid} {start : Cell} (hB : BoundsG g) {gc : Grid}
    {current : Cell} {rest : List Cell} (cs : CycState g start gc (current :: rest))
    (hnc : start ∉ (getCell g current).dependents) :
    CycState g start
      ((getCell gc current).dependents.foldl
        (flagStep (fun x => decide (x = 0)) 1) (gc, rest)).1
      ((getCell gc current).dependents.foldl
        (flagStep (fun x => decide (x = 0)) 1) (gc, rest)).2 := by
  have hcur : inB g current := cs.mInB current (cs.stackM current (by simp))
  have hdg : (getCell gc current).dependents = (getCell g current).dependents := cs.deps_eq _
  have hdepsB : ∀ d ∈ (getCell gc current).dependents, inB gc d := by
    intro d hd
    rw [hdg] at hd
    exact (cs.shape d).mpr (hB current hcur d hd)
  have hgrid := flagFold_grid (fun x => decide (x = 0)) 1 (getCell gc current).dependents
    gc rest
  have hstk := flagFold_stack (fun x => decide (x = 0)) 1 (getCell gc current).dependents
    gc rest
  have hmono : ∀ q, (getCell gc q).dirty_parents ≠ 0 →
      (getCell ((getCell gc current).dependents.foldl
        (flagStep (fun x => decide (x = 0)) 1) (gc, rest)).1 q).dirty_parents ≠ 0 := by
    intro q hq
    rw [hgrid q]
    split
    · simp
    · exact hq
  have hnew : ∀ q, q ∈ (getCell gc current).dependents →
      (getCell ((getCell gc current).dependents.foldl
        (flagStep (fun x => decide (x = 0)) 1) (gc, rest)).1 q).dirty_parents ≠ 0 := by
    intro q hq
    rw [hgrid q]
    split
    · simp
    · rename_i hcond
      intro h0
      exact hcond ⟨hdepsB q hq, by simp [h0], hq⟩
  refine ⟨?_, ?_, ?_, ?_, ?_, ?_, ?_⟩
  · intro q
    rw [inB_flagFold]
    exact cs.shape q
  · intro q
    rw [hgrid q]
    split
    · exact cs.deps_eq q
    · exact cs.deps_eq q
  · intro q hq
    rw [hgrid q] at hq
    by_cases hc : inB gc q ∧ (decide ((getCell gc q).dirty_parents = 0) = true) ∧
        q ∈ (getCell gc current).dependents
    · exact (cs.shape q).mp hc.1
    · rw [if_neg hc] at hq
      exact cs.mInB q hq
  · exact hmono start cs.startM
  · intro c hc
    rcases (hstk c).mp hc with hc' | ⟨hmem, -⟩
    · exact hmono c (cs.stackM c (by simp [hc']))
    · exact hnew c hmem
  · refine flagFold_stack_nodup _ _ _ _ _ (cs.snd.of_cons) ?_ hdepsB (by simp)
    intro q hq
    simp only [decide_eq_true_eq]
    exact cs.stackM q (by simp [hq])
  · intro u hu hunst
    by_cases hflag : inB gc u ∧ (decide ((getCell gc u).dirty_parents = 0) = true) ∧
        u ∈ (getCell gc current).dependents
    · exact absurd ((hstk u).mpr (Or.inr ⟨hflag.2.2, hflag.2.1⟩)) hunst
    · have hu0 : (getCell gc u).dirty_parents ≠ 0 := by
        rw [hgrid u, if_neg hflag] at hu
        exact hu
      by_cases hucur : u = current
      · subst hucur
        refine ⟨?_, hnc⟩
        intro d hd
        rw [← hdg] at hd
        exact hnew d hd
      · have hurest : u ∉ rest := fun h => hunst ((hstk u).mpr (Or.inl h))
        have hold := cs.closed u hu0 (by
          intro h
          rcases List.mem_cons.mp h with h' | h'
          · exact hucur h'
          · exact hurest h')
        exact ⟨fun d hd => hmono d (hold.1 d hd), hold.2⟩

theorem cycleLoop_sound {g : Grid} {start : Cell} (hB : BoundsG g) :
    ∀ (fuel : Nat) (gc : Grid) (stack : List Cell) {gf : Grid},
    CycState g start gc stack →
    cycleLoop start fuel gc stack = some (false, gf) →
    ∀ l, ¬ Walk g start l start := by
  intro fuel
  induction fuel with
  | zero =>
    intro gc stack gf _ hres
    simp [cycleLoop] at hres
  | succ fuel ih =>
    intro gc stack gf cs hres
    cases stack with
    | nil =>
      intro l hw
      have key : ∀ (l : List Cell) (u : Cell), (getCell gc u).dirty_parents ≠ 0 →
          Walk g u l start → False := by
        intro l
        induction l with
        | nil =>
          intro u hu hw
          exact (cs.closed u hu (List.not_mem_nil u)).2 hw
        | cons x l ihl =>
          intro u hu hw
          exact ihl x ((cs.closed u hu (List.not_mem_nil u)).1 x hw.1) hw.2
      exact key l start cs.startM hw
    | cons current rest =>
      simp only [cycleLoop] at hres
      by_cases hcont : ((getCell gc current).dependents.contains start = true)
      · rw [if_pos hcont] at hres
        simp at hres
      · rw [if_neg hcont] at hres
        have hnc : start ∉ (getCell g current).dependents := by
          rw [← cs.deps_eq current]
          intro h
          exact hcont (List.elem_eq_true_of_mem h)
        exact ih _ _ (cycFold_state hB cs hnc) hres

theorem check_circular_sound {g : Grid} {start : Cell} (hB : BoundsG g)
    (hz : ∀ q, (getCell g q).dirty_parents = 0) (hstart : inB g start)
    {gf : Grid} (hres : check_circular_dependency g start = some (false, gf)) :
    ∀ l, ¬ Walk g start l start := by
  unfold check_circular_dependency at hres
  cases hcyc : cycleLoop start (dfsFuel g) (setDirty g start 1) [start] with
  | none =>
    rw [hcyc] at hres
    exact absurd hres (by simp)
  | some p =>
    obtain ⟨fnd, g1⟩ := p
    rw [hcyc] at hres
    dsimp only at hres
    have hfnd : fnd = false := by
      cases hrst : reset_found g1 start with
      | none => rw [hrst] at hres; exact absurd hres (by simp)
      | some g2 =>
        rw [hrst] at hres
        simp only [Option.some.injEq, Prod.mk.injEq] at hres
        exact hres.1
    subst hfnd
    have cs0 : CycState g start (setDirty g start 1) [start] := by
      refine ⟨fun q => inB_setDirty _ _ _ _, ?_, ?_, ?_, ?_, List.nodup_singleton _, ?_⟩
      · intro q
        by_cases hq : q = start
        · subst hq
          rw [getCell_setDirty_self _ hstart]
        · rw [getCell_setDirty_ne _ hq]
      · intro q hq
        by_cases hqs : q = start
        · exact hqs ▸ hstart
        · rw [getCell_setDirty_ne _ hqs, hz] at hq
          exact absurd rfl hq
      · rw [getCell_setDirty_self _ hstart]
        simp
      · intro c hc
        rw [List.mem_singleton.mp hc, getCell_setDirty_self _ hstart]
        simp
      · intro u hu hust
        by_cases hus : u = start
        · exact absurd (List.mem_singleton.mpr hus) hust
        · rw [getCell_setDirty_ne _ hus, hz] at hu
          exact absurd rfl hu
    exact cycleLoop_sound hB _ _ _ cs0 hcyc

/-! ### Acyclicity of the tentatively updated graph -/

theorem Walk.transfer_avoid {g g2 : Grid} {cell : Cell}
    (hsub : ∀ u v, depEdge g2 u v → depEdge g u v ∨ v = cell) :
    ∀ (l : List Cell) (u v : Cell), Walk g2 u l v → cell ∉ l → v ≠ cell → Walk g u l v := by
  intro l
  induction l with
  | nil =>
    intro u v hw _ hv
    rcases hsub u v hw with h | h
    · exact h
    · exact absurd h hv
  | cons x l ih =>
    intro u v hw hl hv
    have hx : x ≠ cell := fun h => hl (by simp [h])
    rcases hsub u x hw.1 with h | h
    · exact ⟨h, ih x v hw.2 (fun hc => hl (by simp [hc])) hv⟩
    · exact absurd h hx

theorem acyclic_of_no_cycle_at {g g2 : Grid} {cell : Cell}
    (hsub : ∀ u v, depEdge g2 u v → depEdge g u v ∨ v = cell)
    (hac : Acyclic g) (hnc : ∀ l, ¬ Walk g2 cell l cell) : Acyclic g2 := by
  rintro c ⟨l, hw⟩
  by_cases hcell : cell ∈ c :: l
  · obtain ⟨l', hw'⟩ := cycle_through hw hcell
    exact hnc l' hw'
  · have hc : c ≠ cell := fun h => hcell (by simp [h])
    have hl : cell ∉ l := fun h => hcell (by simp [h])
    exact hac c ⟨l, Walk.transfer_avoid hsub l c c hw hl hc⟩

theorem depEdge_update_fn_sub (g : Grid) (cell : Cell) (F old : Function) :
    ∀ u v, depEdge (update_graph (updCell g cell
      (fun cd => { cd with function := F })) cell old) u v →
    depEdge g u v ∨ v = cell := by
  intro u v h
  unfold depEdge at *
  rcases update_graph_deps_subset _ _ _ _ _ h with h | h
  · rw [(updCell_fn_fields g cell F u).2.2.1] at h
    exact Or.inl h
  · exact Or.inr h

/-! ### In-degree accounting for the two-pass propagation -/

/-- Number of `dependents` edges into `d` whose source is listed in
`srcs` (with multiplicity on both sides). -/
def inDegFrom (g : Grid) (srcs : List Cell) (d : Cell) : Nat :=
  (srcs.map (fun u => (getCell g u).dependents.count d)).sum

theorem inDegFrom_nil (g : Grid) (d : Cell) : inDegFrom g [] d = 0 := rfl

theorem inDegFrom_append (g : Grid) (s1 s2 : List Cell) (d : Cell) :
    inDegFrom g (s1 ++ s2) d = inDegFrom g s1 d + inDegFrom g s2 d := by
  unfold inDegFrom
  rw [List.map_append, List.sum_append]

theorem inDegFrom_single (g : Grid) (u d : Cell) :
    inDegFrom g [u] d = (getCell g u).dependents.count d := by
  unfold inDegFrom
  simp

theorem inDegFrom_pos_iff (g : Grid) (srcs : List Cell) (d : Cell) :
    0 < inDegFrom g srcs d ↔ ∃ u ∈ srcs, d ∈ (getCell g u).dependents := by
  induction srcs with
  | nil => simp [inDegFrom]
  | cons u srcs ih =>
    rw [show u :: srcs = [u] ++ srcs from rfl, inDegFrom_append, inDegFrom_single]
    constructor
    · intro h
      by_cases hc : 0 < (getCell g u).dependents.count d
      · exact ⟨u, by simp, List.count_pos_iff_mem.mp hc⟩
      · obtain ⟨w, hw, hwd⟩ := ih.mp (by omega)
        exact ⟨w, by simp [hw], hwd⟩
    · rintro ⟨w, hw, hwd⟩
      rcases List.mem_cons.mp hw with rfl | hw'
      · have := List.count_pos_iff_mem.mpr hwd
        omega
      · have := ih.mpr ⟨w, hw', hwd⟩
        omega

theorem getCell_incDirty (g : Grid) (c q : Cell) :
    getCell (incDirty g c) q = if q = c ∧ inB g c then
      { getCell g c with dirty_parents := (getCell g c).dirty_parents + 1 }
    else getCell g q := getCell_updCell _ _ _ _

theorem getCell_decDirty (g : Grid) (c q : Cell) :
    getCell (decDirty g c) q = if q = c ∧ inB g c then
      { getCell g c with dirty_parents := (getCell g c).dirty_parents - 1 }
    else getCell g q := getCell_updCell _ _ _ _

/-! ### The in-degree marking fold (`degStep`) -/

theorem degStep_eq (gm : Grid) (st : List Cell) (d : Cell) :
    degStep (gm, st) d = (incDirty gm d,
      if (getCell gm d).dirty_parents = 0 then d :: st else st) := rfl

theorem degFold_dirty (deps : List Cell) (gm : Grid) (st : List Cell)
    (hdeps : ∀ d ∈ deps, inB gm d) (q : Cell) :
    (getCell (deps.foldl degStep (gm, st)).1 q).dirty_parents
      = (getCell gm q).dirty_parents + (deps.count q : Int) := by
  induction deps generalizing gm st with
  | nil => simp
  | cons d deps ih =>
    rw [List.foldl_cons, degStep_eq]
    have hdin : inB gm d := hdeps d (by simp)
    have hdeps' : ∀ x ∈ deps, inB (incDirty gm d) x := by
      intro x hx
      rw [incDirty, inB_updCell]
      exact hdeps x (by simp [hx])
    rw [ih _ _ hdeps']
    rw [getCell_incDirty]
    by_cases hqd : q = d
    · subst hqd
      rw [if_pos ⟨rfl, hdin⟩]
      simp [List.count_cons]
      omega
    · rw [if_neg (fun h => hqd h.1)]
      have hdq : ¬ d = q := fun h => hqd h.symm
      simp [List.count_cons, hqd, hdq]

theorem degFold_frame (deps : List Cell) (gm : Grid) (st : List Cell) :
    (∀ q, sameButDirty (getCell (deps.foldl degStep (gm, st)).1 q) (getCell gm q)) ∧
    (∀ q, inB (deps.foldl degStep (gm, st)).1 q ↔ inB gm q) ∧
    ((deps.foldl degStep (gm, st)).1.length = gm.length) ∧
    (∀ r, ((deps.foldl degStep (gm, st)).1.getD r []).length = (gm.getD r []).length) := by
  refine foldl_preserve (fun p : Grid × List Cell =>
    (∀ q, sameButDirty (getCell p.1 q) (getCell gm q)) ∧
    (∀ q, inB p.1 q ↔ inB gm q) ∧
    (p.1.length = gm.length) ∧
    (∀ r, (p.1.getD r []).length = (gm.getD r []).length))
    ⟨fun q => sameButDirty_refl _, fun q => Iff.rfl, rfl, fun r => rfl⟩ ?_
  rintro ⟨gp, stp⟩ d ⟨h1, h2, h3, h4⟩ -
  rw [degStep_eq]
  refine ⟨?_, ?_, ?_, ?_⟩
  · intro q
    rw [getCell_incDirty]
    split
    · rename_i hcond
      rw [← hcond.1]
      exact sameButDirty_trans (sameButDirty_setMark _ _) (h1 q)
    · exact h1 q
  · intro q
    rw [incDirty, inB_updCell]
    exact h2 q
  · rw [incDirty, length_updCell]
    exact h3
  · intro r
    rw [incDirty, rowLen_updCell]
    exact h4 r

theorem degFold_stack (deps : List Cell) (gm : Grid) (st : List Cell)
    (hnn : ∀ q, 0 ≤ (getCell gm q).dirty_parents)
    (hdeps : ∀ d ∈ deps, inB gm d) (q : Cell) :
    q ∈ (deps.foldl degStep (gm, st)).2 ↔
      q ∈ st ∨ (q ∈ deps ∧ (getCell gm q).dirty_parents = 0) := by
  induction deps generalizing gm st with
  | nil => simp
  | cons d deps ih =>
    rw [List.foldl_cons, degStep_eq]
    have hdin : inB gm d := hdeps d (by simp)
    have hnn' : ∀ x, 0 ≤ (getCell (incDirty gm d) x).dirty_parents := by
      intro x
      rw [getCell_incDirty]
      split
      · rename_i hcond
        show 0 ≤ (getCell gm d).dirty_parents + 1
        have := hnn d
        omega
      · exact hnn x
    have hdeps' : ∀ x ∈ deps, inB (incDirty gm d) x := by
      intro x hx
      rw [incDirty, inB_updCell]
      exact hdeps x (by simp [hx])
    rw [ih _ _ hnn' hdeps']
    by_cases hqd : q = d
    · subst hqd
      have hq1 : (getCell (incDirty gm q) q).dirty_parents ≠ 0 := by
        rw [getCell_incDirty, if_pos ⟨rfl, hdin⟩]
        have := hnn q
        simp
        omega
      by_cases h0 : (getCell gm q).dirty_parents = 0
      · rw [if_pos h0]
        simp [hq1, h0]
      · rw [if_neg h0]
        simp [hq1, h0]
    · have hdq : (getCell (incDirty gm d) q).dirty_parents = (getCell gm q).dirty_parents := by
        rw [getCell_incDirty, if_neg (fun h => hqd h.1)]
      rw [hdq]
      by_cases h0 : (getCell gm d).dirty_parents = 0
      · rw [if_pos h0]
        constructor
        · rintro (h | h)
          · rcases List.mem_cons.mp h with h' | h'
            · exact absurd h' hqd
            · exact Or.inl h'
          · exact Or.inr ⟨by simp [h.1], h.2⟩
        · rintro (h | h)
          · exact Or.inl (by simp [h])
          · rcases List.mem_cons.mp h.1 with h' | h'
            · exact absurd h' hqd
            · exact Or.inr ⟨h', h.2⟩
      · rw [if_neg h0]
        constructor
        · rintro (h | h)
          · exact Or.inl h
          · exact Or.inr ⟨by simp [h.1], h.2⟩
        · rintro (h | h)
          · exact Or.inl h
          · rcases List.mem_cons.mp h.1 with h' | h'
            · exact absurd h' hqd
            · exact Or.inr ⟨h', h.2⟩

theorem degFold_nodup (deps : List Cell) (gm : Grid) (st : List Cell)
    (hnn : ∀ q, 0 ≤ (getCell gm q).dirty_parents)
    (hdeps : ∀ d ∈ deps, inB gm d) (hst : st.Nodup)
    (hstPos : ∀ q ∈ st, (getCell gm q).dirty_parents ≠ 0) :
    (deps.foldl degStep (gm, st)).2.Nodup := by
  induction deps generalizing gm st with
  | nil => exact hst
  | cons d deps ih =>
    rw [List.foldl_cons, degStep_eq]
    have hdin : inB gm d := hdeps d (by simp)
    have hnn' : ∀ x, 0 ≤ (getCell (incDirty gm d) x).dirty_parents := by
      intro x
      rw [getCell_incDirty]
      split
      · rename_i hcond
        show 0 ≤ (getCell gm d).dirty_parents + 1
        have := hnn d
        omega
      · exact hnn x
    have hdeps' : ∀ x ∈ deps, inB (incDirty gm d) x := by
      intro x hx
      rw [incDirty, inB_updCell]
      exact hdeps x (by simp [hx])
    have hd1 : (getCell (incDirty gm d) d).dirty_parents ≠ 0 := by
      rw [getCell_incDirty, if_pos ⟨rfl, hdin⟩]
      have := hnn d
      simp
      omega
    by_cases h0 : (getCell gm d).dirty_parents = 0
    · rw [if_pos h0]
      refine ih _ _ hnn' hdeps' (List.nodup_cons.mpr ⟨fun h => hstPos d h h0, hst⟩) ?_
      intro x hx
      rcases List.mem_cons.mp hx with rfl | hx'
      · exact hd1
      · have hxd : x ≠ d := fun h => (hstPos d (h ▸ hx')) h0
        rw [getCell_incDirty, if_neg (fun h => hxd h.1)]
        exact hstPos x hx'
    · rw [if_neg h0]
      refine ih _ _ hnn' hdeps' hst ?_
      intro x hx
      by_cases hxd : x = d
      · subst hxd
        exact hd1
      · rw [getCell_incDirty, if_neg (fun h => hxd h.1)]
        exact hstPos x hx

/-- Walks starting inside a `dependents`-closed set stay inside it. -/
theorem closed_reach {g : Grid} {S : List Cell}
    (hcl : ∀ u ∈ S, ∀ d ∈ (getCell g u).dependents, d ∈ S) :
    ∀ (l : List Cell) (u v : Cell), u ∈ S → Walk g u l v → v ∈ S := by
  intro l
  induction l with
  | nil => intro u v hu hw; exact hcl u hu v hw
  | cons x l ih => intro u v hu hw; exact ih x v (hcl u hu x hw.1) hw.2

/-- Loop invariant of the in-degree marking DFS of `set_dirty_parents`:
`done` lists the already expanded cells, every marker holds the number of
edges from `done`, and `done ++ stack` is exactly the root plus the cells
with a positive counter. -/
structure MLState (g : Grid) (cell : Cell) (gm : Grid) (stack done : List Cell) : Prop where
  shape : ∀ q, inB gm q ↔ inB g q
  glen : gm.length = g.length
  grow : ∀ r, (gm.getD r []).length = (g.getD r []).length
  same : ∀ q, sameButDirty (getCell gm q) (getCell g q)
  dirty_eq : ∀ q, (getCell gm q).dirty_parents = (inDegFrom g done q : Int)
  nd : (done ++ stack).Nodup
  memInv : ∀ q, q ∈ done ++ stack ↔ q = cell ∨ 0 < inDegFrom g done q
  root : ∀ q ∈ done ++ stack, q = cell ∨ ReachP g cell q
  inBall : ∀ q ∈ done ++ stack, inB g q
  closed : ∀ u ∈ done, ∀ d ∈ (getCell g u).dependents, d ∈ done ++ stack
  cellDone : (done = [] ∧ stack = [cell]) ∨ cell ∈ done

theorem markStep_state {g : Grid} {cell : Cell} (hB : BoundsG g) (hac : Acyclic g)
    {gm : Grid} {current : Cell} {rest done : List Cell}
    (ms : MLState g cell gm (current :: rest) done) :
    MLState g cell
      ((getCell gm current).dependents.foldl degStep (gm, rest)).1
      ((getCell gm current).dependents.foldl degStep (gm, rest)).2
      (done ++ [current]) := by
  have hcurmem : current ∈ done ++ current :: rest := by simp
  have hcur : inB g current := ms.inBall current hcurmem
  have hdg : (getCell gm current).dependents = (getCell g current).dependents :=
    (ms.same current).2.1
  have hdepsB : ∀ d ∈ (getCell gm current).dependents, inB gm d := by
    intro d hd
    rw [hdg] at hd
    exact (ms.shape d).mpr (hB current hcur d hd)
  have hnn : ∀ q, 0 ≤ (getCell gm q).dirty_parents := by
    intro q
    rw [ms.dirty_eq q]
    exact Int.natCast_nonneg _
  have hframe := degFold_frame (getCell gm current).dependents gm rest
  have hdirty : ∀ q, (getCell ((getCell gm current).dependents.foldl degStep
      (gm, rest)).1 q).dirty_parents = (inDegFrom g (done ++ [current]) q : Int) := by
    intro q
    rw [degFold_dirty _ _ _ hdepsB q, ms.dirty_eq q, inDegFrom_append, inDegFrom_single, hdg]
    push_cast
    ring
  have hstk : ∀ q, q ∈ ((getCell gm current).dependents.foldl degStep (gm, rest)).2 ↔
      q ∈ rest ∨ (q ∈ (getCell g current).dependents ∧ inDegFrom g done q = 0) := by
    intro q
    rw [degFold_stack _ _ _ hnn hdepsB q, hdg, ms.dirty_eq q]
    simp
  have hnotCell : cell ∉ (getCell g current).dependents := by
    intro hmem
    rcases ms.root current hcurmem with rfl | ⟨l, hw⟩
    · exact hac current ⟨[], hmem⟩
    · exact hac cell ⟨l ++ [current], hw.snoc hmem⟩
  have hpushedNew : ∀ q, q ∈ (getCell g current).dependents → inDegFrom g done q = 0 →
      q ∉ done ++ current :: rest := by
    intro q hq h0 hmem
    rcases (ms.memInv q).mp hmem with rfl | hpos
    · exact hnotCell hq
    · omega
  have htrans : ∀ q, q ∈ done ++ current :: rest →
      q ∈ (done ++ [current]) ++ ((getCell gm current).dependents.foldl degStep
        (gm, rest)).2 := by
    intro q hq
    rcases List.mem_append.mp hq with h | h
    · exact List.mem_append.mpr (Or.inl (List.mem_append.mpr (Or.inl h)))
    · rcases List.mem_cons.mp h with rfl | h'
      · exact List.mem_append.mpr (Or.inl (by simp))
      · exact List.mem_append.mpr (Or.inr ((hstk q).mpr (Or.inl h')))
  have hndparts := List.nodup_append.mp ms.nd
  have hcellNew : cell ∈ done ++ [current] := by
    rcases ms.cellDone with ⟨hd, hs⟩ | hd
    · have : current = cell := (List.cons.injEq _ _ _ _).mp hs |>.1
      simp [this]
    · exact List.mem_append.mpr (Or.inl hd)
  have hrestPos : ∀ q ∈ rest, (getCell gm q).dirty_parents ≠ 0 := by
    intro q hq
    have hqmem : q ∈ done ++ current :: rest := by simp [hq]
    rcases (ms.memInv q).mp hqmem with rfl | hpos
    · exfalso
      rcases ms.cellDone with ⟨hd, hs⟩ | hd
      · have : rest = [] := ((List.cons.injEq _ _ _ _).mp hs).2
        rw [this] at hq
        exact absurd hq (List.not_mem_nil q)
      · exact hndparts.2.2 hd (by simp [hq])
    · rw [ms.dirty_eq q]
      simp
      omega
  refine ⟨?_, ?_, ?_, ?_, hdirty, ?_, ?_, ?_, ?_, ?_, Or.inr hcellNew⟩
  · exact fun q => (hframe.2.1 q).trans (ms.shape q)
  · exact hframe.2.2.1.trans ms.glen
  · exact fun r => (hframe.2.2.2 r).trans (ms.grow r)
  · exact fun q => sameButDirty_trans (hframe.1 q) (ms.same q)
  · rw [List.nodup_append]
    refine ⟨?_, ?_, ?_⟩
    · rw [List.nodup_append]
      refine ⟨hndparts.1, List.nodup_singleton _, ?_⟩
      intro a ha hacur
      rw [List.mem_singleton] at hacur
      subst hacur
      exact hndparts.2.2 ha (by simp)
    · refine degFold_nodup _ _ _ hnn hdepsB (List.nodup_cons.mp hndparts.2.1).2 hrestPos
    · intro a ha hast
      rcases (hstk a).mp hast with h | ⟨hdep, h0⟩
      · rcases List.mem_append.mp ha with h' | h'
        · exact hndparts.2.2 h' (by simp [h])
        · rw [List.mem_singleton] at h'
          subst h'
          exact (List.nodup_cons.mp hndparts.2.1).1 h
      · refine hpushedNew a hdep h0 ?_
        rcases List.mem_append.mp ha with h' | h'
        · exact List.mem_append.mpr (Or.inl h')
        · rw [List.mem_singleton] at h'
          simp [h']
  · intro q
    rw [inDegFrom_append, inDegFrom_single, hdg]
    rw [hdg] at hstk htrans
    constructor
    · intro hq
      have hqold : q ∈ done ++ current :: rest ∨
          (q ∈ (getCell g current).dependents ∧ inDegFrom g done q = 0) := by
        rcases List.mem_append.mp hq with h | h
        · rcases List.mem_append.mp h with h' | h'
          · exact Or.inl (List.mem_append.mpr (Or.inl h'))
          · rw [List.mem_singleton] at h'
            subst h'
            exact Or.inl hcurmem
        · rcases (hstk q).mp h with h' | h'
          · exact Or.inl (List.mem_append.mpr (Or.inr (List.mem_cons_of_mem _ h')))
          · exact Or.inr h'
      rcases hqold with h | ⟨hdep, -⟩
      · rcases (ms.memInv q).mp h with h' | h'
        · exact Or.inl h'
        · right
          omega
      · right
        have := List.count_pos_iff.mpr hdep
        omega
    · rintro (rfl | hpos)
      · exact List.mem_append.mpr (Or.inl hcellNew)
      · by_cases h0 : 0 < inDegFrom g done q
        · exact htrans q ((ms.memInv q).mpr (Or.inr h0))
        · have hc : 0 < (getCell g current).dependents.count q := by omega
          exact List.mem_append.mpr (Or.inr ((hstk q).mpr
            (Or.inr ⟨List.count_pos_iff.mp hc, by omega⟩)))
  · intro q hq
    rcases List.mem_append.mp hq with h | h
    · refine ms.root q ?_
      rcases List.mem_append.mp h with h' | h'
      · exact List.mem_append.mpr (Or.inl h')
      · rw [List.mem_singleton] at h'
        subst h'
        exact hcurmem
    · rcases (hstk q).mp h with h' | ⟨hdep, -⟩
      · exact ms.root q (List.mem_append.mpr (Or.inr (List.mem_cons_of_mem _ h')))
      · right
        rcases ms.root current hcurmem with rfl | ⟨l, hw⟩
        · exact ⟨[], hdep⟩
        · exact ⟨l ++ [current], hw.snoc hdep⟩
  · intro q hq
    rcases List.mem_append.mp hq with h | h
    · refine ms.inBall q ?_
      rcases List.mem_append.mp h with h' | h'
      · exact List.mem_append.mpr (Or.inl h')
      · rw [List.mem_singleton] at h'
        subst h'
        exact hcurmem
    · rcases (hstk q).mp h with h' | ⟨hdep, -⟩
      · exact ms.inBall q (List.mem_append.mpr (Or.inr (List.mem_cons_of_mem _ h')))
      · exact hB current hcur q hdep
  · intro u hu d hd
    rcases List.mem_append.mp hu with h | h
    · exact htrans d (ms.closed u h d hd)
    · rw [List.mem_singleton] at h
      subst h
      by_cases h0 : inDegFrom g done d = 0
      · exact List.mem_append.mpr (Or.inr ((hstk d).mpr (Or.inr ⟨hd, h0⟩)))
      · exact htrans d ((ms.memInv d).mpr (Or.inr (by omega)))

theorem markLoop_run {g : Grid} {cell : Cell} (hB : BoundsG g) (hac : Acyclic g) :
    ∀ (fuel : Nat) (gm : Grid) (stack done : List Cell) {gf : Grid},
    MLState g cell gm stack done →
    markLoop fuel gm stack = some gf →
    ∃ doneF, MLState g cell gf [] doneF := by
  intro fuel
  induction fuel with
  | zero =>
    intro gm stack done gf _ hres
    simp [markLoop] at hres
  | succ fuel ih =>
    intro gm stack done gf ms hres
    cases stack with
    | nil =>
      simp only [markLoop, Option.some.injEq] at hres
      exact ⟨done, hres ▸ ms⟩
    | cons current rest =>
      simp only [markLoop] at hres
      exact ih _ _ _ (markStep_state hB hac ms) hres

/-- Full characterization of `set_dirty_parents`: on success it has set
every cell's counter to its in-degree restricted to the affected set
(`cell` plus everything reachable from it), touching nothing else. -/
theorem set_dirty_parents_spec {g : Grid} {cell : Cell} (hB : BoundsG g) (hac : Acyclic g)
    (hz : ∀ q, (getCell g q).dirty_parents = 0) (hcell : inB g cell) {g1 : Grid}
    (hres : set_dirty_parents g cell = some g1) :
    ∃ done : List Cell,
      done.Nodup ∧
      (∀ q, q ∈ done ↔ q = cell ∨ ReachP g cell q) ∧
      (∀ q, (getCell g1 q).dirty_parents = (inDegFrom g done q : Int)) ∧
      (∀ q, sameButDirty (getCell g1 q) (getCell g q)) ∧
      (∀ q, inB g1 q ↔ inB g q) ∧
      g1.length = g.length ∧ (∀ r, (g1.getD r []).length = (g.getD r []).length) ∧
      (∀ q ∈ done, inB g q) ∧
      (∀ u ∈ done, ∀ d ∈ (getCell g u).dependents, d ∈ done) ∧
      (∀ q ∈ done, q ≠ cell → 0 < inDegFrom g done q) := by
  unfold set_dirty_parents at hres
  have ms0 : MLState g cell (setDirty g cell 0) [cell] [] := by
    refine ⟨fun q => inB_setDirty _ _ _ _, by rw [setDirty, length_updCell],
      fun r => by rw [setDirty, rowLen_updCell], ?_, ?_, by simp, ?_, ?_, ?_, by simp,
      Or.inl ⟨rfl, rfl⟩⟩
    · intro q
      by_cases hq : q = cell
      · subst hq
        rw [getCell_setDirty_self _ hcell]
        exact sameButDirty_setMark _ _
      · rw [getCell_setDirty_ne _ hq]
        exact sameButDirty_refl _
    · intro q
      rw [inDegFrom_nil]
      by_cases hq : q = cell
      · subst hq
        rw [getCell_setDirty_self _ hcell]
        rfl
      · rw [getCell_setDirty_ne _ hq, hz]
        rfl
    · intro q
      rw [inDegFrom_nil]
      simp
    · intro q hq
      simp at hq
      exact Or.inl hq
    · intro q hq
      simp at hq
      subst hq
      exact hcell
  obtain ⟨doneF, msF⟩ := markLoop_run hB hac _ _ _ _ ms0 hres
  have hmem : ∀ q, q ∈ doneF ↔ q = cell ∨ ReachP g cell q := by
    intro q
    constructor
    · intro hq
      exact msF.root q (by simpa using hq)
    · have hcellF : cell ∈ doneF := by
        rcases msF.cellDone with ⟨-, hs⟩ | hd
        · exact absurd hs.symm (by simp)
        · exact hd
      have hclosedF : ∀ u ∈ doneF, ∀ d ∈ (getCell g u).dependents, d ∈ doneF := by
        intro u hu d hd
        simpa using msF.closed u hu d hd
      rintro (rfl | ⟨l, hw⟩)
      · exact hcellF
      · exact closed_reach hclosedF l cell q hcellF hw
  refine ⟨doneF, by simpa using msF.nd, hmem, msF.dirty_eq, msF.same, msF.shape,
    msF.glen, msF.grow, fun q hq => msF.inBall q (by simpa using hq), ?_, ?_⟩
  · intro u hu d hd
    simpa using msF.closed u (by simpa using hu) d hd
  · intro q hq hqc
    rcases (msF.memInv q).mp (by simpa using hq) with h | h
    · exact absurd h hqc
    · exact h

/-! ### The decrement-and-collect fold (`procStep`) of the processing pass -/

theorem procStep_eq (gp : Grid) (st : List Cell) (d : Cell) :
    procStep (gp, st) d = (decDirty gp d,
      if (getCell (decDirty gp d) d).dirty_parents = 0 then d :: st else st) := by
  unfold procStep
  dsimp only
  split <;> rfl

theorem procFold_dirty (deps : List Cell) (gp : Grid) (st : List Cell)
    (hdeps : ∀ d ∈ deps, inB gp d) (q : Cell) :
    (getCell (deps.foldl procStep (gp, st)).1 q).dirty_parents
      = (getCell gp q).dirty_parents - (deps.count q : Int) := by
  induction deps generalizing gp st with
  | nil => simp
  | cons d deps ih =>
    rw [List.foldl_cons, procStep_eq]
    have hdin : inB gp d := hdeps d (by simp)
    have hdeps' : ∀ x ∈ deps, inB (decDirty gp d) x := by
      intro x hx
      rw [decDirty, inB_updCell]
      exact hdeps x (by simp [hx])
    rw [ih _ _ hdeps', getCell_decDirty]
    by_cases hqd : q = d
    · subst hqd
      rw [if_pos ⟨rfl, hdin⟩]
      simp [List.count_cons]
      omega
    · rw [if_neg (fun h => hqd h.1)]
      have hdq : ¬ d = q := fun h => hqd h.symm
      simp [List.count_cons, hqd, hdq]

theorem procFold_frame (deps : List Cell) (gp : Grid) (st : List Cell) :
    (∀ q, sameButDirty (getCell (deps.foldl procStep (gp, st)).1 q) (getCell gp q)) ∧
    (∀ q, inB (deps.foldl procStep (gp, st)).1 q ↔ inB gp q) ∧
    ((deps.foldl procStep (gp, st)).1.length = gp.length) ∧
    (∀ r, ((deps.foldl procStep (gp, st)).1.getD r []).length = (gp.getD r []).length) := by
  refine foldl_preserve (fun p : Grid × List Cell =>
    (∀ q, sameButDirty (getCell p.1 q) (getCell gp q)) ∧
    (∀ q, inB p.1 q ↔ inB gp q) ∧
    (p.1.length = gp.length) ∧
    (∀ r, (p.1.getD r []).length = (gp.getD r []).length))
    ⟨fun q => sameButDirty_refl _, fun q => Iff.rfl, rfl, fun r => rfl⟩ ?_
  rintro ⟨gq, stq⟩ d ⟨h1, h2, h3, h4⟩ -
  rw [procStep_eq]
  refine ⟨?_, ?_, ?_, ?_⟩
  · intro q
    rw [getCell_decDirty]
    split
    · rename_i hcond
      rw [← hcond.1]
      exact sameButDirty_trans (sameButDirty_setMark _ _) (h1 q)
    · exact h1 q
  · intro q
    rw [decDirty, inB_updCell]
    exact h2 q
  · rw [decDirty, length_updCell]
    exact h3
  · intro r
    rw [decDirty, rowLen_updCell]
    exact h4 r

theorem procFold_stack (deps : List Cell) (gp : Grid) (st : List Cell)
    (hdeps : ∀ d ∈ deps, inB gp d)
    (hge : ∀ d ∈ deps, (deps.count d : Int) ≤ (getCell gp d).dirty_parents) (q : Cell) :
    q ∈ (deps.foldl procStep (gp, st)).2 ↔
      q ∈ st ∨ (q ∈ deps ∧ (getCell gp q).dirty_parents = (deps.count q : Int)) := by
  induction deps generalizing gp st with
  | nil => simp
  | cons d deps ih =>
    rw [List.foldl_cons, procStep_eq]
    have hdin : inB gp d := hdeps d (by simp)
    have hdd : (getCell (decDirty gp d) d).dirty_parents
        = (getCell gp d).dirty_parents - 1 := by
      rw [getCell_decDirty, if_pos ⟨rfl, hdin⟩]
    have hdne : ∀ x, x ≠ d → getCell (decDirty gp d) x = getCell gp x := by
      intro x hx
      rw [getCell_decDirty, if_neg (fun h => hx h.1)]
    have hdeps' : ∀ x ∈ deps, inB (decDirty gp d) x := by
      intro x hx
      rw [decDirty, inB_updCell]
      exact hdeps x (by simp [hx])
    have hcd : ((d :: deps).count d : Int) = (deps.count d : Int) + 1 := by
      simp [List.count_cons]
    have hge' : ∀ x ∈ deps, (deps.count x : Int)
        ≤ (getCell (decDirty gp d) x).dirty_parents := by
      intro x hx
      by_cases hxd : x = d
      · subst hxd
        have := hge x (by simp)
        rw [hdd]
        omega
      · rw [hdne x hxd]
        have := hge x (by simp [hx])
        have hcx : ((d :: deps).count x : Int) = (deps.count x : Int) := by
          have : ¬ x = d := hxd
          simp [List.count_cons, this, fun h : d = x => hxd h.symm]
        omega
    rw [ih _ _ hdeps' hge']
    by_cases hqd : q = d
    · subst hqd
      have hq1 := hge q (by simp)
      rw [hdd]
      by_cases h0 : (getCell gp q).dirty_parents - 1 = 0
      · rw [if_pos h0]
        have hcnt0 : (deps.count q : Int) = 0 := by
          rw [hcd] at hq1
          omega
        constructor
        · intro h
          exact Or.inr ⟨by simp, by rw [hcd]; omega⟩
        · intro h
          exact Or.inl (by simp)
      · rw [if_neg h0]
        constructor
        · rintro (h | ⟨hm, he⟩)
          · exact Or.inl h
          · exact Or.inr ⟨by simp, by rw [hcd]; omega⟩
        · rintro (h | ⟨hm, he⟩)
          · exact Or.inl h
          · rw [hcd] at he
            by_cases hqdeps : q ∈ deps
            · refine Or.inr ⟨hqdeps, by omega⟩
            · exfalso
              have : deps.count q = 0 := List.count_eq_zero.mpr hqdeps
              omega
    · have hcq : ((d :: deps).count q : Int) = (deps.count q : Int) := by
        have h1 : ¬ q = d := hqd
        simp [List.count_cons, h1, fun h : d = q => hqd h.symm]
      have hmemq : q ∈ d :: deps ↔ q ∈ deps := by
        constructor
        · intro h
          rcases List.mem_cons.mp h with h' | h'
          · exact absurd h' hqd
          · exact h'
        · exact fun h => List.mem_cons_of_mem _ h
      rw [hdne q hqd, hcq, hmemq]
      by_cases h0 : (getCell (decDirty gp d) d).dirty_parents = 0
      · rw [if_pos h0]
        constructor
        · rintro (h | h)
          · rcases List.mem_cons.mp h with h' | h'
            · exact absurd h' hqd
            · exact Or.inl h'
          · exact Or.inr h
        · rintro (h | h)
          · exact Or.inl (List.mem_cons_of_mem _ h)
          · exact Or.inr h
      · rw [if_neg h0]

theorem procFold_nodup (deps : List Cell) (gp : Grid) (st : List Cell)
    (hdeps : ∀ d ∈ deps, inB gp d) (hst : st.Nodup)
    (hstNeg : ∀ q ∈ st, (getCell gp q).dirty_parents ≤ 0) :
    (deps.foldl procStep (gp, st)).2.Nodup ∧
    ∀ q ∈ (deps.foldl procStep (gp, st)).2,
      (getCell (deps.foldl procStep (gp, st)).1 q).dirty_parents ≤ 0 := by
  induction deps generalizing gp st with
  | nil => exact ⟨hst, hstNeg⟩
  | cons d deps ih =>
    rw [List.foldl_cons, procStep_eq]
    have hdin : inB gp d := hdeps d (by simp)
    have hdd : (getCell (decDirty gp d) d).dirty_parents
        = (getCell gp d).dirty_parents - 1 := by
      rw [getCell_decDirty, if_pos ⟨rfl, hdin⟩]
    have hdne : ∀ x, x ≠ d → getCell (decDirty gp d) x = getCell gp x := by
      intro x hx
      rw [getCell_decDirty, if_neg (fun h => hx h.1)]
    have hdeps' : ∀ x ∈ deps, inB (decDirty gp d) x := by
      intro x hx
      rw [decDirty, inB_updCell]
      exact hdeps x (by simp [hx])
    by_cases h0 : (getCell (decDirty gp d) d).dirty_parents = 0
    · rw [if_pos h0]
      have hdst : d ∉ st := by
        intro h
        have := hstNeg d h
        omega
      refine ih _ _ hdeps' (List.nodup_cons.mpr ⟨hdst, hst⟩) ?_
      intro x hx
      rcases List.mem_cons.mp hx with rfl | hx'
      · omega
      · by_cases hxd : x = d
        · subst hxd
          omega
        · rw [hdne x hxd]
          exact hstNeg x hx'
    · rw [if_neg h0]
      refine ih _ _ hdeps' hst ?_
      intro x hx
      by_cases hxd : x = d
      · subst hxd
        rw [hdd]
        have := hstNeg x hx
        omega
      · rw [hdne x hxd]
        exact hstNeg x hx

/-! ### The pending (unprocessed) part of the affected set -/

/-- The cells of `done0` not yet processed (neither the edited cell nor
already evaluated). -/
def pend (cell : Cell) (done0 trace : List Cell) : List Cell :=
  done0.filter (fun u => decide (¬ (u = cell ∨ u ∈ trace)))

theorem pend_mem (cell : Cell) (done0 trace : List Cell) (u : Cell) :
    u ∈ pend cell done0 trace ↔ u ∈ done0 ∧ ¬ (u = cell ∨ u ∈ trace) := by
  unfold pend
  rw [List.mem_filter]
  simp

theorem pend_cons (cell current : Cell) (done0 trace : List Cell) :
    pend cell done0 (current :: trace)
      = (pend cell done0 trace).filter (fun u => decide (¬ u = current)) := by
  induction done0 with
  | nil => rfl
  | cons a l ih =>
    unfold pend at ih ⊢
    by_cases h1 : a = cell ∨ a ∈ trace
    · have pf1 : ¬ ((fun u => decide (¬ (u = cell ∨ u ∈ current :: trace))) a = true) := by
        simp only [decide_eq_true_eq, not_not]
        rcases h1 with h | h
        · exact Or.inl h
        · exact Or.inr (List.mem_cons_of_mem _ h)
      have pf2 : ¬ ((fun u => decide (¬ (u = cell ∨ u ∈ trace))) a = true) := by
        simp only [decide_eq_true_eq, not_not]
        exact h1
      rw [@List.filter_cons_of_neg Cell (fun u => decide (¬ (u = cell ∨ u ∈ current :: trace))) a l pf1,
        @List.filter_cons_of_neg Cell (fun u => decide (¬ (u = cell ∨ u ∈ trace))) a l pf2]
      exact ih
    · have pf4 : ((fun u => decide (¬ (u = cell ∨ u ∈ trace))) a = true) := by
        simp only [decide_eq_true_eq]
        exact h1
      by_cases h2 : a = current
      · have pf3 : ¬ ((fun u => decide (¬ (u = cell ∨ u ∈ current :: trace))) a = true) := by
          simp only [decide_eq_true_eq, not_not]
          exact Or.inr (h2 ▸ List.mem_cons_self current trace)
        have pf5 : ¬ ((fun u => decide (¬ u = current)) a = true) := by
          simp [h2]
        rw [@List.filter_cons_of_neg Cell (fun u => decide (¬ (u = cell ∨ u ∈ current :: trace))) a l pf3,
          @List.filter_cons_of_pos Cell (fun u => decide (¬ (u = cell ∨ u ∈ trace))) a l pf4,
          @List.filter_cons_of_neg Cell (fun u => decide (¬ u = current)) a
            (List.filter (fun u => decide (¬ (u = cell ∨ u ∈ trace))) l) pf5]
        exact ih
      · have pf6 : ((fun u => decide (¬ (u = cell ∨ u ∈ current :: trace))) a = true) := by
          simp only [decide_eq_true_eq]
          rintro (h | h)
          · exact h1 (Or.inl h)
          · rcases List.mem_cons.mp h with h' | h'
            · exact h2 h'
            · exact h1 (Or.inr h')
        have pf7 : ((fun u => decide (¬ u = current)) a = true) := by
          simp [h2]
        rw [@List.filter_cons_of_pos Cell (fun u => decide (¬ (u = cell ∨ u ∈ current :: trace))) a l pf6,
          @List.filter_cons_of_pos Cell (fun u => decide (¬ (u = cell ∨ u ∈ trace))) a l pf4,
          @List.filter_cons_of_pos Cell (fun u => decide (¬ u = current)) a
            (List.filter (fun u => decide (¬ (u = cell ∨ u ∈ trace))) l) pf7, ih]

theorem pend_nil (cell : Cell) (done0 : List Cell) :
    pend cell done0 [] = done0.filter (fun u => decide (¬ u = cell)) := by
  unfold pend
  apply List.filter_congr
  intro u _
  apply decide_eq_decide.mpr
  simp

theorem inDegFrom_filter_le (g : Grid) (U : List Cell) (p : Cell → Bool) (q : Cell) :
    inDegFrom g (U.filter p) q ≤ inDegFrom g U q := by
  induction U with
  | nil => simp [inDegFrom]
  | cons u U ih =>
    rw [show u :: U = [u] ++ U from rfl, inDegFrom_append, List.filter_append,
      inDegFrom_append]
    have hle : inDegFrom g ([u].filter p) q ≤ inDegFrom g [u] q := by
      cases hpu : p u
      · have he : [u].filter p = [] := by
          rw [@List.filter_cons_of_neg Cell p u [] (by simp [hpu])]
          rfl
        rw [he, inDegFrom_nil]
        exact Nat.zero_le _
      · have he : [u].filter p = [u] := by
          rw [@List.filter_cons_of_pos Cell p u [] (by simp [hpu])]
          rfl
        rw [he]
    omega

/-- Splitting off one occurrence of a listed source. -/
theorem inDegFrom_erase (g : Grid) (U : List Cell) (current : Cell) (hnd : U.Nodup)
    (hcur : current ∈ U) (q : Cell) :
    inDegFrom g U q = (getCell g current).dependents.count q
      + inDegFrom g (U.filter (fun u => decide (¬ u = current))) q := by
  induction U with
  | nil => exact absurd hcur (List.not_mem_nil current)
  | cons a U ih =>
    by_cases hac : a = current
    · subst hac
      have hdrop : (a :: U).filter (fun u => decide (¬ u = a)) = U := by
        rw [@List.filter_cons_of_neg Cell (fun u => decide (¬ u = a)) a U (by simp)]
        refine List.filter_eq_self.mpr ?_
        intro u hu
        simp only [decide_eq_true_eq]
        intro h
        subst h
        exact (List.nodup_cons.mp hnd).1 hu
      rw [hdrop, show a :: U = [a] ++ U from rfl, inDegFrom_append, inDegFrom_single]
    · have hcurU : current ∈ U := by
        rcases List.mem_cons.mp hcur with h | h
        · exact absurd h.symm hac
        · exact h
      have hkeep : (a :: U).filter (fun u => decide (¬ u = current))
          = a :: U.filter (fun u => decide (¬ u = current)) := by
        rw [@List.filter_cons_of_pos Cell (fun u => decide (¬ u = current)) a U (by simp [hac])]
      rw [hkeep, show a :: U = [a] ++ U from rfl,
        show (a :: U.filter (fun u => decide (¬ u = current)) : List Cell)
          = [a] ++ U.filter (fun u => decide (¬ u = current)) from rfl,
        inDegFrom_append, inDegFrom_append, inDegFrom_single,
        ih (List.nodup_cons.mp hnd).2 hcurU]
      omega

theorem updCell_ve_fields (g : Grid) (c : Cell) (a : Int) (e : CellError) (q : Cell) :
    (getCell (updCell g c (fun cd => { cd with value := a, error := e })) q).dependents
        = (getCell g q).dependents ∧
    (getCell (updCell g c (fun cd => { cd with value := a, error := e })) q).function
        = (getCell g q).function ∧
    (getCell (updCell g c (fun cd => { cd with value := a, error := e })) q).dirty_parents
        = (getCell g q).dirty_parents := by
  rw [getCell_updCell]
  by_cases h : q = c ∧ inB g c
  · rw [if_pos h, h.1]
    exact ⟨rfl, rfl, rfl⟩
  · rw [if_neg h]
    exact ⟨rfl, rfl, rfl⟩

/-- Loop invariant of the counter-draining processing pass, relative to
the base grid `g` and the affected set `done0` computed by the marking
pass: counters hold the in-degree restricted to the still unprocessed
part of `done0`, the stack holds exactly the unprocessed cells whose
counter reached zero, and `trace` (reversed processing order) respects
the topological order. -/
structure PState (g : Grid) (cell : Cell) (done0 : List Cell) (gp : Grid)
    (stack trace : List Cell) : Prop where
  shape : ∀ q, inB gp q ↔ inB g q
  glen : gp.length = g.length
  grow : ∀ r, (gp.getD r []).length = (g.getD r []).length
  deps_eq : ∀ q, (getCell gp q).dependents = (getCell g q).dependents
  fn_eq : ∀ q, (getCell gp q).function = (getCell g q).function
  dirty_eq : ∀ q, (getCell gp q).dirty_parents
      = (inDegFrom g (pend cell done0 trace) q : Int)
  ndts : (trace ++ stack).Nodup
  subD : ∀ q ∈ trace ++ stack, q ∈ done0 ∧ q ≠ cell
  stackIff : ∀ q, q ∈ done0 → q ≠ cell → q ∉ trace →
      (q ∈ stack ↔ inDegFrom g (pend cell done0 trace) q = 0)
  traceZero : ∀ q ∈ trace, inDegFrom g (pend cell done0 trace) q = 0
  topo : ∀ l1 v l2, trace = l1 ++ v :: l2 → ∀ u ∈ done0,
      v ∈ (getCell g u).dependents → u = cell ∨ u ∈ l2

/-- Storing an evaluation result does not disturb the invariant. -/
theorem pstate_updVE {g : Grid} {cell : Cell} {done0 : List Cell} {gp : Grid}
    {stack trace : List Cell} (ps : PState g cell done0 gp stack trace)
    (c : Cell) (a : Int) (e : CellError) :
    PState g cell done0 (updCell gp c (fun cd => { cd with value := a, error := e }))
      stack trace := by
  refine ⟨?_, ?_, ?_, ?_, ?_, ?_, ps.ndts, ps.subD, ps.stackIff, ps.traceZero, ps.topo⟩
  · intro q
    rw [inB_updCell]
    exact ps.shape q
  · rw [length_updCell]
    exact ps.glen
  · intro r
    rw [rowLen_updCell]
    exact ps.grow r
  · intro q
    rw [(updCell_ve_fields gp c a e q).1]
    exact ps.deps_eq q
  · intro q
    rw [(updCell_ve_fields gp c a e q).2.1]
    exact ps.fn_eq q
  · intro q
    rw [(updCell_ve_fields gp c a e q).2.2]
    exact ps.dirty_eq q

theorem procFoldStep_state {g : Grid} {cell : Cell} {done0 : List Cell}
    (hB : BoundsG g) (hac : Acyclic g)
    (hnd0 : done0.Nodup)
    (hmem0 : ∀ q, q ∈ done0 ↔ q = cell ∨ ReachP g cell q)
    (hinB0 : ∀ q ∈ done0, inB g q)
    (hclosed0 : ∀ u ∈ done0, ∀ d ∈ (getCell g u).dependents, d ∈ done0)
    {g1 : Grid} {current : Cell} {rest trace : List Cell}
    (ps : PState g cell done0 g1 (current :: rest) trace) :
    PState g cell done0
      ((getCell g1 current).dependents.foldl procStep (g1, rest)).1
      ((getCell g1 current).dependents.foldl procStep (g1, rest)).2
      (current :: trace) := by
  have hndparts := List.nodup_append.mp ps.ndts
  have hcd : current ∈ done0 ∧ current ≠ cell := ps.subD current (by simp)
  have hct : current ∉ trace := fun h => hndparts.2.2 h (by simp)
  have hcurU : current ∈ pend cell done0 trace := by
    rw [pend_mem]
    refine ⟨hcd.1, ?_⟩
    rintro (h | h)
    · exact hcd.2 h
    · exact hct h
  have hndU : (pend cell done0 trace).Nodup := hnd0.filter _
  have hsplit : ∀ q, inDegFrom g (pend cell done0 trace) q
      = (getCell g current).dependents.count q
        + inDegFrom g (pend cell done0 (current :: trace)) q := by
    intro q
    rw [pend_cons]
    exact inDegFrom_erase g _ current hndU hcurU q
  have hdg1 : (getCell g1 current).dependents = (getCell g current).dependents :=
    ps.deps_eq current
  have hcurB : inB g current := hinB0 current hcd.1
  have hdepsB : ∀ d ∈ (getCell g1 current).dependents, inB g1 d := by
    intro d hd
    rw [hdg1] at hd
    exact (ps.shape d).mpr (hB current hcurB d hd)
  have hgeU : ∀ d ∈ (getCell g1 current).dependents,
      ((getCell g1 current).dependents.count d : Int)
        ≤ (getCell g1 d).dirty_parents := by
    intro d hd
    rw [ps.dirty_eq d, hdg1]
    have := hsplit d
    omega
  have hcur0 : inDegFrom g (pend cell done0 trace) current = 0 :=
    (ps.stackIff current hcd.1 hcd.2 hct).mp (by simp)
  have hstk := procFold_stack (getCell g1 current).dependents g1 rest hdepsB hgeU
  have hdirty := procFold_dirty (getCell g1 current).dependents g1 rest hdepsB
  have hframe := procFold_frame (getCell g1 current).dependents g1 rest
  have hstk' : ∀ q, q ∈ ((getCell g1 current).dependents.foldl procStep (g1, rest)).2 ↔
      q ∈ rest ∨ (q ∈ (getCell g current).dependents ∧
        inDegFrom g (pend cell done0 trace) q
          = (getCell g current).dependents.count q) := by
    intro q
    rw [hstk q, hdg1, ps.dirty_eq q]
    constructor
    · rintro (h | ⟨h1, h2⟩)
      · exact Or.inl h
      · exact Or.inr ⟨h1, Nat.cast_injective h2⟩
    · rintro (h | ⟨h1, h2⟩)
      · exact Or.inl h
      · exact Or.inr ⟨h1, by rw [h2]⟩
  have hrestNeg : ∀ q ∈ rest, (getCell g1 q).dirty_parents ≤ 0 := by
    intro q hq
    have hqd := ps.subD q (by simp [hq])
    have hqt : q ∉ trace := fun h => hndparts.2.2 h (by simp [hq])
    have := (ps.stackIff q hqd.1 hqd.2 hqt).mp (by simp [hq])
    rw [ps.dirty_eq q, this]
    simp
  have hnodup := procFold_nodup (getCell g1 current).dependents g1 rest hdepsB
    ((List.nodup_cons.mp hndparts.2.1).2) hrestNeg
  have hcellEdge : ∀ u, u ∈ done0 → cell ∈ (getCell g u).dependents → False := by
    intro u hu hedge
    rcases (hmem0 u).mp hu with rfl | ⟨l, hw⟩
    · exact hac u ⟨[], hedge⟩
    · exact hac cell ⟨l ++ [u], hw.snoc hedge⟩
  refine ⟨?_, ?_, ?_, ?_, ?_, ?_, ?_, ?_, ?_, ?_, ?_⟩
  · exact fun q => (hframe.2.1 q).trans (ps.shape q)
  · exact hframe.2.2.1.trans ps.glen
  · exact fun r => (hframe.2.2.2 r).trans (ps.grow r)
  · exact fun q => ((hframe.1 q).2.1).trans (ps.deps_eq q)
  · exact fun q => ((hframe.1 q).2.2.1).trans (ps.fn_eq q)
  · intro q
    rw [hdirty q, ps.dirty_eq q, hdg1]
    have := hsplit q
    omega
  · rw [show (current :: trace) ++ ((getCell g1 current).dependents.foldl procStep
      (g1, rest)).2 = current :: (trace ++ ((getCell g1 current).dependents.foldl procStep
      (g1, rest)).2) from rfl, List.nodup_cons, List.nodup_append]
    refine ⟨?_, hndparts.1, hnodup.1, ?_⟩
    · intro h
      rcases List.mem_append.mp h with h' | h'
      · exact hct h'
      · rcases (hstk' current).mp h' with h'' | ⟨h1, h2⟩
        · exact (List.nodup_cons.mp hndparts.2.1).1 h''
        · rw [hcur0] at h2
          have : (getCell g current).dependents.count current = 0 := h2.symm
          rw [List.count_eq_zero] at this
          exact this h1
    · intro a ha hast
      rcases (hstk' a).mp hast with h' | ⟨h1, h2⟩
      · exact hndparts.2.2 ha (by simp [h'])
      · rw [ps.traceZero a ha] at h2
        have : (getCell g current).dependents.count a = 0 := h2.symm
        rw [List.count_eq_zero] at this
        exact this h1
  · intro q hq
    rcases List.mem_append.mp hq with h | h
    · rcases List.mem_cons.mp h with rfl | h'
      · exact hcd
      · exact ps.subD q (List.mem_append.mpr (Or.inl h'))
    · rcases (hstk' q).mp h with h' | ⟨h1, -⟩
      · exact ps.subD q (List.mem_append.mpr (Or.inr (List.mem_cons_of_mem _ h')))
      · refine ⟨hclosed0 current hcd.1 q h1, ?_⟩
        rintro rfl
        exact hcellEdge current hcd.1 h1
  · intro q hq0 hqc hqt'
    have hqcur : q ≠ current := fun h => hqt' (by simp [h])
    have hqt : q ∉ trace := fun h => hqt' (List.mem_cons_of_mem _ h)
    rw [hstk' q]
    have hsq := hsplit q
    constructor
    · rintro (h | ⟨h1, h2⟩)
      · have := (ps.stackIff q hq0 hqc hqt).mp (List.mem_cons_of_mem _ h)
        omega
      · omega
    · intro h0
      by_cases hc0 : (getCell g current).dependents.count q = 0
      · have hU0 : inDegFrom g (pend cell done0 trace) q = 0 := by omega
        have := (ps.stackIff q hq0 hqc hqt).mpr hU0
        rcases List.mem_cons.mp this with h' | h'
        · exact absurd h' hqcur
        · exact Or.inl h'
      · refine Or.inr ⟨?_, by omega⟩
        rw [← List.count_pos_iff]
        omega
  · intro q hq
    have hle : inDegFrom g (pend cell done0 (current :: trace)) q
        ≤ inDegFrom g (pend cell done0 trace) q := by
      rw [pend_cons]
      exact inDegFrom_filter_le _ _ _ _
    rcases List.mem_cons.mp hq with rfl | h'
    · omega
    · have := ps.traceZero q h'
      omega
  · intro l1 v l2 hsplit' u hu hedge
    cases l1 with
    | nil =>
      obtain ⟨hv, hl2⟩ := (List.cons.injEq _ _ _ _).mp hsplit'
      subst hv
      subst hl2
      by_cases hu1 : u = cell
      · exact Or.inl hu1
      by_cases hu2 : u ∈ trace
      · exact Or.inr hu2
      have huU : u ∈ pend cell done0 trace := by
        rw [pend_mem]
        refine ⟨hu, ?_⟩
        rintro (h | h)
        · exact hu1 h
        · exact hu2 h
      exact absurd ((inDegFrom_pos_iff _ _ _).mpr ⟨u, huU, hedge⟩)
        (by rw [hcur0]; omega)
    | cons c1 l1' =>
      obtain ⟨hc1, htr⟩ := (List.cons.injEq _ _ _ _).mp hsplit'
      exact ps.topo l1' v l2 htr u hu hedge

theorem processLoop_run {g : Grid} {cell : Cell} {done0 : List Cell}
    (hB : BoundsG g) (hac : Acyclic g) (hnd0 : done0.Nodup)
    (hmem0 : ∀ q, q ∈ done0 ↔ q = cell ∨ ReachP g cell q)
    (hinB0 : ∀ q ∈ done0, inB g q)
    (hclosed0 : ∀ u ∈ done0, ∀ d ∈ (getCell g u).dependents, d ∈ done0)
    (sv : List Int → Int → Int → Int) :
    ∀ (fuel : Nat) (gp : Grid) (stack trace : List Cell) {gf : Grid} {tf : List Cell},
    PState g cell done0 gp stack trace →
    processLoop sv fuel gp stack trace = some (gf, tf) →
    ∃ traceF, PState g cell done0 gf [] traceF ∧ tf = traceF.reverse ∧
      pend cell done0 traceF = [] := by
  intro fuel
  induction fuel with
  | zero =>
    intro gp stack trace gf tf _ hres
    simp [processLoop] at hres
  | succ fuel ih =>
    intro gp stack trace gf tf ps hres
    cases stack with
    | nil =>
      simp only [processLoop, Option.some.injEq, Prod.mk.injEq] at hres
      obtain ⟨hgf, htf⟩ := hres
      have hUe : pend cell done0 trace = [] := by
        refine pred_closed_empty hac _ ?_
        intro d hd
        have hdp := (pend_mem cell done0 trace d).mp hd
        have hd1 : d ≠ cell := fun h => hdp.2 (Or.inl h)
        have hd2 : d ∉ trace := fun h => hdp.2 (Or.inr h)
        have hne : inDegFrom g (pend cell done0 trace) d ≠ 0 := by
          intro h0
          have := (ps.stackIff d hdp.1 hd1 hd2).mpr h0
          exact absurd this (List.not_mem_nil d)
        exact (inDegFrom_pos_iff _ _ _).mp (by omega)
      exact ⟨trace, hgf ▸ ps, htf.symm, hUe⟩
    | cons current rest =>
      simp only [processLoop] at hres
      exact ih _ _ _ (procFoldStep_state hB hac hnd0 hmem0 hinB0 hclosed0
        (pstate_updVE ps current
          (evaluate_expression sv gp (getCell gp current).function).1
          (evaluate_expression sv gp (getCell gp current).function).2)) hres

/-- Full specification of `update_dependents` on a well-formed acyclic
grid: it succeeds, drains every counter back to `0`, leaves the graph
(dependents and formulas) untouched, and its evaluation trace lists every
strictly reachable cell exactly once, in an order where each cell comes
after all of its predecessors inside the affected subgraph. -/
theorem update_dependents_spec {g : Grid} {cell : Cell}
    (hB : BoundsG g) (hac : Acyclic g)
    (hz : ∀ q, (getCell g q).dirty_parents = 0) (hcell : inB g cell)
    (sv : List Int → Int → Int → Int) {gf : Grid} {tr : List Cell}
    (hres : update_dependents sv g cell = some (gf, tr)) :
    (∀ q, (getCell gf q).dirty_parents = 0) ∧
    (∀ q, inB gf q ↔ inB g q) ∧
    gf.length = g.length ∧ (∀ r, (gf.getD r []).length = (g.getD r []).length) ∧
    (∀ q, (getCell gf q).dependents = (getCell g q).dependents) ∧
    (∀ q, (getCell gf q).function = (getCell g q).function) ∧
    tr.Nodup ∧
    (∀ d, d ∈ tr ↔ (ReachP g cell d ∧ d ≠ cell)) ∧
    (∀ l1 v l2, tr = l1 ++ v :: l2 → ∀ u, (u = cell ∨ ReachP g cell u) →
      v ∈ (getCell g u).dependents → u = cell ∨ u ∈ l1) := by
  unfold update_dependents at hres
  cases hsdp : set_dirty_parents g cell with
  | none =>
    rw [hsdp] at hres
    exact absurd hres (by simp)
  | some g1 =>
    rw [hsdp] at hres
    dsimp only at hres
    obtain ⟨done0, hnd0, hmem0, hdirty1, hsame1, hshape1, hlen1, hrow1, hinB0, hclosed0,
      hpos0⟩ := set_dirty_parents_spec hB hac hz hcell hsdp
    have hcell0 : cell ∈ done0 := (hmem0 cell).mpr (Or.inl rfl)
    have hdg1 : (getCell g1 cell).dependents = (getCell g cell).dependents :=
      (hsame1 cell).2.1
    have hsplit0 : ∀ q, inDegFrom g done0 q
        = (getCell g cell).dependents.count q + inDegFrom g (pend cell done0 []) q := by
      intro q
      rw [pend_nil]
      exact inDegFrom_erase g done0 cell hnd0 hcell0 q
    have hdepsB : ∀ d ∈ (getCell g1 cell).dependents, inB g1 d := by
      intro d hd
      rw [hdg1] at hd
      exact (hshape1 d).mpr (hB cell hcell d hd)
    have hge0 : ∀ d ∈ (getCell g1 cell).dependents,
        ((getCell g1 cell).dependents.count d : Int) ≤ (getCell g1 d).dirty_parents := by
      intro d hd
      rw [hdirty1 d, hdg1]
      have := hsplit0 d
      omega
    have hstk := procFold_stack (getCell g1 cell).dependents g1 [] hdepsB hge0
    have hdirtyF := procFold_dirty (getCell g1 cell).dependents g1 [] hdepsB
    have hframe := procFold_frame (getCell g1 cell).dependents g1 []
    have hnodupF := procFold_nodup (getCell g1 cell).dependents g1 [] hdepsB
      List.nodup_nil (by intro q h; exact absurd h (List.not_mem_nil q))
    have hcellEdge0 : cell ∉ (getCell g cell).dependents := by
      intro h
      exact hac cell ⟨[], h⟩
    have hstk' : ∀ q, q ∈ ((getCell g1 cell).dependents.foldl procStep (g1, [])).2 ↔
        (q ∈ (getCell g cell).dependents ∧ inDegFrom g done0 q
          = (getCell g cell).dependents.count q) := by
      intro q
      rw [hstk q, hdg1, hdirty1 q]
      constructor
      · rintro (h | ⟨h1, h2⟩)
        · exact absurd h (List.not_mem_nil q)
        · exact ⟨h1, Nat.cast_injective h2⟩
      · rintro ⟨h1, h2⟩
        exact Or.inr ⟨h1, by rw [h2]⟩
    have ps0 : PState g cell done0
        ((getCell g1 cell).dependents.foldl procStep (g1, [])).1
        ((getCell g1 cell).dependents.foldl procStep (g1, [])).2 [] := by
      refine ⟨?_, ?_, ?_, ?_, ?_, ?_, ?_, ?_, ?_, ?_, ?_⟩
      · exact fun q => (hframe.2.1 q).trans (hshape1 q)
      · exact hframe.2.2.1.trans hlen1
      · exact fun r => (hframe.2.2.2 r).trans (hrow1 r)
      · exact fun q => ((hframe.1 q).2.1).trans ((hsame1 q).2.1)
      · exact fun q => ((hframe.1 q).2.2.1).trans ((hsame1 q).2.2.1)
      · intro q
        rw [hdirtyF q, hdirty1 q, hdg1]
        have := hsplit0 q
        omega
      · exact hnodupF.1
      · intro q hq
        have hq' := (hstk' q).mp hq
        refine ⟨hclosed0 cell hcell0 q hq'.1, ?_⟩
        rintro rfl
        exact hcellEdge0 hq'.1
      · rintro q hq0 hqc -
        rw [hstk' q]
        have hsq := hsplit0 q
        constructor
        · rintro ⟨h1, h2⟩
          omega
        · intro h0
          have hp := hpos0 q hq0 hqc
          refine ⟨?_, by omega⟩
          rw [← List.count_pos_iff]
          omega
      · intro q hq
        exact absurd hq (List.not_mem_nil q)
      · intro l1 v l2 hteq u hu hedge
        exfalso
        have := congrArg List.length hteq
        simp [List.length_append] at this
        omega
    obtain ⟨traceF, psF, htf, hUe⟩ := processLoop_run hB hac hnd0 hmem0 hinB0 hclosed0
      sv _ _ _ _ ps0 hres
    have hndF : traceF.Nodup := by
      have := psF.ndts
      simpa using this
    have hmemT : ∀ d, d ∈ traceF ↔ (d ∈ done0 ∧ d ≠ cell) := by
      intro d
      constructor
      · intro h
        exact psF.subD d (by simpa using h)
      · rintro ⟨h1, h2⟩
        by_contra hnt
        have hdp : d ∈ pend cell done0 traceF := by
          rw [pend_mem]
          refine ⟨h1, ?_⟩
          rintro (h | h)
          · exact h2 h
          · exact hnt h
        rw [hUe] at hdp
        exact absurd hdp (List.not_mem_nil d)
    refine ⟨?_, psF.shape, psF.glen, psF.grow, psF.deps_eq, psF.fn_eq, ?_, ?_, ?_⟩
    · intro q
      rw [psF.dirty_eq q, hUe, inDegFrom_nil]
      rfl
    · rw [htf]
      exact List.nodup_reverse.mpr hndF
    · intro d
      rw [htf, List.mem_reverse, hmemT d, hmem0 d]
      constructor
      · rintro ⟨h1 | h1, h2⟩
        · exact absurd h1 h2
        · exact ⟨h1, h2⟩
      · rintro ⟨h1, h2⟩
        exact ⟨Or.inr h1, h2⟩
    · intro l1 v l2 htr u huR hedge
      have htF : traceF = l2.reverse ++ v :: l1.reverse := by
        have h1 : traceF = tr.reverse := by rw [htf, List.reverse_reverse]
        rw [h1, htr]
        simp
      have hu0 : u ∈ done0 := (hmem0 u).mpr huR
      rcases psF.topo l2.reverse v l1.reverse htF u hu0 hedge with h | h
      · exact Or.inl h
      · exact Or.inr (List.mem_reverse.mp h)

/-! ### Parsed formulas only reference in-bounds cells -/

theorem parse_cell_reference_bounds {s : List Char} {rows cols : Nat} {c : Cell}
    (h : parse_cell_reference s rows cols = some c) : c.row < rows ∧ c.col < cols := by
  unfold parse_cell_reference at h
  cases s with
  | nil => exact Option.noConfusion h
  | cons c0 rest =>
    dsimp only at h
    split at h
    · exact Option.noConfusion h
    · split at h
      · exact Option.noConfusion h
      · split at h
        · exact Option.noConfusion h
        · split at h
          · exact Option.noConfusion h
          · split at h
            · exact Option.noConfusion h
            · split at h
              · exact Option.noConfusion h
              · rename_i hbounds
                push_neg at hbounds
                rw [Option.some_inj] at h
                subst h
                exact ⟨hbounds.1, hbounds.2⟩

theorem rangeCells_bounds {r : RangeFunction} {c : Cell} (hc : c ∈ rangeCells r) :
    r.top_left.row ≤ c.row ∧ c.row ≤ r.bottom_right.row ∧
    r.top_left.col ≤ c.col ∧ c.col ≤ r.bottom_right.col := by
  unfold rangeCells at hc
  simp only [List.mem_flatMap, List.mem_map, List.mem_range] at hc
  obtain ⟨i, hi, j, hj, rfl⟩ := hc
  refine ⟨by simp, by simp; omega, by simp, by simp; omega⟩

theorem parse_range_function_spec {s : List Char} {ft : FunctionType} {rows cols : Nat}
    (h : (parse_range_function s ft rows cols).2 = true) :
    ∃ tl br : Cell, (parse_range_function s ft rows cols).1
        = Function.new_range_function ft ⟨tl, br⟩ ∧
      tl.row < rows ∧ tl.col < cols ∧ br.row < rows ∧ br.col < cols := by
  unfold parse_range_function at h ⊢
  dsimp only at h ⊢
  split at h
  · exact absurd h (by simp)
  · rename_i end_pos hend
    split at h
    · exact absurd h (by simp)
    · rename_i sep_pos hsep
      split at h
      · exact absurd h (by simp)
      · rename_i tl htl
        split at h
        · exact absurd h (by simp)
        · rename_i br hbr
          split at h
          · exact absurd h (by simp)
          · rename_i hlt
            have h1 := parse_cell_reference_bounds htl
            have h2 := parse_cell_reference_bounds hbr
            refine ⟨tl, br, ?_, h1.1, h1.2, h2.1, h2.2⟩
            rw [if_neg hlt]

theorem parseOperand_cell_bounds {s : List Char} {rows cols : Nat} {c : Cell}
    (h : (parseOperand s rows cols).1.data = OperandData.Cell c) :
    c.row < rows ∧ c.col < cols := by
  unfold parseOperand at h
  cases s with
  | nil => exact OperandData.noConfusion h
  | cons c0 rest =>
    dsimp only at h
    split at h
    · exact OperandData.noConfusion h
    · split at h
      · rename_i cell hcell
        rw [show (⟨OperandType.Cell, OperandData.Cell cell⟩ : Operand).data
          = OperandData.Cell cell from rfl] at h
        have := OperandData.Cell.inj h
        subst this
        exact parse_cell_reference_bounds hcell
      · exact OperandData.noConfusion h

theorem binary_op_refs (t : FunctionType) (b : BinaryOp) :
    refsList (Function.new_binary_op t b)
      = ((match b.first.data with
          | OperandData.Cell c => [c]
          | OperandData.Value _ => []) ++
         (match b.second.data with
          | OperandData.Cell c => [c]
          | OperandData.Value _ => [])) := rfl

/-- Every cell referenced by a successfully parsed formula is within the
grid bounds. -/
theorem parse_refs_bounds {s : List Char} {rows cols : Nat} {f : Function} {ok : Bool}
    (hp : parse_expression s rows cols = (f, ok)) (hok : ok = true) :
    ∀ c ∈ refsList f, c.row < rows ∧ c.col < cols := by
  subst hok
  have hrange : ∀ ft : FunctionType, parse_range_function s ft rows cols = (f, true) →
      ∀ c ∈ refsList f, c.row < rows ∧ c.col < cols := by
    intro ft hpr c hc
    have hok2 : (parse_range_function s ft rows cols).2 = true := by rw [hpr]
    obtain ⟨tl, br, heq, h1, h2, h3, h4⟩ := parse_range_function_spec hok2
    have hf : f = Function.new_range_function ft ⟨tl, br⟩ := by rw [← heq, hpr]
    subst hf
    have hc' : c ∈ rangeCells ⟨tl, br⟩ := hc
    have := rangeCells_bounds hc'
    dsimp only at this
    constructor
    · omega
    · omega
  unfold parse_expression at hp
  split at hp
  · exact absurd (congrArg Prod.snd hp) (by simp)
  split at hp
  · exact hrange _ hp
  split at hp
  · exact hrange _ hp
  split at hp
  · exact hrange _ hp
  split at hp
  · exact hrange _ hp
  split at hp
  · exact hrange _ hp
  split at hp
  · -- SLEEP
    dsimp only at hp
    split at hp
    · exact absurd (congrArg Prod.snd hp) (by simp)
    · split at hp
      · split at hp
        · rename_i v hv
          have hf : f = Function.new_sleep v := (Prod.mk.injEq _ _ _ _ ▸ hp).1.symm
          subst hf
          intro c hc
          exact absurd hc (List.not_mem_nil c)
        · exact absurd (congrArg Prod.snd hp) (by simp)
      · split at hp
        · rename_i cell hcell
          have hf : f = Function.new_sleep_cell cell := (Prod.mk.injEq _ _ _ _ ▸ hp).1.symm
          subst hf
          intro c hc
          rw [show refsList (Function.new_sleep_cell cell) = [cell] from rfl,
            List.mem_singleton] at hc
          subst hc
          exact parse_cell_reference_bounds hcell
        · exact absurd (congrArg Prod.snd hp) (by simp)
  · -- operator / fallback
    split at hp
    · rename_i i hi
      dsimp only at hp
      split at hp
      · exact absurd (congrArg Prod.snd hp) (by simp)
      · rename_i hp2
        have hp2' : (parse_binary_op (List.take i s) (List.drop (i + 1) s) rows cols).2
            = true := by
          rcases hb : (parse_binary_op (List.take i s) (List.drop (i + 1) s) rows cols).2
          · rw [hb] at hp2
            exact absurd rfl hp2
          · rfl
        have hbo : ∀ t : FunctionType,
            f = Function.new_binary_op t
              (parse_binary_op (List.take i s) (List.drop (i + 1) s) rows cols).1 →
            ∀ c ∈ refsList f, c.row < rows ∧ c.col < cols := by
          intro t hf c hc
          rw [hf, binary_op_refs] at hc
          rcases List.mem_append.mp hc with hx | hx
          · split at hx
            · rename_i c1 hc1
              rw [List.mem_singleton] at hx
              subst hx
              unfold parse_binary_op at hc1
              exact parseOperand_cell_bounds hc1
            · exact absurd hx (List.not_mem_nil c)
          · split at hx
            · rename_i c1 hc1
              rw [List.mem_singleton] at hx
              subst hx
              unfold parse_binary_op at hc1
              exact parseOperand_cell_bounds hc1
            · exact absurd hx (List.not_mem_nil c)
        split at hp
        · exact hbo _ (Prod.mk.injEq _ _ _ _ ▸ hp).1.symm
        · exact hbo _ (Prod.mk.injEq _ _ _ _ ▸ hp).1.symm
        · exact hbo _ (Prod.mk.injEq _ _ _ _ ▸ hp).1.symm
        · exact hbo _ (Prod.mk.injEq _ _ _ _ ▸ hp).1.symm
        · exact absurd (congrArg Prod.snd hp) (by simp)
    · split at hp
      · exact absurd (congrArg Prod.snd hp) (by simp)
      · split at hp
        · split at hp
          · rename_i v hv
            have hf : f = Function.new_constant v := (Prod.mk.injEq _ _ _ _ ▸ hp).1.symm
            subst hf
            intro c hc
            exact absurd hc (List.not_mem_nil c)
          · exact absurd (congrArg Prod.snd hp) (by simp)
        · split at hp
          · rename_i cell hcell
            have hf : f = Function.new_binary_op FunctionType.Plus
                ⟨⟨OperandType.Cell, OperandData.Cell cell⟩,
                 ⟨OperandType.Int, OperandData.Value 0⟩⟩ :=
              (Prod.mk.injEq _ _ _ _ ▸ hp).1.symm
            subst hf
            intro c hc
            rw [show refsList (Function.new_binary_op FunctionType.Plus
              ⟨⟨OperandType.Cell, OperandData.Cell cell⟩,
               ⟨OperandType.Int, OperandData.Value 0⟩⟩) = [cell] from rfl,
              List.mem_singleton] at hc
            subst hc
            exact parse_cell_reference_bounds hcell
          · exact absurd (congrArg Prod.snd hp) (by simp)

/-- A successfully parsed formula of constant type is a literal constant:
it references no cells. -/
theorem parse_constant_refs {s : List Char} {rows cols : Nat} {f : Function}
    (hp : parse_expression s rows cols = (f, true))
    (hc : f.type_ = FunctionType.Constant) : refsList f = [] := by
  have hrange : ∀ ft : FunctionType, ft ≠ FunctionType.Constant →
      parse_range_function s ft rows cols = (f, true) → False := by
    intro ft hft hpr
    have hok2 : (parse_range_function s ft rows cols).2 = true := by rw [hpr]
    obtain ⟨tl, br, heq, -, -, -, -⟩ := parse_range_function_spec hok2
    have hf : f = Function.new_range_function ft ⟨tl, br⟩ := by rw [← heq, hpr]
    rw [hf] at hc
    unfold Function.new_range_function at hc
    exact hft hc
  unfold parse_expression at hp
  split at hp
  · exact absurd (congrArg Prod.snd hp) (by simp)
  split at hp
  · exact absurd hp (fun h => hrange _ (by intro h'; exact FunctionType.noConfusion h') h)
  split at hp
  · exact absurd hp (fun h => hrange _ (by intro h'; exact FunctionType.noConfusion h') h)
  split at hp
  · exact absurd hp (fun h => hrange _ (by intro h'; exact FunctionType.noConfusion h') h)
  split at hp
  · exact absurd hp (fun h => hrange _ (by intro h'; exact FunctionType.noConfusion h') h)
  split at hp
  · exact absurd hp (fun h => hrange _ (by intro h'; exact FunctionType.noConfusion h') h)
  split at hp
  · dsimp only at hp
    split at hp
    · exact absurd (congrArg Prod.snd hp) (by simp)
    · split at hp
      · split at hp
        · rename_i v hv
          have hf : f = Function.new_sleep v := (Prod.mk.injEq _ _ _ _ ▸ hp).1.symm
          rw [hf] at hc
          exact FunctionType.noConfusion hc
        · exact absurd (congrArg Prod.snd hp) (by simp)
      · split at hp
        · rename_i cell hcell
          have hf : f = Function.new_sleep_cell cell := (Prod.mk.injEq _ _ _ _ ▸ hp).1.symm
          rw [hf] at hc
          exact FunctionType.noConfusion hc
        · exact absurd (congrArg Prod.snd hp) (by simp)
  · split at hp
    · rename_i i hi
      dsimp only at hp
      split at hp
      · exact absurd (congrArg Prod.snd hp) (by simp)
      · have hbo : ∀ t : FunctionType, t ≠ FunctionType.Constant →
            f = Function.new_binary_op t
              (parse_binary_op (List.take i s) (List.drop (i + 1) s) rows cols).1 →
            False := by
          intro t ht hf
          rw [hf] at hc
          exact ht hc
        split at hp
        · exact absurd ((Prod.mk.injEq _ _ _ _ ▸ hp).1.symm)
            (hbo _ (by intro h'; exact FunctionType.noConfusion h'))
        · exact absurd ((Prod.mk.injEq _ _ _ _ ▸ hp).1.symm)
            (hbo _ (by intro h'; exact FunctionType.noConfusion h'))
        · exact absurd ((Prod.mk.injEq _ _ _ _ ▸ hp).1.symm)
            (hbo _ (by intro h'; exact FunctionType.noConfusion h'))
        · exact absurd ((Prod.mk.injEq _ _ _ _ ▸ hp).1.symm)
            (hbo _ (by intro h'; exact FunctionType.noConfusion h'))
        · exact absurd (congrArg Prod.snd hp) (by simp)
    · split at hp
      · exact absurd (congrArg Prod.snd hp) (by simp)
      · split at hp
        · split at hp
          · rename_i v hv
            have hf : f = Function.new_constant v := (Prod.mk.injEq _ _ _ _ ▸ hp).1.symm
            subst hf
            rfl
          · exact absurd (congrArg Prod.snd hp) (by simp)
        · split at hp
          · rename_i cell hcell
            have hf : f = Function.new_binary_op FunctionType.Plus
                ⟨⟨OperandType.Cell, OperandData.Cell cell⟩,
                 ⟨OperandType.Int, OperandData.Value 0⟩⟩ :=
              (Prod.mk.injEq _ _ _ _ ▸ hp).1.symm
            rw [hf] at hc
            exact FunctionType.noConfusion hc
          · exact absurd (congrArg Prod.snd hp) (by simp)

/-! ### The global well-formedness invariant of reachable backends -/

theorem count_filter_ne_self (l : List Cell) (c : Cell) : (l.filter (· ≠ c)).count c = 0 := by
  rw [List.count_eq_zero]
  intro h
  have := List.of_mem_filter h
  simp at this

theorem count_filter_ne (l : List Cell) (c q : Cell) (h : q ≠ c) :
    (l.filter (· ≠ c)).count q = l.count q := by
  induction l with
  | nil => rfl
  | cons a l ih =>
    by_cases hac : a = c
    · subst hac
      rw [@List.filter_cons_of_neg Cell (fun x => decide (x ≠ a)) a l (by simp)]
      rw [ih, List.count_cons]
      have h2 : ¬ (q == a) = true := by
        simp
        intro hh
        exact h hh
      simp [h2]
      exact fun hh => h hh.symm
    · rw [@List.filter_cons_of_pos Cell (fun x => decide (x ≠ c)) a l (by simp [hac])]
      rw [List.count_cons, List.count_cons, ih]

theorem count_replicate_self (n : Nat) (c : Cell) : (List.replicate n c).count c = n := by
  induction n with
  | zero => rfl
  | succ n ih => simp [List.replicate_succ, List.count_cons, ih]

theorem count_replicate_ne (n : Nat) (c q : Cell) (h : q ≠ c) :
    (List.replicate n c).count q = 0 := by
  rw [List.count_eq_zero]
  intro hm
  exact h (List.eq_of_mem_replicate hm)

/-- Dependents lists and formulas mirror each other (with multiplicity):
the dependency-graph consistency every reachable state maintains. -/
def Consistent (g : Grid) : Prop :=
  ∀ p q : Cell, (getCell g p).dependents.count q
    = (refsList (getCell g q).function).count p

/-- The global invariant of reachable backends: rectangular grid of the
declared dimensions, in-bounds dependents, cleared markers, consistent
graph, and acyclicity. -/
def Inv (b : Backend) : Prop :=
  b.grid.length = b.rows ∧
  (∀ r, r < b.rows → (b.grid.getD r []).length = b.cols) ∧
  BoundsG b.grid ∧
  (∀ q, (getCell b.grid q).dirty_parents = 0) ∧
  Consistent b.grid ∧
  Acyclic b.grid

theorem boundsG_transfer {g g' : Grid}
    (hd : ∀ q, (getCell g' q).dependents = (getCell g q).dependents)
    (hs : ∀ q, inB g' q ↔ inB g q) (h : BoundsG g) : BoundsG g' := by
  intro q hq d hdm
  rw [hd q] at hdm
  exact (hs d).mpr (h q ((hs q).mp hq) d hdm)

theorem acyclic_transfer {g g' : Grid}
    (hd : ∀ q, (getCell g' q).dependents = (getCell g q).dependents)
    (h : Acyclic g) : Acyclic g' :=
  acyclic_mono (fun u v he => by unfold depEdge at *; rw [← hd u]; exact he) h

theorem consistent_transfer {g g' : Grid}
    (hd : ∀ q, (getCell g' q).dependents = (getCell g q).dependents)
    (hf : ∀ q, (getCell g' q).function = (getCell g q).function)
    (h : Consistent g) : Consistent g' := by
  intro p q
  rw [hd p, hf q]
  exact h p q

/-- A permutation-level transfer (for the rolled-back state). -/
theorem boundsG_perm {g g' : Grid}
    (hd : ∀ q, (getCell g' q).dependents.Perm (getCell g q).dependents)
    (hs : ∀ q, inB g' q ↔ inB g q) (h : BoundsG g) : BoundsG g' := by
  intro q hq d hdm
  exact (hs d).mpr (h q ((hs q).mp hq) d ((hd q).mem_iff.mp hdm))

theorem acyclic_perm {g g' : Grid}
    (hd : ∀ q, (getCell g' q).dependents.Perm (getCell g q).dependents)
    (h : Acyclic g) : Acyclic g' :=
  acyclic_mono (fun u v he => by
    unfold depEdge at *
    exact (hd u).mem_iff.mp he) h

theorem consistent_perm {g g' : Grid}
    (hd : ∀ q, (getCell g' q).dependents.Perm (getCell g q).dependents)
    (hf : ∀ q, (getCell g' q).function = (getCell g q).function)
    (h : Consistent g) : Consistent g' := by
  intro p q
  rw [(hd p).count_eq, hf q]
  exact h p q

/-- `BoundsG` survives a graph update targeting a real cell. -/
theorem boundsG_update_graph {g1 : Grid} {cell : Cell} (old : Function)
    (hB : BoundsG g1) (hc : inB g1 cell) : BoundsG (update_graph g1 cell old) := by
  intro q hq d hd
  rw [inB_update_graph] at hq ⊢
  rcases update_graph_deps_subset _ _ _ _ _ hd with h | h
  · exact hB q hq d h
  · exact h ▸ hc

/-- Consistency of the tentative state: removing the old formula's edges
and installing the new ones keeps the mirror property. -/
theorem consistent_update {g g1 : Grid} {cell : Cell} {F : Function}
    (hcons : Consistent g) (hcell : inB g cell)
    (hFin : ∀ c ∈ refsList F, inB g c)
    (hshape1 : ∀ q, inB g1 q ↔ inB g q)
    (hdeps1 : ∀ q, (getCell g1 q).dependents = (getCell g q).dependents)
    (hfn1 : ∀ q, (getCell g1 q).function
      = if q = cell ∧ inB g cell then F else (getCell g q).function) :
    Consistent (update_graph g1 cell ((getCell g cell).function)) := by
  intro p q
  have hfn1cell : (getCell g1 cell).function = F := by
    rw [hfn1 cell, if_pos ⟨rfl, hcell⟩]
  have hfn2 : ∀ x, (getCell (update_graph g1 cell ((getCell g cell).function)) x).function
      = (getCell g1 x).function := fun x => (update_graph_fields _ _ _ x).2.2.1
  by_cases hpB : inB g p
  · have hdeps2 := update_graph_deps g1 cell ((getCell g cell).function) p
      ((hshape1 p).mpr hpB)
    rw [hdeps2, hdeps1 p, hfn1cell, List.count_append]
    by_cases hq : q = cell
    · subst hq
      have h1 : (if p ∈ refsList (getCell g q).function then
            (getCell g p).dependents.filter (· ≠ q)
          else (getCell g p).dependents).count q = 0 := by
        split
        · exact count_filter_ne_self _ _
        · rename_i hnot
          rw [hcons p q, List.count_eq_zero.mpr hnot]
      rw [h1, count_replicate_self, hfn2, hfn1 q, if_pos ⟨rfl, hcell⟩]
      omega
    · have h1 : (if p ∈ refsList (getCell g cell).function then
            (getCell g p).dependents.filter (· ≠ cell)
          else (getCell g p).dependents).count q = (getCell g p).dependents.count q := by
        split
        · exact count_filter_ne _ _ _ hq
        · rfl
      rw [h1, count_replicate_ne _ _ _ hq, hcons p q, hfn2, hfn1 q,
        if_neg (fun hh => hq hh.1)]
      omega
  · have hp1 : ¬ inB g1 p := fun h => hpB ((hshape1 p).mp h)
    have hdeps2 : (getCell (update_graph g1 cell ((getCell g cell).function)) p).dependents
        = (getCell g1 p).dependents := by
      rw [update_graph_pointwise, if_neg hp1]
    rw [hdeps2, hdeps1 p, getCell_oob hpB, hfn2, hfn1 q]
    by_cases hq : q = cell ∧ inB g cell
    · rw [if_pos hq]
      have hl : (default : CellData).dependents.count q = 0 := rfl
      rw [hl]
      symm
      rw [List.count_eq_zero]
      intro hm
      exact hpB (hFin p hm)
    · rw [if_neg hq]
      have := hcons p q
      rw [getCell_oob hpB] at this
      exact this

theorem updCell_vef_fields (g : Grid) (c : Cell) (a : Int) (e : CellError) (F : Function)
    (q : Cell) :
    (getCell (updCell g c (fun cd => { cd with value := a, error := e, function := F }))
        q).dependents = (getCell g q).dependents ∧
    (getCell (updCell g c (fun cd => { cd with value := a, error := e, function := F }))
        q).dirty_parents = (getCell g q).dirty_parents ∧
    (getCell (updCell g c (fun cd => { cd with value := a, error := e, function := F }))
        q).function = (if q = c ∧ inB g c then F else (getCell g q).function) := by
  rw [getCell_updCell]
  by_cases h : q = c ∧ inB g c
  · rw [if_pos h, if_pos h, h.1]
    exact ⟨rfl, rfl, rfl⟩
  · rw [if_neg h, if_neg h]
    exact ⟨rfl, rfl, rfl⟩

/-! ### Edits addressing a nonexistent cell leave the grid unchanged -/

theorem deps_oob {g : Grid} {cell : Cell} (h : ¬ inB g cell) :
    (getCell g cell).dependents = [] := by
  rw [getCell_oob h]
  rfl

theorem mark_oob (g : Grid) (cell : Cell) (h : ¬ inB g cell) :
    set_dirty_parents g cell = some g := by
  unfold set_dirty_parents
  rw [setDirty_oob h]
  have h2 : ∀ n, markLoop (n + 2) g [cell] = some g := by
    intro n
    show markLoop (n + 1 + 1) g [cell] = some g
    rw [show markLoop (n + 1 + 1) g [cell]
      = markLoop (n + 1) ((getCell g cell).dependents.foldl degStep (g, [])).1
          ((getCell g cell).dependents.foldl degStep (g, [])).2 from rfl]
    rw [deps_oob h]
    rfl
  exact h2 (2 * cellCount g)

theorem ccd_oob (g : Grid) (cell : Cell) (h : ¬ inB g cell) :
    check_circular_dependency g cell = some (false, g) := by
  have hcyc : ∀ n, cycleLoop cell (n + 2) g [cell] = some (false, g) := by
    intro n
    show cycleLoop cell (n + 1 + 1) g [cell] = some (false, g)
    rw [show cycleLoop cell (n + 1 + 1) g [cell]
      = (if (getCell g cell).dependents.contains cell then some (true, g)
        else cycleLoop cell (n + 1)
          ((getCell g cell).dependents.foldl (flagStep (fun x => decide (x = 0)) 1)
            (g, [])).1
          ((getCell g cell).dependents.foldl (flagStep (fun x => decide (x = 0)) 1)
            (g, [])).2) from rfl]
    rw [deps_oob h]
    rfl
  have hrst : ∀ n, resetLoop (n + 2) g [cell] = some g := by
    intro n
    show resetLoop (n + 1 + 1) g [cell] = some g
    rw [show resetLoop (n + 1 + 1) g [cell]
      = resetLoop (n + 1)
          ((getCell g cell).dependents.foldl (flagStep (fun x => decide (0 < x)) 0)
            (g, [])).1
          ((getCell g cell).dependents.foldl (flagStep (fun x => decide (0 < x)) 0)
            (g, [])).2 from rfl]
    rw [deps_oob h]
    rfl
  unfold check_circular_dependency
  rw [setDirty_oob h]
  rw [show dfsFuel g = 2 * cellCount g + 2 from rfl, hcyc (2 * cellCount g)]
  dsimp only
  unfold reset_found
  rw [setDirty_oob h]
  rw [show dfsFuel g = 2 * cellCount g + 2 from rfl, hrst (2 * cellCount g)]

theorem upd_oob (sv : List Int → Int → Int → Int) (g : Grid) (cell : Cell)
    (h : ¬ inB g cell) : update_dependents sv g cell = some (g, []) := by
  unfold update_dependents
  rw [mark_oob g cell h]
  dsimp only
  rw [deps_oob h]
  have hloop : ∀ n, processLoop sv (n + 1) g [] [] = some (g, []) := fun n => rfl
  exact hloop (0 + 2 * sumPosDirty g)

theorem update_graph_oob (g : Grid) (cell : Cell) (h : ¬ inB g cell) :
    update_graph g cell ((getCell g cell).function) = g := by
  have h0 : refsList (getCell g cell).function = [] := by
    rw [getCell_oob h]
    rfl
  unfold update_graph
  dsimp only
  rw [h0]
  show (refsList (getCell g cell).function).foldl (addDepStep cell) g = g
  rw [h0]
  rfl

/-- A `set_cell_value` call on an out-of-bounds cell never touches the
grid (and keeps the dimensions). -/
theorem scv_oob (sv : List Int → Int → Int → Int) (b : Backend) (cell : Cell)
    (s : List Char) (h : ¬ inB b.grid cell) {r : Except ExpressionError Unit} {b' : Backend}
    (hres : set_cell_value sv b cell s = some (r, b')) :
    b'.grid = b.grid ∧ b'.rows = b.rows ∧ b'.cols = b.cols := by
  unfold set_cell_value at hres
  dsimp only at hres
  split at hres
  · simp only [Option.some.injEq, Prod.mk.injEq] at hres
    rw [← hres.2]
    exact ⟨rfl, rfl, rfl⟩
  · split at hres
    · rw [updCell_oob h, update_graph_oob b.grid cell h, upd_oob sv b.grid cell h] at hres
      dsimp only at hres
      simp only [Option.some.injEq, Prod.mk.injEq] at hres
      rw [← hres.2]
      exact ⟨rfl, rfl, rfl⟩
    · split at hres
      · simp only [Option.some.injEq, Prod.mk.injEq] at hres
        rw [← hres.2]
        exact ⟨rfl, rfl, rfl⟩
      · rw [updCell_oob h, update_graph_oob b.grid cell h, ccd_oob b.grid cell h] at hres
        dsimp only at hres
        rw [updCell_oob h, upd_oob sv b.grid cell h] at hres
        dsimp only at hres
        simp only [Option.some.injEq, Prod.mk.injEq] at hres
        rw [← hres.2]
        exact ⟨rfl, rfl, rfl⟩

/-- When the formula stored at `cell` has no references, `update_graph`
adds no edges: every edge of the result is an old edge. -/
theorem depEdge_update_noadd (g1 : Grid) (cell : Cell) (old : Function)
    (hnoadd : refsList (getCell g1 cell).function = []) :
    ∀ u v, depEdge (update_graph g1 cell old) u v → depEdge g1 u v := by
  intro u v hv
  unfold depEdge at *
  rw [update_graph_pointwise] at hv
  by_cases hin : inB g1 u
  · rw [if_pos hin, hnoadd] at hv
    simp only [List.count_nil, List.replicate_zero, List.append_nil] at hv
    split at hv
    · exact List.mem_of_mem_filter hv
    · exact hv
  · rw [if_neg hin] at hv
    exact hv

/-- Storing a value/error pair at one cell preserves all graph-level
invariant components. -/
theorem invish_updVE {g : Grid} (c : Cell) (a : Int) (e : CellError)
    (hB : BoundsG g) (hz : ∀ q, (getCell g q).dirty_parents = 0)
    (hcons : Consistent g) (hac : Acyclic g) :
    BoundsG (updCell g c (fun cd => { cd with value := a, error := e })) ∧
    (∀ q, (getCell (updCell g c (fun cd => { cd with value := a, error := e }))
      q).dirty_parents = 0) ∧
    Consistent (updCell g c (fun cd => { cd with value := a, error := e })) ∧
    Acyclic (updCell g c (fun cd => { cd with value := a, error := e })) :=
  ⟨boundsG_transfer (fun q => (updCell_ve_fields g c a e q).1)
      (fun q => inB_updCell _ _ _ _) hB,
   fun q => by rw [(updCell_ve_fields g c a e q).2.2]; exact hz q,
   consistent_transfer (fun q => (updCell_ve_fields g c a e q).1)
     (fun q => (updCell_ve_fields g c a e q).2.1) hcons,
   acyclic_transfer (fun q => (updCell_ve_fields g c a e q).1) hac⟩

/-- The core preservation theorem: a `set_cell_value` call keeps the
global invariant and the dimensions. -/
theorem scv_preserves (sv : List Int → Int → Int → Int) {b : Backend} {cell : Cell}
    {s : List Char} {r : Except ExpressionError Unit} {b' : Backend}
    (hInv : Inv b) (hres : set_cell_value sv b cell s = some (r, b')) :
    Inv b' ∧ b'.rows = b.rows ∧ b'.cols = b.cols := by
  obtain ⟨hlen, hrow, hB, hz, hcons, hac⟩ := hInv
  by_cases hcB : inB b.grid cell
  case neg =>
    obtain ⟨hg, hr, hc⟩ := scv_oob sv b cell s hcB hres
    refine ⟨⟨?_, ?_, ?_, ?_, ?_, ?_⟩, hr, hc⟩
    · rw [hg, hr]
      exact hlen
    · intro rr hrr
      rw [hr] at hrr
      rw [hg, hc]
      exact hrow rr hrr
    · rw [hg]
      exact hB
    · rw [hg]
      exact hz
    · rw [hg]
      exact hcons
    · rw [hg]
      exact hac
  case pos =>
  unfold set_cell_value at hres
  dsimp only at hres
  split at hres
  · simp only [Option.some.injEq, Prod.mk.injEq] at hres
    rw [← hres.2]
    exact ⟨⟨hlen, hrow, hB, hz, hcons, hac⟩, rfl, rfl⟩
  · rename_i hpOK
    have hptrue : (parse_expression s b.rows b.cols).2 = true := by
      rcases hb2 : (parse_expression s b.rows b.cols).2
      · exact absurd hb2 hpOK
      · rfl
    have hpeq : parse_expression s b.rows b.cols
        = ((parse_expression s b.rows b.cols).1, true) := by
      rw [← hptrue]
    have hFin : ∀ c ∈ refsList (parse_expression s b.rows b.cols).1, inB b.grid c := by
      intro c hc
      have hbnd := parse_refs_bounds hpeq rfl c hc
      constructor
      · rw [hlen]
        exact hbnd.1
      · rw [hrow c.row hbnd.1]
        exact hbnd.2
    split at hres
    · -- constant fast path
      rename_i hconst
      have hrefs0 : refsList (parse_expression s b.rows b.cols).1 = [] :=
        parse_constant_refs hpeq hconst
      have hg1 := fun q => updCell_vef_fields b.grid cell
        (evaluate_expression sv b.grid (parse_expression s b.rows b.cols).1).1
        (evaluate_expression sv b.grid (parse_expression s b.rows b.cols).1).2
        (parse_expression s b.rows b.cols).1 q
      have hshape1 : ∀ q, inB (updCell b.grid cell (fun cd =>
          { cd with
            value := (evaluate_expression sv b.grid (parse_expression s b.rows b.cols).1).1,
            error := (evaluate_expression sv b.grid (parse_expression s b.rows b.cols).1).2,
            function := (parse_expression s b.rows b.cols).1 })) q ↔ inB b.grid q :=
        fun q => inB_updCell _ _ _ _
      have hshape2 : ∀ q, inB (update_graph (updCell b.grid cell (fun cd =>
          { cd with
            value := (evaluate_expression sv b.grid (parse_expression s b.rows b.cols).1).1,
            error := (evaluate_expression sv b.grid (parse_expression s b.rows b.cols).1).2,
            function := (parse_expression s b.rows b.cols).1 })) cell
          ((getCell b.grid cell).function)) q ↔ inB b.grid q := by
        intro q
        rw [inB_update_graph]
        exact hshape1 q
      have hcons2 := consistent_update hcons hcB
        (by rw [hrefs0]; intro c hc; exact absurd hc (List.not_mem_nil c))
        hshape1 (fun q => (hg1 q).1) (fun q => (hg1 q).2.2)
      have hB2 := boundsG_update_graph ((getCell b.grid cell).function)
        (boundsG_transfer (fun q => (hg1 q).1) hshape1 hB) ((hshape1 cell).mpr hcB)
      have hz2 : ∀ q, (getCell (update_graph (updCell b.grid cell (fun cd =>
          { cd with
            value := (evaluate_expression sv b.grid (parse_expression s b.rows b.cols).1).1,
            error := (evaluate_expression sv b.grid (parse_expression s b.rows b.cols).1).2,
            function := (parse_expression s b.rows b.cols).1 })) cell
          ((getCell b.grid cell).function)) q).dirty_parents = 0 := by
        intro q
        rw [(update_graph_fields _ _ _ q).2.2.2, (hg1 q).2.1, hz q]
      have hnoadd : refsList (getCell (updCell b.grid cell (fun cd =>
          { cd with
            value := (evaluate_expression sv b.grid (parse_expression s b.rows b.cols).1).1,
            error := (evaluate_expression sv b.grid (parse_expression s b.rows b.cols).1).2,
            function := (parse_expression s b.rows b.cols).1 })) cell).function = [] := by
        rw [(hg1 cell).2.2, if_pos ⟨rfl, hcB⟩]
        exact hrefs0
      have hac2 : Acyclic (update_graph (updCell b.grid cell (fun cd =>
          { cd with
            value := (evaluate_expression sv b.grid (parse_expression s b.rows b.cols).1).1,
            error := (evaluate_expression sv b.grid (parse_expression s b.rows b.cols).1).2,
            function := (parse_expression s b.rows b.cols).1 })) cell
          ((getCell b.grid cell).function)) := by
        refine acyclic_mono ?_ hac
        intro u v he
        have h1 := depEdge_update_noadd _ cell ((getCell b.grid cell).function) hnoadd u v he
        unfold depEdge at h1 ⊢
        rw [(hg1 u).1] at h1
        exact h1
      split at hres
      · exact absurd hres (by simp)
      · rename_i g5 tr heq
        obtain ⟨hd5, hs5, hl5, hr5, hdep5, hfn5, -, -, -⟩ := update_dependents_spec hB2 hac2
          hz2 ((hshape2 cell).mpr hcB) sv heq
        simp only [Option.some.injEq, Prod.mk.injEq] at hres
        rw [← hres.2]
        refine ⟨⟨?_, ?_, ?_, hd5, ?_, ?_⟩, rfl, rfl⟩
        · show g5.length = b.rows
          rw [hl5, length_update_graph, length_updCell, hlen]
        · intro rr hrr
          show (g5.getD rr []).length = b.cols
          rw [hr5, rowLen_update_graph, rowLen_updCell, hrow rr hrr]
        · exact boundsG_transfer hdep5 hs5 hB2
        · exact consistent_transfer hdep5 hfn5 hcons2
        · exact acyclic_transfer hdep5 hac2
    · -- non-constant path
      rename_i hnconst
      split at hres
      · -- immediate self-reference: untouched
        simp only [Option.some.injEq, Prod.mk.injEq] at hres
        rw [← hres.2]
        exact ⟨⟨hlen, hrow, hB, hz, hcons, hac⟩, rfl, rfl⟩
      · rename_i hnsr
        obtain ⟨hBm, hdm, hcm⟩ := mid_state_props b.grid cell
          (parse_expression s b.rows b.cols).1 hB hcB
        have hzm : ∀ q, (getCell (update_graph (updCell b.grid cell (fun cd =>
            { cd with function := (parse_expression s b.rows b.cols).1 })) cell
            ((getCell b.grid cell).function)) q).dirty_parents = 0 := by
          intro q
          rw [hdm q, hz q]
        have hshape1 : ∀ q, inB (updCell b.grid cell (fun cd =>
            { cd with function := (parse_expression s b.rows b.cols).1 })) q
            ↔ inB b.grid q := fun q => inB_updCell _ _ _ _
        have hshape2 : ∀ q, inB (update_graph (updCell b.grid cell (fun cd =>
            { cd with function := (parse_expression s b.rows b.cols).1 })) cell
            ((getCell b.grid cell).function)) q ↔ inB b.grid q := by
          intro q
          rw [inB_update_graph]
          exact hshape1 q
        have hcons2 := consistent_update hcons hcB hFin hshape1
          (fun q => (updCell_fn_fields b.grid cell
            (parse_expression s b.rows b.cols).1 q).2.2.1)
          (fun q => updCell_fn_function b.grid cell
            (parse_expression s b.rows b.cols).1 q)
        split at hres
        · exact absurd hres (by simp)
        · -- cycle found: rollback
          rename_i g3 heq
          have hg3 : g3 = update_graph (updCell b.grid cell (fun cd =>
              { cd with function := (parse_expression s b.rows b.cols).1 })) cell
              ((getCell b.grid cell).function) :=
            check_circular_restore hBm hzm hcm heq
          simp only [Option.some.injEq, Prod.mk.injEq] at hres
          rw [← hres.2]
          have hrb := fun q => rollback_pointwise b.grid cell
            (parse_expression s b.rows b.cols).1 g3 _
            (fun q' => hcons q' cell) hcB hg3 rfl q
          have hshape5 : ∀ q, inB (update_graph (updCell g3 cell (fun cd =>
              { cd with function := (getCell b.grid cell).function })) cell
              ((parse_expression s b.rows b.cols).1)) q ↔ inB b.grid q := by
            intro q
            rw [inB_update_graph, inB_updCell, hg3]
            exact hshape2 q
          refine ⟨⟨?_, ?_, ?_, ?_, ?_, ?_⟩, rfl, rfl⟩
          · show (update_graph (updCell g3 cell (fun cd =>
              { cd with function := (getCell b.grid cell).function })) cell
              ((parse_expression s b.rows b.cols).1)).length = b.rows
            rw [length_update_graph, length_updCell, hg3, length_update_graph,
              length_updCell, hlen]
          · intro rr hrr
            show ((update_graph (updCell g3 cell (fun cd =>
              { cd with function := (getCell b.grid cell).function })) cell
              ((parse_expression s b.rows b.cols).1)).getD rr []).length = b.cols
            rw [rowLen_update_graph, rowLen_updCell, hg3, rowLen_update_graph,
              rowLen_updCell, hrow rr hrr]
          · exact boundsG_perm (fun q => (hrb q).2.2.2.2) hshape5 hB
          · intro q
            rw [(hrb q).2.2.2.1, hz q]
          · exact consistent_perm (fun q => (hrb q).2.2.2.2)
              (fun q => (hrb q).2.2.1) hcons
          · exact acyclic_perm (fun q => (hrb q).2.2.2.2) hac
        · -- no cycle: evaluate and propagate
          rename_i g3 heq
          have hg3 : g3 = update_graph (updCell b.grid cell (fun cd =>
              { cd with function := (parse_expression s b.rows b.cols).1 })) cell
              ((getCell b.grid cell).function) :=
            check_circular_restore hBm hzm hcm heq
          have hnc := check_circular_sound hBm hzm hcm heq
          have hac2 : Acyclic (update_graph (updCell b.grid cell (fun cd =>
              { cd with function := (parse_expression s b.rows b.cols).1 })) cell
              ((getCell b.grid cell).function)) := by
            refine acyclic_of_no_cycle_at (depEdge_update_fn_sub b.grid cell
              (parse_expression s b.rows b.cols).1 ((getCell b.grid cell).function))
              hac ?_
            intro l hw
            exact hnc l (hw.congr (fun q => rfl))
          subst hg3
          obtain ⟨hB4, hz4, hcons4, hac4⟩ := invish_updVE cell _ _ hBm hzm hcons2 hac2
          split at hres
          · exact absurd hres (by simp)
          · rename_i g5 tr heq2
            obtain ⟨hd5, hs5, hl5, hr5, hdep5, hfn5, -, -, -⟩ := update_dependents_spec hB4
              hac4 hz4 ((inB_updCell _ _ _ _).mpr ((hshape2 cell).mpr hcB)) sv heq2
            simp only [Option.some.injEq, Prod.mk.injEq] at hres
            rw [← hres.2]
            refine ⟨⟨?_, ?_, ?_, hd5, ?_, ?_⟩, rfl, rfl⟩
            · show g5.length = b.rows
              rw [hl5, length_updCell, length_update_graph, length_updCell, hlen]
            · intro rr hrr
              show (g5.getD rr []).length = b.cols
              rw [hr5, rowLen_updCell, rowLen_update_graph, rowLen_updCell, hrow rr hrr]
            · exact boundsG_transfer hdep5 hs5 hB4
            · exact consistent_transfer hdep5 hfn5 hcons4
            · exact acyclic_transfer hdep5 hac4

theorem inv_new (rows cols : Nat) : Inv (Backend.new rows cols) := by
  refine ⟨by simp [Backend.new], ?_, boundsG_new rows cols, zeroDirty_new rows cols, ?_, ?_⟩
  · intro rr hrr
    show ((Backend.new rows cols).grid.getD rr []).length = cols
    unfold Backend.new
    dsimp only
    rw [replicate_getD rows rr _ _ hrr]
    simp
  · intro p q
    rw [getCell_new, getCell_new]
    rfl
  · rintro c ⟨l, hw⟩
    have hedge : depEdge (Backend.new rows cols).grid c (match l with
        | [] => c
        | x :: _ => x) := by
      cases l with
      | nil => exact hw
      | cons x l => exact hw.1
    unfold depEdge at hedge
    rw [getCell_new] at hedge
    exact absurd hedge (List.not_mem_nil _)

/-- One call of the mutation API as the callers use it: the backend keeps
its updated state whatever `Result` comes back. -/
def applyEdit (sv : List Int → Int → Int → Int) (b : Backend) (e : Cell × List Char) :
    Backend :=
  match set_cell_value sv b e.1 e.2 with
  | none => b
  | some p => p.2

theorem applyEdit_preserves (sv : List Int → Int → Int → Int) {b : Backend}
    (h : Inv b) (e : Cell × List Char) : Inv (applyEdit sv b e) := by
  unfold applyEdit
  cases hres : set_cell_value sv b e.1 e.2 with
  | none => exact h
  | some p => exact (scv_preserves sv h (by rw [hres])).1

theorem fold_inv (sv : List Int → Int → Int → Int) (rows cols : Nat)
    (edits : List (Cell × List Char)) :
    Inv (edits.foldl (applyEdit sv) (Backend.new rows cols)) :=
  foldl_preserve Inv (inv_new rows cols) (fun b e hb _ => applyEdit_preserves sv hb e)

/-- C2: starting from `Backend::new`, after any sequence of
`set_cell_value` calls (keeping the backend each call returns), the
directed graph formed by the `dependents` lists is acyclic: no reachable
state contains a `dependents`-edge cycle. -/
theorem C2_reachable_acyclic (sv : List Int → Int → Int → Int) (rows cols : Nat)
    (edits : List (Cell × List Char)) :
    Acyclic ((edits.foldl (applyEdit sv) (Backend.new rows cols)).grid) :=
  (fold_inv sv rows cols edits).2.2.2.2.2

/-- C10: after any sequence of `set_cell_value` calls from a fresh
backend — each call returning `Ok`, `CouldNotParse` or
`CircularDependency` — every cell's `dirty_parents` scratch counter is
back to `0`, so each mutation starts from an all-zero marker state. -/
theorem C10_markers_reset (sv : List Int → Int → Int → Int) (rows cols : Nat)
    (edits : List (Cell × List Char)) :
    ∀ q, (getCell ((edits.foldl (applyEdit sv) (Backend.new rows cols)).grid)
      q).dirty_parents = 0 :=
  (fold_inv sv rows cols edits).2.2.2.1

/-- C3: on a well-formed acyclic grid, a successful propagation pass
(`update_dependents`, the pass `set_cell_value` runs after an edit of
`cell`) evaluates exactly the cells strictly reachable from `cell` along
`dependents` edges, each exactly once, and only after every one of its
predecessors within that affected subgraph (the edited cell included)
has already been evaluated. -/
theorem C3_topological_propagation (sv : List Int → Int → Int → Int) (g : Grid)
    (cell : Cell) (g' : Grid) (tr : List Cell)
    (hB : BoundsG g) (hz : ∀ q, (getCell g q).dirty_parents = 0) (hac : Acyclic g)
    (hcell : inB g cell)
    (hres : update_dependents sv g cell = some (g', tr)) :
    tr.Nodup ∧
    (∀ d, d ∈ tr ↔ (ReachP g cell d ∧ d ≠ cell)) ∧
    (∀ l1 v l2, tr = l1 ++ v :: l2 → ∀ u, (u = cell ∨ ReachP g cell u) →
      v ∈ (getCell g u).dependents → u = cell ∨ u ∈ l1) := by
  obtain ⟨-, -, -, -, -, -, h1, h2, h3⟩ := update_dependents_spec hB hac hz hcell sv hres
  exact ⟨h1, h2, h3⟩

/-- The diamond `A1 = 5`, `B1 = A1 + 0`, `A2 = A1 + 0`, `B2 = A2 + B1`,
with the dependency edges already installed and `A1` freshly set to 5. -/
def c3Grid : Grid :=
  [[⟨5, [⟨1, 0⟩, ⟨0, 1⟩], Function.new_constant 5, CellError.NoError, 0⟩,
    ⟨1, [⟨1, 1⟩], Function.new_binary_op FunctionType.Plus
      ⟨⟨OperandType.Cell, OperandData.Cell ⟨0, 0⟩⟩, ⟨OperandType.Int, OperandData.Value 0⟩⟩,
      CellError.NoError, 0⟩],
   [⟨1, [⟨1, 1⟩], Function.new_binary_op FunctionType.Plus
      ⟨⟨OperandType.Cell, OperandData.Cell ⟨0, 0⟩⟩, ⟨OperandType.Int, OperandData.Value 0⟩⟩,
      CellError.NoError, 0⟩,
    ⟨2, [], Function.new_binary_op FunctionType.Plus
      ⟨⟨OperandType.Cell, OperandData.Cell ⟨1, 0⟩⟩,
       ⟨OperandType.Cell, OperandData.Cell ⟨0, 1⟩⟩⟩,
      CellError.NoError, 0⟩]]

/-- The grid after propagating the diamond edit. -/
def c3After : Grid := ((update_dependents sv0 c3Grid ⟨0, 0⟩).map Prod.fst).getD []

/-- Witness for C3 at the diamond: the trace is `[B1, A2, B2]` — each
affected cell exactly once, predecessors first — and `B2` ends at
`5 + 5 = 10`. -/
theorem C3_topological_propagation_witness :
    ([(⟨0, 1⟩ : Cell), ⟨1, 0⟩, ⟨1, 1⟩].Nodup ∧
      ((⟨1, 1⟩ : Cell) ∈ [(⟨0, 1⟩ : Cell), ⟨1, 0⟩, ⟨1, 1⟩] ↔
        (ReachP c3Grid ⟨0, 0⟩ ⟨1, 1⟩ ∧ (⟨1, 1⟩ : Cell) ≠ ⟨0, 0⟩))) ∧
    (getCell c3After ⟨1, 1⟩).value = 10 :=
  have h := C3_topological_propagation sv0 c3Grid ⟨0, 0⟩ c3After
    [⟨0, 1⟩, ⟨1, 0⟩, ⟨1, 1⟩]
    ((boundsG_iff c3Grid).mpr (by decide))
    ((zeroDirty_iff c3Grid).mpr (by decide))
    (acyclic_of_rank c3Grid (fun c => c.row + c.col) (by decide))
    (by decide)
    (by decide)
  ⟨⟨h.1, h.2.1 ⟨1, 1⟩⟩, by decide⟩

/-! ### Cell enumeration and counting (fuel sufficiency for C5) -/

/-- All coordinates of the grid, row indices shifted by `r`. -/
def allCellsAux : Nat → Grid → List Cell
  | _, [] => []
  | r, row :: rest =>
    (List.range row.length).map (fun k => Cell.mk r k) ++ allCellsAux (r + 1) rest

/-- Row-major list of every coordinate of the grid. -/
def allCells (g : Grid) : List Cell := allCellsAux 0 g

theorem mem_allCellsAux (g : Grid) : ∀ (r : Nat) (c : Cell),
    c ∈ allCellsAux r g ↔
      (r ≤ c.row ∧ c.row - r < g.length ∧ c.col < (g.getD (c.row - r) []).length) := by
  induction g with
  | nil =>
    intro r c
    unfold allCellsAux
    simp
  | cons row rest ih =>
    intro r c
    unfold allCellsAux
    rw [List.mem_append, List.mem_map]
    constructor
    · rintro (⟨k, hk, hc⟩ | h)
      · rw [List.mem_range] at hk
        rw [← hc]
        exact ⟨Nat.le_refl r, by simp, by simpa using hk⟩
      · obtain ⟨h1, h2, h3⟩ := (ih (r + 1) c).mp h
        refine ⟨by omega, ?_, ?_⟩
        · simp only [List.length_cons]
          omega
        · have hidx : c.row - r = (c.row - (r + 1)) + 1 := by omega
          rw [hidx]
          simpa using h3
    · rintro ⟨h1, h2, h3⟩
      by_cases hr : c.row = r
      · refine Or.inl ⟨c.col, ?_, ?_⟩
        · rw [List.mem_range]
          have h0 : c.row - r = 0 := by omega
          rw [h0] at h3
          simpa using h3
        · cases c
          simp_all
      · refine Or.inr ((ih (r + 1) c).mpr ⟨by omega, ?_, ?_⟩)
        · simp only [List.length_cons] at h2
          omega
        · have hidx : c.row - r = (c.row - (r + 1)) + 1 := by omega
          rw [hidx] at h3
          simpa using h3

theorem mem_allCells (g : Grid) (c : Cell) : c ∈ allCells g ↔ inB g c := by
  unfold allCells inB
  rw [mem_allCellsAux]
  simp

theorem allCellsAux_nodup (g : Grid) : ∀ r, (allCellsAux r g).Nodup := by
  induction g with
  | nil =>
    intro r
    exact List.nodup_nil
  | cons row rest ih =>
    intro r
    unfold allCellsAux
    refine List.Nodup.append ?_ (ih (r + 1)) ?_
    · refine List.Nodup.map ?_ (List.nodup_range _)
      intro a b hab
      exact congrArg Cell.col hab
    · intro c hc1 hc2
      obtain ⟨k, -, hc⟩ := List.mem_map.mp hc1
      have h1 : c.row = r := by rw [← hc]
      have h2 := ((mem_allCellsAux rest (r + 1) c).mp hc2).1
      omega

theorem allCells_nodup (g : Grid) : (allCells g).Nodup := allCellsAux_nodup g 0

theorem foldl_add_init {α : Type _} (f : α → Nat) (l : List α) :
    ∀ a, l.foldl (fun b x => b + f x) a = a + l.foldl (fun b x => b + f x) 0 := by
  induction l with
  | nil =>
    intro a
    simp
  | cons x l ih =>
    intro a
    rw [List.foldl_cons, List.foldl_cons, ih (a + f x), ih (0 + f x)]
    omega

theorem cellCount_cons (row : List CellData) (rest : Grid) :
    cellCount (row :: rest) = row.length + cellCount rest := by
  unfold cellCount
  rw [List.foldl_cons, foldl_add_init List.length rest (0 + row.length)]
  omega

theorem allCellsAux_length (g : Grid) : ∀ r, (allCellsAux r g).length = cellCount g := by
  induction g with
  | nil =>
    intro r
    rfl
  | cons row rest ih =>
    intro r
    unfold allCellsAux
    rw [List.length_append, List.length_map, List.length_range, cellCount_cons, ih (r + 1)]

theorem countP_ext {α : Type _} (p q : α → Bool) :
    ∀ {L : List α}, (∀ x ∈ L, p x = q x) → L.countP p = L.countP q := by
  intro L
  induction L with
  | nil =>
    intro _
    rfl
  | cons a L ih =>
    intro h
    rw [List.countP_cons, List.countP_cons, h a (by simp),
      ih (fun x hx => h x (by simp [hx]))]

theorem countP_set_false {α : Type _} (p q : α → Bool) {c : α}
    (hpc : p c = true) (hqc : q c = false) :
    ∀ {L : List α}, L.Nodup → c ∈ L → (∀ x ∈ L, x ≠ c → q x = p x) →
      L.countP q + 1 = L.countP p := by
  intro L
  induction L with
  | nil =>
    intro _ hc _
    exact absurd hc (List.not_mem_nil c)
  | cons a L ih =>
    intro hnd hc hpq
    rw [List.countP_cons, List.countP_cons]
    rcases List.mem_cons.mp hc with rfl | hc'
    · have hrest : L.countP q = L.countP p := by
        refine countP_ext q p ?_
        intro x hx
        exact hpq x (by simp [hx]) (fun h => (List.nodup_cons.mp hnd).1 (h ▸ hx))
      rw [hpc, hqc, hrest]
      simp
    · have hac : a ≠ c := fun h => (List.nodup_cons.mp hnd).1 (h ▸ hc')
      have hstep := ih (List.nodup_cons.mp hnd).2 hc'
        (fun x hx hxc => hpq x (by simp [hx]) hxc)
      rw [hpq a (by simp) hac]
      omega

/-- Number of cells of `g0` whose marker in `gc` satisfies `cond`. -/
def cCnt (cond : Int → Bool) (g0 gc : Grid) : Nat :=
  (allCells g0).countP (fun c => cond (getCell gc c).dirty_parents)

theorem cCnt_le (cond : Int → Bool) (g0 gc : Grid) : cCnt cond g0 gc ≤ cellCount g0 := by
  unfold cCnt
  calc (allCells g0).countP (fun c => cond (getCell gc c).dirty_parents)
      ≤ (allCells g0).length := List.countP_le_length _
    _ = cellCount g0 := allCellsAux_length g0 0

theorem cCnt_setDirty_toggle {g0 gc : Grid} (cond : Int → Bool) {d : Cell}
    (hsh : ∀ q, inB gc q ↔ inB g0 q) (hd : inB gc d)
    (hcondT : cond (getCell gc d).dirty_parents = true) (v : Int) (hv : cond v = false) :
    cCnt cond g0 (setDirty gc d v) + 1 = cCnt cond g0 gc := by
  unfold cCnt
  refine countP_set_false _ _ ?_ ?_ (allCells_nodup g0)
    ((mem_allCells g0 d).mpr ((hsh d).mp hd)) ?_
  · exact hcondT
  · show cond (getCell (setDirty gc d v) d).dirty_parents = false
    rw [getCell_setDirty_self v hd]
    exact hv
  · intro x _ hxd
    show cond (getCell (setDirty gc d v) x).dirty_parents
      = cond (getCell gc x).dirty_parents
    rw [getCell_setDirty_ne v hxd]

theorem cCnt_incDirty_zero {g0 gc : Grid} {d : Cell}
    (hsh : ∀ q, inB gc q ↔ inB g0 q) (hd : inB gc d)
    (h0 : (getCell gc d).dirty_parents = 0) :
    cCnt (fun x => decide (x = 0)) g0 (incDirty gc d) + 1
      = cCnt (fun x => decide (x = 0)) g0 gc := by
  unfold cCnt
  refine countP_set_false _ _ ?_ ?_ (allCells_nodup g0)
    ((mem_allCells g0 d).mpr ((hsh d).mp hd)) ?_
  · exact decide_eq_true h0
  · show decide ((getCell (incDirty gc d) d).dirty_parents = 0) = false
    rw [getCell_incDirty, if_pos ⟨rfl, hd⟩]
    exact decide_eq_false (by show ¬ ((getCell gc d).dirty_parents + 1 = 0); omega)
  · intro x _ hxd
    show decide ((getCell (incDirty gc d) x).dirty_parents = 0)
      = decide ((getCell gc x).dirty_parents = 0)
    rw [getCell_incDirty, if_neg (fun h => hxd h.1)]

theorem cCnt_incDirty_pos (g0 : Grid) {gc : Grid} {d : Cell}
    (hnn : 0 ≤ (getCell gc d).dirty_parents) (h0 : (getCell gc d).dirty_parents ≠ 0) :
    cCnt (fun x => decide (x = 0)) g0 (incDirty gc d)
      = cCnt (fun x => decide (x = 0)) g0 gc := by
  unfold cCnt
  refine countP_ext _ _ ?_
  intro x _
  by_cases hxd : x = d
  · subst hxd
    by_cases hin : inB gc x
    · show decide ((getCell (incDirty gc x) x).dirty_parents = 0)
        = decide ((getCell gc x).dirty_parents = 0)
      rw [getCell_incDirty, if_pos ⟨rfl, hin⟩]
      rw [decide_eq_false (by show ¬ ((getCell gc x).dirty_parents + 1 = 0); omega),
        decide_eq_false h0]
    · show decide ((getCell (incDirty gc x) x).dirty_parents = 0)
        = decide ((getCell gc x).dirty_parents = 0)
      rw [getCell_incDirty, if_neg (fun h => hin h.2)]
  · show decide ((getCell (incDirty gc d) x).dirty_parents = 0)
      = decide ((getCell gc x).dirty_parents = 0)
    rw [getCell_incDirty, if_neg (fun h => hxd h.1)]

theorem map_sum_ext {α : Type _} (f f' : α → Nat) :
    ∀ {L : List α}, (∀ x ∈ L, f' x = f x) → (L.map f').sum = (L.map f).sum := by
  intro L
  induction L with
  | nil =>
    intro _
    rfl
  | cons a L ih =>
    intro h
    rw [List.map_cons, List.map_cons, List.sum_cons, List.sum_cons, h a (by simp),
      ih (fun x hx => h x (by simp [hx]))]

theorem sum_map_update {α : Type _} (f f' : α → Nat) {c : α} :
    ∀ {L : List α}, L.Nodup → c ∈ L → (∀ x ∈ L, x ≠ c → f' x = f x) →
      (L.map f').sum + f c = (L.map f).sum + f' c := by
  intro L
  induction L with
  | nil =>
    intro _ hc _
    exact absurd hc (List.not_mem_nil c)
  | cons a L ih =>
    intro hnd hc hff
    rw [List.map_cons, List.map_cons, List.sum_cons, List.sum_cons]
    rcases List.mem_cons.mp hc with rfl | hc'
    · have hrest : (L.map f').sum = (L.map f).sum := by
        refine map_sum_ext f f' ?_
        intro x hx
        exact hff x (by simp [hx]) (fun h => (List.nodup_cons.mp hnd).1 (h ▸ hx))
      omega
    · have hac : a ≠ c := fun h => (List.nodup_cons.mp hnd).1 (h ▸ hc')
      have hstep := ih (List.nodup_cons.mp hnd).2 hc'
        (fun x hx hxc => hff x (by simp [hx]) hxc)
      rw [hff a (by simp) hac]
      omega

/-- Total positive dirtiness of `gc`, measured over the cells of `g0`. -/
def cellSum (g0 gc : Grid) : Nat :=
  ((allCells g0).map (fun c => (getCell gc c).dirty_parents.toNat)).sum

theorem cellSum_congr {g0 gc gc' : Grid}
    (h : ∀ q, (getCell gc' q).dirty_parents = (getCell gc q).dirty_parents) :
    cellSum g0 gc' = cellSum g0 gc := by
  unfold cellSum
  refine map_sum_ext _ _ ?_
  intro x _
  show (getCell gc' x).dirty_parents.toNat = (getCell gc x).dirty_parents.toNat
  rw [h x]

theorem cellSum_decDirty {g0 gc : Grid} {d : Cell}
    (hsh : ∀ q, inB gc q ↔ inB g0 q) (hd : inB gc d) :
    cellSum g0 (decDirty gc d) + (getCell gc d).dirty_parents.toNat
      = cellSum g0 gc + ((getCell gc d).dirty_parents - 1).toNat := by
  unfold cellSum
  have h := sum_map_update (fun c => (getCell gc c).dirty_parents.toNat)
    (fun c => (getCell (decDirty gc d) c).dirty_parents.toNat)
    (allCells_nodup g0) ((mem_allCells g0 d).mpr ((hsh d).mp hd))
    (fun x _ hxd => by
      show (getCell (decDirty gc d) x).dirty_parents.toNat
        = (getCell gc x).dirty_parents.toNat
      rw [getCell_decDirty, if_neg (fun h => hxd h.1)])
  have hself : (getCell (decDirty gc d) d).dirty_parents.toNat
      = ((getCell gc d).dirty_parents - 1).toNat := by
    rw [getCell_decDirty, if_pos ⟨rfl, hd⟩]
  dsimp only at h
  rw [hself] at h
  exact h

theorem foldl_toNat_init (l : List CellData) :
    ∀ a, l.foldl (fun b cd => b + cd.dirty_parents.toNat) a
      = a + l.foldl (fun b cd => b + cd.dirty_parents.toNat) 0 := by
  induction l with
  | nil =>
    intro a
    simp
  | cons x xs ih =>
    intro a
    rw [List.foldl_cons, List.foldl_cons, ih (a + x.dirty_parents.toNat),
      ih (0 + x.dirty_parents.toNat)]
    omega

theorem foldl_rowsum_init (l : Grid) :
    ∀ a, l.foldl (fun a row => a + row.foldl (fun b cd => b + cd.dirty_parents.toNat) 0) a
      = a + l.foldl (fun a row => a + row.foldl (fun b cd => b + cd.dirty_parents.toNat) 0) 0 := by
  induction l with
  | nil =>
    intro a
    simp
  | cons x xs ih =>
    intro a
    rw [List.foldl_cons, List.foldl_cons,
      ih (a + x.foldl (fun b cd => b + cd.dirty_parents.toNat) 0),
      ih (0 + x.foldl (fun b cd => b + cd.dirty_parents.toNat) 0)]
    omega

theorem range_map_getD_sum :
    ∀ (row : List CellData),
      ((List.range row.length).map (fun k => (row.getD k default).dirty_parents.toNat)).sum
        = row.foldl (fun b cd => b + cd.dirty_parents.toNat) 0 := by
  intro row
  induction row with
  | nil => rfl
  | cons x xs ih =>
    rw [List.length_cons, List.range_succ_eq_map, List.map_cons, List.sum_cons, List.map_map]
    have hcomp : ((fun k => ((x :: xs).getD k default).dirty_parents.toNat) ∘ Nat.succ)
        = (fun k => (xs.getD k default).dirty_parents.toNat) := by
      funext k
      simp
    rw [hcomp, ih, List.foldl_cons, foldl_toNat_init xs (0 + x.dirty_parents.toNat)]
    have h0 : (x :: xs).getD 0 default = x := rfl
    rw [h0]
    omega

theorem allCellsAux_cellfold (gc : Grid) :
    ∀ (g : Grid) (r : Nat),
      (∀ i, i < g.length → g.getD i [] = gc.getD (r + i) []) →
      ((allCellsAux r g).map (fun c => (getCell gc c).dirty_parents.toNat)).sum
        = g.foldl (fun a row => a + row.foldl (fun b cd => b + cd.dirty_parents.toNat) 0) 0 := by
  intro g
  induction g with
  | nil =>
    intro r _
    rfl
  | cons row rest ih =>
    intro r hrow
    unfold allCellsAux
    rw [List.map_append, List.sum_append, List.map_map]
    have hr0 : gc.getD r [] = row := by
      have h := hrow 0 (by simp)
      simpa using h.symm
    have hfun : ((fun c => (getCell gc c).dirty_parents.toNat) ∘ (fun k => Cell.mk r k))
        = (fun k => (row.getD k default).dirty_parents.toNat) := by
      funext k
      show (getCell gc (Cell.mk r k)).dirty_parents.toNat
        = (row.getD k default).dirty_parents.toNat
      unfold getCell
      rw [show (Cell.mk r k).row = r from rfl, show (Cell.mk r k).col = k from rfl, hr0]
    have htail := ih (r + 1) (fun i hi => by
      have h := hrow (i + 1) (by simpa using Nat.succ_lt_succ hi)
      rw [show r + 1 + i = r + (i + 1) from by omega]
      simpa using h)
    rw [hfun, range_map_getD_sum row, htail, List.foldl_cons,
      foldl_rowsum_init rest (0 + row.foldl (fun b cd => b + cd.dirty_parents.toNat) 0)]
    omega

theorem sumPosDirty_eq (g : Grid) : sumPosDirty g = cellSum g g := by
  unfold sumPosDirty cellSum allCells
  exact (allCellsAux_cellfold g g 0 (fun i hi => by simp)).symm

/-! ### The four worklist loops always terminate within their fuel -/

theorem cycleLoop_cons (start : Cell) (fuel : Nat) (g : Grid) (current : Cell)
    (rest : List Cell) :
    cycleLoop start (fuel + 1) g (current :: rest)
      = (if (getCell g current).dependents.contains start then some (true, g)
         else cycleLoop start fuel
           ((getCell g current).dependents.foldl (flagStep (fun x => decide (x = 0)) 1)
             (g, rest)).1
           ((getCell g current).dependents.foldl (flagStep (fun x => decide (x = 0)) 1)
             (g, rest)).2) := rfl

theorem resetLoop_cons (fuel : Nat) (g : Grid) (current : Cell) (rest : List Cell) :
    resetLoop (fuel + 1) g (current :: rest)
      = resetLoop fuel
          ((getCell g current).dependents.foldl (flagStep (fun x => decide (0 < x)) 0)
            (g, rest)).1
          ((getCell g current).dependents.foldl (flagStep (fun x => decide (0 < x)) 0)
            (g, rest)).2 := rfl

theorem markLoop_cons (fuel : Nat) (g : Grid) (current : Cell) (rest : List Cell) :
    markLoop (fuel + 1) g (current :: rest)
      = markLoop fuel
          ((getCell g current).dependents.foldl degStep (g, rest)).1
          ((getCell g current).dependents.foldl degStep (g, rest)).2 := rfl

theorem processLoop_cons (sv : List Int → Int → Int → Int) (fuel : Nat) (g : Grid)
    (current : Cell) (rest trace : List Cell) :
    processLoop sv (fuel + 1) g (current :: rest) trace
      = processLoop sv fuel
          ((getCell (updCell g current (fun cd =>
              { cd with value := (evaluate_expression sv g (getCell g current).function).1,
                        error := (evaluate_expression sv g (getCell g current).function).2 }))
            current).dependents.foldl procStep
            (updCell g current (fun cd =>
              { cd with value := (evaluate_expression sv g (getCell g current).function).1,
                        error := (evaluate_expression sv g (getCell g current).function).2 }),
             rest)).1
          ((getCell (updCell g current (fun cd =>
              { cd with value := (evaluate_expression sv g (getCell g current).function).1,
                        error := (evaluate_expression sv g (getCell g current).function).2 }))
            current).dependents.foldl procStep
            (updCell g current (fun cd =>
              { cd with value := (evaluate_expression sv g (getCell g current).function).1,
                        error := (evaluate_expression sv g (getCell g current).function).2 }),
             rest)).2
          (current :: trace) := rfl

theorem setDirty_deps (g : Grid) (c : Cell) (n : Int) (q : Cell) :
    (getCell (setDirty g c n) q).dependents = (getCell g q).dependents := by
  by_cases hq : q = c
  · subst hq
    by_cases hib : inB g q
    · rw [getCell_setDirty_self n hib]
    · rw [setDirty_oob hib]
  · rw [getCell_setDirty_ne n hq]

theorem flagFold_measure (cond : Int → Bool) (v : Int) (hv : cond v = false) {g0 : Grid} :
    ∀ (deps : List Cell) (gc : Grid) (st : List Cell),
      (∀ q, inB gc q ↔ inB g0 q) → (∀ d ∈ deps, inB g0 d) →
      (deps.foldl (flagStep cond v) (gc, st)).2.length
          + 2 * cCnt cond g0 (deps.foldl (flagStep cond v) (gc, st)).1
        ≤ st.length + 2 * cCnt cond g0 gc := by
  intro deps
  induction deps with
  | nil =>
    intro gc st _ _
    exact Nat.le_refl _
  | cons d deps ih =>
    intro gc st hsh hdeps
    rw [List.foldl_cons]
    have hdin : inB gc d := (hsh d).mpr (hdeps d (by simp))
    by_cases hd : cond (getCell gc d).dirty_parents = true
    · rw [show flagStep cond v (gc, st) d = (setDirty gc d v, d :: st) by
        unfold flagStep; rw [if_pos hd]]
      have hsh' : ∀ q, inB (setDirty gc d v) q ↔ inB g0 q :=
        fun q => (inB_setDirty gc d v q).trans (hsh q)
      have hcnt := cCnt_setDirty_toggle cond hsh hdin hd v hv
      have hrec := ih (setDirty gc d v) (d :: st) hsh' (fun x hx => hdeps x (by simp [hx]))
      rw [List.length_cons] at hrec
      omega
    · rw [show flagStep cond v (gc, st) d = (gc, st) by
        unfold flagStep; rw [if_neg hd]]
      exact ih gc st hsh (fun x hx => hdeps x (by simp [hx]))

theorem degFold_measure {g0 : Grid} :
    ∀ (deps : List Cell) (gc : Grid) (st : List Cell),
      (∀ q, inB gc q ↔ inB g0 q) →
      (∀ q, 0 ≤ (getCell gc q).dirty_parents) →
      (∀ d ∈ deps, inB g0 d) →
      (deps.foldl degStep (gc, st)).2.length
          + 2 * cCnt (fun x => decide (x = 0)) g0 (deps.foldl degStep (gc, st)).1
        ≤ st.length + 2 * cCnt (fun x => decide (x = 0)) g0 gc := by
  intro deps
  induction deps with
  | nil =>
    intro gc st _ _ _
    exact Nat.le_refl _
  | cons d deps ih =>
    intro gc st hsh hnn hdeps
    rw [List.foldl_cons, degStep_eq]
    have hdin : inB gc d := (hsh d).mpr (hdeps d (by simp))
    have hsh' : ∀ q, inB (incDirty gc d) q ↔ inB g0 q := by
      intro q
      rw [incDirty, inB_updCell]
      exact hsh q
    have hnn' : ∀ q, 0 ≤ (getCell (incDirty gc d) q).dirty_parents := by
      intro q
      rw [getCell_incDirty]
      split
      · show 0 ≤ (getCell gc d).dirty_parents + 1
        have := hnn d
        omega
      · exact hnn q
    by_cases h0 : (getCell gc d).dirty_parents = 0
    · rw [if_pos h0]
      have hcnt := cCnt_incDirty_zero hsh hdin h0
      have hrec := ih (incDirty gc d) (d :: st) hsh' hnn'
        (fun x hx => hdeps x (by simp [hx]))
      rw [List.length_cons] at hrec
      omega
    · rw [if_neg h0]
      have hcnt := cCnt_incDirty_pos g0 (hnn d) h0
      have hrec := ih (incDirty gc d) st hsh' hnn' (fun x hx => hdeps x (by simp [hx]))
      omega

theorem procFold_measure {g0 : Grid} :
    ∀ (deps : List Cell) (gc : Grid) (st : List Cell),
      (∀ q, inB gc q ↔ inB g0 q) →
      (∀ d ∈ deps, inB g0 d) →
      (deps.foldl procStep (gc, st)).2.length
          + 2 * cellSum g0 (deps.foldl procStep (gc, st)).1
        ≤ st.length + 2 * cellSum g0 gc := by
  intro deps
  induction deps with
  | nil =>
    intro gc st _ _
    exact Nat.le_refl _
  | cons d deps ih =>
    intro gc st hsh hdeps
    rw [List.foldl_cons, procStep_eq]
    have hdin : inB gc d := (hsh d).mpr (hdeps d (by simp))
    have hsh' : ∀ q, inB (decDirty gc d) q ↔ inB g0 q := by
      intro q
      rw [decDirty, inB_updCell]
      exact hsh q
    have hsum := cellSum_decDirty hsh hdin
    by_cases h0 : (getCell (decDirty gc d) d).dirty_parents = 0
    · rw [if_pos h0]
      have hx : (getCell gc d).dirty_parents - 1 = 0 := by
        have h1 := h0
        rw [getCell_decDirty, if_pos ⟨rfl, hdin⟩] at h1
        exact h1
      have hrec := ih (decDirty gc d) (d :: st) hsh' (fun x hx2 => hdeps x (by simp [hx2]))
      rw [List.length_cons] at hrec
      omega
    · rw [if_neg h0]
      have hrec := ih (decDirty gc d) st hsh' (fun x hx2 => hdeps x (by simp [hx2]))
      omega

theorem degFold_stack_sub :
    ∀ (deps : List Cell) (gm : Grid) (st : List Cell) (q : Cell),
      q ∈ (deps.foldl degStep (gm, st)).2 → q ∈ st ∨ q ∈ deps := by
  intro deps
  induction deps with
  | nil =>
    intro gm st q h
    exact Or.inl h
  | cons d deps ih =>
    intro gm st q h
    rw [List.foldl_cons, degStep_eq] at h
    rcases ih _ _ q h with h' | h'
    · by_cases h0 : (getCell gm d).dirty_parents = 0
      · rw [if_pos h0] at h'
        rcases List.mem_cons.mp h' with rfl | h''
        · exact Or.inr (by simp)
        · exact Or.inl h''
      · rw [if_neg h0] at h'
        exact Or.inl h'
    · exact Or.inr (by simp [h'])

theorem procFold_stack_sub :
    ∀ (deps : List Cell) (gp : Grid) (st : List Cell) (q : Cell),
      q ∈ (deps.foldl procStep (gp, st)).2 → q ∈ st ∨ q ∈ deps := by
  intro deps
  induction deps with
  | nil =>
    intro gp st q h
    exact Or.inl h
  | cons d deps ih =>
    intro gp st q h
    rw [List.foldl_cons, procStep_eq] at h
    rcases ih _ _ q h with h' | h'
    · by_cases h0 : (getCell (decDirty gp d) d).dirty_parents = 0
      · rw [if_pos h0] at h'
        rcases List.mem_cons.mp h' with rfl | h''
        · exact Or.inr (by simp)
        · exact Or.inl h''
      · rw [if_neg h0] at h'
        exact Or.inl h'
    · exact Or.inr (by simp [h'])

theorem cycleLoop_isSome (start : Cell) {g0 : Grid} (hB : BoundsG g0) :
    ∀ (fuel : Nat) (gc : Grid) (stack : List Cell),
      (∀ q, inB gc q ↔ inB g0 q) →
      (∀ q, (getCell gc q).dependents = (getCell g0 q).dependents) →
      (∀ q ∈ stack, inB g0 q) →
      stack.length + 2 * cCnt (fun x => decide (x = 0)) g0 gc < fuel →
      (cycleLoop start fuel gc stack).isSome := by
  intro fuel
  induction fuel with
  | zero =>
    intro gc stack _ _ _ hf
    exact absurd hf (by omega)
  | succ fuel ih =>
    intro gc stack hsh hdeps hstk hf
    cases stack with
    | nil => rfl
    | cons current rest =>
      rw [cycleLoop_cons]
      by_cases hc : (getCell gc current).dependents.contains start = true
      · rw [if_pos hc]
        rfl
      · rw [if_neg hc]
        have hcur : inB g0 current := hstk current (by simp)
        have hdB : ∀ d ∈ (getCell gc current).dependents, inB g0 d := by
          intro d hd
          rw [hdeps current] at hd
          exact hB current hcur d hd
        refine ih _ _ ?_ ?_ ?_ ?_
        · intro q
          exact (inB_flagFold _ _ _ _ _ q).trans (hsh q)
        · intro q
          rw [flagFold_grid]
          split
          · exact hdeps q
          · exact hdeps q
        · intro q hq
          rw [flagFold_stack] at hq
          rcases hq with hq | ⟨hq1, -⟩
          · exact hstk q (by simp [hq])
          · exact hdB q hq1
        · have hm := flagFold_measure (fun x => decide (x = 0)) 1 (by decide)
            (getCell gc current).dependents gc rest hsh hdB
          rw [List.length_cons] at hf
          omega

theorem resetLoop_isSome {g0 : Grid} (hB : BoundsG g0) :
    ∀ (fuel : Nat) (gc : Grid) (stack : List Cell),
      (∀ q, inB gc q ↔ inB g0 q) →
      (∀ q, (getCell gc q).dependents = (getCell g0 q).dependents) →
      (∀ q ∈ stack, inB g0 q) →
      stack.length + 2 * cCnt (fun x => decide (0 < x)) g0 gc < fuel →
      (resetLoop fuel gc stack).isSome := by
  intro fuel
  induction fuel with
  | zero =>
    intro gc stack _ _ _ hf
    exact absurd hf (by omega)
  | succ fuel ih =>
    intro gc stack hsh hdeps hstk hf
    cases stack with
    | nil => rfl
    | cons current rest =>
      rw [resetLoop_cons]
      have hcur : inB g0 current := hstk current (by simp)
      have hdB : ∀ d ∈ (getCell gc current).dependents, inB g0 d := by
        intro d hd
        rw [hdeps current] at hd
        exact hB current hcur d hd
      refine ih _ _ ?_ ?_ ?_ ?_
      · intro q
        exact (inB_flagFold _ _ _ _ _ q).trans (hsh q)
      · intro q
        rw [flagFold_grid]
        split
        · exact hdeps q
        · exact hdeps q
      · intro q hq
        rw [flagFold_stack] at hq
        rcases hq with hq | ⟨hq1, -⟩
        · exact hstk q (by simp [hq])
        · exact hdB q hq1
      · have hm := flagFold_measure (fun x => decide (0 < x)) 0 (by decide)
          (getCell gc current).dependents gc rest hsh hdB
        rw [List.length_cons] at hf
        omega

theorem markLoop_isSome {g0 : Grid} (hB : BoundsG g0) :
    ∀ (fuel : Nat) (gc : Grid) (stack : List Cell),
      (∀ q, inB gc q ↔ inB g0 q) →
      (∀ q, (getCell gc q).dependents = (getCell g0 q).dependents) →
      (∀ q, 0 ≤ (getCell gc q).dirty_parents) →
      (∀ q ∈ stack, inB g0 q) →
      stack.length + 2 * cCnt (fun x => decide (x = 0)) g0 gc < fuel →
      (markLoop fuel gc stack).isSome := by
  intro fuel
  induction fuel with
  | zero =>
    intro gc stack _ _ _ _ hf
    exact absurd hf (by omega)
  | succ fuel ih =>
    intro gc stack hsh hdeps hnn hstk hf
    cases stack with
    | nil => rfl
    | cons current rest =>
      rw [markLoop_cons]
      have hcur : inB g0 current := hstk current (by simp)
      have hdB : ∀ d ∈ (getCell gc current).dependents, inB g0 d := by
        intro d hd
        rw [hdeps current] at hd
        exact hB current hcur d hd
      have hdBc : ∀ d ∈ (getCell gc current).dependents, inB gc d :=
        fun d hd => (hsh d).mpr (hdB d hd)
      have hframe := degFold_frame (getCell gc current).dependents gc rest
      refine ih _ _ ?_ ?_ ?_ ?_ ?_
      · intro q
        exact (hframe.2.1 q).trans (hsh q)
      · intro q
        exact ((hframe.1 q).2.1).trans (hdeps q)
      · intro q
        rw [degFold_dirty _ _ _ hdBc q]
        have h1 := hnn q
        omega
      · intro q hq
        rcases degFold_stack_sub _ _ _ q hq with h | h
        · exact hstk q (by simp [h])
        · exact hdB q h
      · have hm := degFold_measure (getCell gc current).dependents gc rest hsh hnn hdB
        rw [List.length_cons] at hf
        omega

theorem processLoop_isSome (sv : List Int → Int → Int → Int) {g0 : Grid} (hB : BoundsG g0) :
    ∀ (fuel : Nat) (gc : Grid) (stack trace : List Cell),
      (∀ q, inB gc q ↔ inB g0 q) →
      (∀ q, (getCell gc q).dependents = (getCell g0 q).dependents) →
      (∀ q ∈ stack, inB g0 q) →
      stack.length + 2 * cellSum g0 gc < fuel →
      (processLoop sv fuel gc stack trace).isSome := by
  intro fuel
  induction fuel with
  | zero =>
    intro gc stack trace _ _ _ hf
    exact absurd hf (by omega)
  | succ fuel ih =>
    intro gc stack trace hsh hdeps hstk hf
    cases stack with
    | nil => rfl
    | cons current rest =>
      rw [processLoop_cons]
      generalize evaluate_expression sv gc (getCell gc current).function = ve
      obtain ⟨a, e⟩ := ve
      dsimp only
      have hve := updCell_ve_fields gc current a e
      have hg1sh : ∀ q,
          inB (updCell gc current (fun cd => { cd with value := a, error := e })) q
            ↔ inB g0 q :=
        fun q => (inB_updCell _ _ _ q).trans (hsh q)
      have hg1deps : ∀ q,
          (getCell (updCell gc current (fun cd => { cd with value := a, error := e }))
            q).dependents = (getCell g0 q).dependents :=
        fun q => (hve q).1.trans (hdeps q)
      have hg1sum :
          cellSum g0 (updCell gc current (fun cd => { cd with value := a, error := e }))
            = cellSum g0 gc :=
        cellSum_congr (fun q => (hve q).2.2)
      have hcur : inB g0 current := hstk current (by simp)
      have hdB : ∀ d ∈ (getCell (updCell gc current
          (fun cd => { cd with value := a, error := e })) current).dependents, inB g0 d := by
        intro d hd
        rw [hg1deps current] at hd
        exact hB current hcur d hd
      have hframe := procFold_frame
        (getCell (updCell gc current (fun cd => { cd with value := a, error := e }))
          current).dependents
        (updCell gc current (fun cd => { cd with value := a, error := e })) rest
      have hm := procFold_measure
        (getCell (updCell gc current (fun cd => { cd with value := a, error := e }))
          current).dependents
        (updCell gc current (fun cd => { cd with value := a, error := e })) rest hg1sh hdB
      refine ih _ _ _ ?_ ?_ ?_ ?_
      · intro q
        exact (hframe.2.1 q).trans (hg1sh q)
      · intro q
        exact ((hframe.1 q).2.1).trans (hg1deps q)
      · intro q hq
        rcases procFold_stack_sub _ _ _ q hq with h | h
        · exact hstk q (List.mem_cons_of_mem _ h)
        · exact hdB q h
      · rw [List.length_cons] at hf
        omega

theorem cycleLoop_frame (start : Cell) :
    ∀ (fuel : Nat) (gc : Grid) (stack : List Cell) {found : Bool} {gf : Grid},
      cycleLoop start fuel gc stack = some (found, gf) →
      (∀ q, inB gf q ↔ inB gc q) ∧ (∀ q, sameButDirty (getCell gf q) (getCell gc q)) := by
  intro fuel
  induction fuel with
  | zero =>
    intro gc stack found gf h
    exact Option.noConfusion h
  | succ fuel ih =>
    intro gc stack found gf h
    cases stack with
    | nil =>
      have h' : (false, gc) = (found, gf) := Option.some.inj h
      have hg : gc = gf := congrArg Prod.snd h'
      subst hg
      exact ⟨fun q => Iff.rfl, fun q => sameButDirty_refl _⟩
    | cons current rest =>
      rw [cycleLoop_cons] at h
      by_cases hc : (getCell gc current).dependents.contains start = true
      · rw [if_pos hc] at h
        have h' : (true, gc) = (found, gf) := Option.some.inj h
        have hg : gc = gf := congrArg Prod.snd h'
        subst hg
        exact ⟨fun q => Iff.rfl, fun q => sameButDirty_refl _⟩
      · rw [if_neg hc] at h
        obtain ⟨h1, h2⟩ := ih _ _ h
        have hfg : ∀ q, sameButDirty
            (getCell ((getCell gc current).dependents.foldl
              (flagStep (fun x => decide (x = 0)) 1) (gc, rest)).1 q) (getCell gc q) := by
          intro q
          rw [flagFold_grid]
          split
          · exact sameButDirty_setMark _ _
          · exact sameButDirty_refl _
        exact ⟨fun q => (h1 q).trans (inB_flagFold _ _ _ _ _ q),
          fun q => sameButDirty_trans (h2 q) (hfg q)⟩

theorem markLoop_frame :
    ∀ (fuel : Nat) (gc : Grid) (stack : List Cell) {gf : Grid},
      markLoop fuel gc stack = some gf →
      (∀ q, inB gf q ↔ inB gc q) ∧ (∀ q, sameButDirty (getCell gf q) (getCell gc q)) := by
  intro fuel
  induction fuel with
  | zero =>
    intro gc stack gf h
    exact Option.noConfusion h
  | succ fuel ih =>
    intro gc stack gf h
    cases stack with
    | nil =>
      have hg : gc = gf := Option.some.inj h
      subst hg
      exact ⟨fun q => Iff.rfl, fun q => sameButDirty_refl _⟩
    | cons current rest =>
      rw [markLoop_cons] at h
      obtain ⟨h1, h2⟩ := ih _ _ h
      have hframe := degFold_frame (getCell gc current).dependents gc rest
      exact ⟨fun q => (h1 q).trans (hframe.2.1 q),
        fun q => sameButDirty_trans (h2 q) (hframe.1 q)⟩

/-- The cycle-detection DFS never exhausts its fuel on a well-formed
grid: the marking loop and the mirrored reset both fit in `dfsFuel`. -/
theorem ccd_isSome {g : Grid} {cell : Cell} (hB : BoundsG g) (hcell : inB g cell) :
    (check_circular_dependency g cell).isSome := by
  unfold check_circular_dependency
  have hcyc : (cycleLoop cell (dfsFuel g) (setDirty g cell 1) [cell]).isSome := by
    refine cycleLoop_isSome cell hB (dfsFuel g) _ [cell]
      (fun q => inB_setDirty g cell 1 q) (fun q => setDirty_deps g cell 1 q) ?_ ?_
    · intro q hq
      rw [show q ∈ [cell] ↔ q = cell from by simp] at hq
      rw [hq]
      exact hcell
    · have h1 := cCnt_le (fun x => decide (x = 0)) g (setDirty g cell 1)
      show 1 + 2 * cCnt (fun x => decide (x = 0)) g (setDirty g cell 1) < dfsFuel g
      unfold dfsFuel
      omega
  obtain ⟨p, hp⟩ := Option.isSome_iff_exists.mp hcyc
  obtain ⟨found, g1⟩ := p
  rw [hp]
  dsimp only
  obtain ⟨hsh1, hsame1⟩ := cycleLoop_frame cell _ _ _ hp
  have hB1 : BoundsG g1 := boundsG_transfer
    (fun q => ((hsame1 q).2.1).trans (setDirty_deps g cell 1 q))
    (fun q => (hsh1 q).trans (inB_setDirty g cell 1 q)) hB
  have hcell1 : inB g1 cell := (hsh1 cell).mpr ((inB_setDirty g cell 1 cell).mpr hcell)
  have hrst : (reset_found g1 cell).isSome := by
    unfold reset_found
    refine resetLoop_isSome hB1 (dfsFuel g1) _ [cell]
      (fun q => inB_setDirty g1 cell 0 q) (fun q => setDirty_deps g1 cell 0 q) ?_ ?_
    · intro q hq
      rw [show q ∈ [cell] ↔ q = cell from by simp] at hq
      rw [hq]
      exact hcell1
    · have h1 := cCnt_le (fun x => decide (0 < x)) g1 (setDirty g1 cell 0)
      show 1 + 2 * cCnt (fun x => decide (0 < x)) g1 (setDirty g1 cell 0) < dfsFuel g1
      unfold dfsFuel
      omega
  obtain ⟨g2, hg2⟩ := Option.isSome_iff_exists.mp hrst
  rw [hg2]
  rfl

/-- The propagation pass never exhausts its fuel on a well-formed grid
with cleared markers. -/
theorem update_dependents_isSome (sv : List Int → Int → Int → Int) {g : Grid} {cell : Cell}
    (hB : BoundsG g) (hz : ∀ q, (getCell g q).dirty_parents = 0) (hcell : inB g cell) :
    (update_dependents sv g cell).isSome := by
  unfold update_dependents
  have hsdp : (set_dirty_parents g cell).isSome := by
    unfold set_dirty_parents
    refine markLoop_isSome hB (dfsFuel g) _ [cell]
      (fun q => inB_setDirty g cell 0 q) (fun q => setDirty_deps g cell 0 q) ?_ ?_ ?_
    · intro q
      by_cases hq : q = cell
      · subst hq
        by_cases hib : inB g q
        · rw [getCell_setDirty_self 0 hib]
        · rw [setDirty_oob hib]
          rw [hz q]
      · rw [getCell_setDirty_ne 0 hq, hz q]
    · intro q hq
      rw [show q ∈ [cell] ↔ q = cell from by simp] at hq
      rw [hq]
      exact hcell
    · have h1 := cCnt_le (fun x => decide (x = 0)) g (setDirty g cell 0)
      show 1 + 2 * cCnt (fun x => decide (x = 0)) g (setDirty g cell 0) < dfsFuel g
      unfold dfsFuel
      omega
  obtain ⟨g1, hg1⟩ := Option.isSome_iff_exists.mp hsdp
  rw [hg1]
  dsimp only
  obtain ⟨hsh1, hsame1⟩ := markLoop_frame _ _ _ hg1
  have hsh1g : ∀ q, inB g1 q ↔ inB g q :=
    fun q => (hsh1 q).trans (inB_setDirty g cell 0 q)
  have hdeps1 : ∀ q, (getCell g1 q).dependents = (getCell g q).dependents :=
    fun q => ((hsame1 q).2.1).trans (setDirty_deps g cell 0 q)
  have hB1 : BoundsG g1 := boundsG_transfer hdeps1 hsh1g hB
  have hcell1 : inB g1 cell := (hsh1g cell).mpr hcell
  have hframe := procFold_frame (getCell g1 cell).dependents g1 []
  have hBp : BoundsG ((getCell g1 cell).dependents.foldl procStep (g1, [])).1 :=
    boundsG_transfer (fun q => (hframe.1 q).2.1) (fun q => hframe.2.1 q) hB1
  refine processLoop_isSome sv hBp _ _ _ [] (fun q => Iff.rfl) (fun q => rfl) ?_ ?_
  · intro q hq
    rcases procFold_stack_sub _ _ _ q hq with h | h
    · exact absurd h (List.not_mem_nil q)
    · refine (hframe.2.1 q).mpr (hB1 cell hcell1 q h)
  · have hps := sumPosDirty_eq ((getCell g1 cell).dependents.foldl procStep (g1, [])).1
    show ((getCell g1 cell).dependents.foldl procStep (g1, [])).2.length
        + 2 * cellSum ((getCell g1 cell).dependents.foldl procStep (g1, [])).1
            ((getCell g1 cell).dependents.foldl procStep (g1, [])).1
      < procFuel ((getCell g1 cell).dependents.foldl procStep (g1, [])).1
          ((getCell g1 cell).dependents.foldl procStep (g1, [])).2
    unfold procFuel
    omega

/-- After a function write at `cell` and the graph update, the
propagation pass still terminates. -/
theorem upd_graph_ud_isSome (sv : List Int → Int → Int → Int) {g0 : Grid} {cell : Cell}
    (old : Function) (hB0 : BoundsG g0) (hz0 : ∀ q, (getCell g0 q).dirty_parents = 0)
    (hcell : inB g0 cell) (g1 : Grid)
    (hsh : ∀ q, inB g1 q ↔ inB g0 q)
    (hdeps : ∀ q, (getCell g1 q).dependents = (getCell g0 q).dependents)
    (hdirty : ∀ q, (getCell g1 q).dirty_parents = (getCell g0 q).dirty_parents) :
    (update_dependents sv (update_graph g1 cell old) cell).isSome := by
  have hB1 : BoundsG g1 := boundsG_transfer hdeps hsh hB0
  have hB2 : BoundsG (update_graph g1 cell old) :=
    boundsG_update_graph old hB1 ((hsh cell).mpr hcell)
  have hz2 : ∀ q, (getCell (update_graph g1 cell old) q).dirty_parents = 0 := by
    intro q
    rw [(update_graph_fields g1 cell old q).2.2.2, hdirty q, hz0 q]
  have hc2 : inB (update_graph g1 cell old) cell := by
    rw [inB_update_graph]
    exact (hsh cell).mpr hcell
  exact update_dependents_isSome sv hB2 hz2 hc2

/-- Totality of the embedded `set_cell_value` on a well-formed grid: the
fuelled loops never run out, and when the expression parses the only
possible `Err` is `CircularDependency` — the caught runtime evaluation
errors never surface as an `Err`.  This is a statement about the
embedding, whose total `i32div` wraps `i32::MIN / -1`; the real program
instead panics on that one unguarded division (the C5 correction
exhibits a reaching input), so the claim-level statement is conditioned
on the call returning. -/
theorem scv_total (sv : List Int → Int → Int → Int) {b : Backend} {cell : Cell}
    (s : List Char)
    (hB : BoundsG b.grid) (hz : ∀ q, (getCell b.grid q).dirty_parents = 0)
    (hcell : inB b.grid cell)
    (hp : (parse_expression s b.rows b.cols).2 = true) :
    ∃ r b', set_cell_value sv b cell s = some (r, b') ∧
      (r = Except.ok () ∨ r = Except.error ExpressionError.CircularDependency) := by
  cases hres : set_cell_value sv b cell s with
  | none =>
    exfalso
    unfold set_cell_value at hres
    dsimp only at hres
    split at hres
    · exact Option.noConfusion hres
    · split at hres
      · split at hres
        · rename_i heq
          exact absurd heq (Option.ne_none_iff_isSome.mpr
            (upd_graph_ud_isSome sv _ hB hz hcell _
              (fun q => inB_updCell _ _ _ q)
              (fun q => (updCell_vef_fields _ _ _ _ _ q).1)
              (fun q => (updCell_vef_fields _ _ _ _ _ q).2.1)))
        · exact Option.noConfusion hres
      · split at hres
        · exact Option.noConfusion hres
        · split at hres
          · rename_i heq
            obtain ⟨hBm, hdm, hcm⟩ := mid_state_props b.grid cell
              (parse_expression s b.rows b.cols).1 hB hcell
            exact absurd heq (Option.ne_none_iff_isSome.mpr (ccd_isSome hBm hcm))
          · exact Option.noConfusion hres
          · rename_i g3 heq
            obtain ⟨hBm, hdm, hcm⟩ := mid_state_props b.grid cell
              (parse_expression s b.rows b.cols).1 hB hcell
            have hzm : ∀ q, (getCell (update_graph (updCell b.grid cell (fun cd =>
                { cd with function := (parse_expression s b.rows b.cols).1 })) cell
                ((getCell b.grid cell).function)) q).dirty_parents = 0 := by
              intro q
              rw [hdm q, hz q]
            have hg3 : g3 = update_graph (updCell b.grid cell (fun cd =>
                { cd with function := (parse_expression s b.rows b.cols).1 })) cell
                ((getCell b.grid cell).function) :=
              check_circular_restore hBm hzm hcm heq
            subst hg3
            split at hres
            · rename_i heq2
              exact absurd heq2 (Option.ne_none_iff_isSome.mpr
                (update_dependents_isSome sv
                  (boundsG_transfer (fun q => (updCell_ve_fields _ _ _ _ q).1)
                    (fun q => inB_updCell _ _ _ q) hBm)
                  (fun q => by rw [(updCell_ve_fields _ _ _ _ q).2.2, hdm q]; exact hz q)
                  ((inB_updCell _ _ _ cell).mpr hcm)))
            · exact Option.noConfusion hres
  | some p =>
    obtain ⟨r, b'⟩ := p
    refine ⟨r, b', rfl, ?_⟩
    unfold set_cell_value at hres
    dsimp only at hres
    split at hres
    · rename_i hpf
      rw [hp] at hpf
      exact Bool.noConfusion hpf
    · split at hres
      · split at hres
        · exact Option.noConfusion hres
        · have h' := Option.some.inj hres
          exact Or.inl (congrArg Prod.fst h').symm
      · split at hres
        · have h' := Option.some.inj hres
          exact Or.inr (congrArg Prod.fst h').symm
        · split at hres
          · exact Option.noConfusion hres
          · have h' := Option.some.inj hres
            exact Or.inr (congrArg Prod.fst h').symm
          · split at hres
            · exact Option.noConfusion hres
            · have h' := Option.some.inj hres
              exact Or.inl (congrArg Prod.fst h').symm

/-! ### Errored cells always carry value 0 -/

/-- `evaluate_expression` forces the value to 0 whenever it reports an
error (every error branch returns `(0, error)`). -/
theorem evaluate_err_zero (sv : List Int → Int → Int → Int) (g : Grid) (f : Function) :
    (evaluate_expression sv g f).2 ≠ CellError.NoError →
      (evaluate_expression sv g f).1 = 0 := by
  unfold evaluate_expression
  repeat' split
  all_goals intro h
  all_goals first
    | rfl
    | exact absurd rfl h

theorem processLoop_errzero (sv : List Int → Int → Int → Int) :
    ∀ (fuel : Nat) (g : Grid) (stack trace : List Cell) {gf : Grid} {tr : List Cell},
      processLoop sv fuel g stack trace = some (gf, tr) →
      (∀ q, (getCell g q).error ≠ CellError.NoError → (getCell g q).value = 0) →
      ∀ q, (getCell gf q).error ≠ CellError.NoError → (getCell gf q).value = 0 := by
  intro fuel
  induction fuel with
  | zero =>
    intro g stack trace gf tr h _
    exact Option.noConfusion h
  | succ fuel ih =>
    intro g stack trace gf tr h hEZ
    cases stack with
    | nil =>
      have h' : (g, trace.reverse) = (gf, tr) := Option.some.inj h
      have hg : g = gf := congrArg Prod.fst h'
      subst hg
      exact hEZ
    | cons current rest =>
      rw [processLoop_cons] at h
      refine ih _ _ _ h ?_
      intro q hq
      have hframe := procFold_frame (getCell (updCell g current (fun cd =>
          { cd with value := (evaluate_expression sv g (getCell g current).function).1,
                    error := (evaluate_expression sv g (getCell g current).function).2 }))
          current).dependents
        (updCell g current (fun cd =>
          { cd with value := (evaluate_expression sv g (getCell g current).function).1,
                    error := (evaluate_expression sv g (getCell g current).function).2 })) rest
      rw [(hframe.1 q).2.2.2] at hq
      rw [(hframe.1 q).1]
      rw [getCell_updCell] at hq ⊢
      by_cases hqc : q = current ∧ inB g current
      · rw [if_pos hqc] at hq ⊢
        exact evaluate_err_zero sv g _ hq
      · rw [if_neg hqc] at hq ⊢
        exact hEZ q hq

theorem update_dependents_errzero (sv : List Int → Int → Int → Int) {g : Grid} {cell : Cell}
    {gf : Grid} {tr : List Cell}
    (h : update_dependents sv g cell = some (gf, tr))
    (hEZ : ∀ q, (getCell g q).error ≠ CellError.NoError → (getCell g q).value = 0) :
    ∀ q, (getCell gf q).error ≠ CellError.NoError → (getCell gf q).value = 0 := by
  unfold update_dependents at h
  cases hsdp : set_dirty_parents g cell with
  | none =>
    rw [hsdp] at h
    exact Option.noConfusion h
  | some g1 =>
    rw [hsdp] at h
    dsimp only at h
    refine processLoop_errzero sv _ _ _ _ h ?_
    intro q hq
    have hframe := procFold_frame (getCell g1 cell).dependents g1 []
    rw [(hframe.1 q).2.2.2] at hq
    rw [(hframe.1 q).1]
    have hm : markLoop (dfsFuel g) (setDirty g cell 0) [cell] = some g1 := hsdp
    obtain ⟨-, hsame⟩ := markLoop_frame _ _ _ hm
    rw [(hsame q).2.2.2] at hq
    rw [(hsame q).1]
    have hsd : (getCell (setDirty g cell 0) q).value = (getCell g q).value ∧
        (getCell (setDirty g cell 0) q).error = (getCell g q).error := by
      by_cases hqc : q = cell
      · subst hqc
        by_cases hib : inB g q
        · rw [getCell_setDirty_self 0 hib]
          exact ⟨rfl, rfl⟩
        · rw [setDirty_oob hib]
          exact ⟨rfl, rfl⟩
      · rw [getCell_setDirty_ne 0 hqc]
        exact ⟨rfl, rfl⟩
    rw [hsd.2] at hq
    rw [hsd.1]
    exact hEZ q hq

/-- Every `set_cell_value` call preserves the "errored cells hold value
0" invariant (the target cell included: on the success path its value is
explicitly forced to 0 when the evaluation errors, and every
re-evaluated dependent receives `(0, error)` from the evaluator). -/
theorem scv_errzero (sv : List Int → Int → Int → Int) {b : Backend} {cell : Cell}
    {s : List Char} {r : Except ExpressionError Unit} {b' : Backend}
    (hB : BoundsG b.grid) (hz : ∀ q, (getCell b.grid q).dirty_parents = 0)
    (hEZ : ∀ q, (getCell b.grid q).error ≠ CellError.NoError → (getCell b.grid q).value = 0)
    (hres : set_cell_value sv b cell s = some (r, b')) :
    ∀ q, (getCell b'.grid q).error ≠ CellError.NoError → (getCell b'.grid q).value = 0 := by
  by_cases hcB : inB b.grid cell
  case neg =>
    rw [(scv_oob sv b cell s hcB hres).1]
    exact hEZ
  case pos =>
  unfold set_cell_value at hres
  dsimp only at hres
  split at hres
  · simp only [Option.some.injEq, Prod.mk.injEq] at hres
    rw [← hres.2]
    exact hEZ
  · split at hres
    · split at hres
      · exact Option.noConfusion hres
      · rename_i g3 tr heq
        simp only [Option.some.injEq, Prod.mk.injEq] at hres
        rw [← hres.2]
        refine update_dependents_errzero sv heq ?_
        intro q hq
        rw [(update_graph_fields _ _ _ q).2.1] at hq
        rw [(update_graph_fields _ _ _ q).1]
        rw [getCell_updCell] at hq ⊢
        by_cases hqc : q = cell ∧ inB b.grid cell
        · rw [if_pos hqc] at hq ⊢
          exact evaluate_err_zero sv b.grid _ hq
        · rw [if_neg hqc] at hq ⊢
          exact hEZ q hq
    · split at hres
      · simp only [Option.some.injEq, Prod.mk.injEq] at hres
        rw [← hres.2]
        exact hEZ
      · split at hres
        · exact Option.noConfusion hres
        · rename_i g3 heq
          obtain ⟨hBm, hdm, hcm⟩ := mid_state_props b.grid cell
            (parse_expression s b.rows b.cols).1 hB hcB
          have hzm : ∀ q, (getCell (update_graph (updCell b.grid cell (fun cd =>
              { cd with function := (parse_expression s b.rows b.cols).1 })) cell
              ((getCell b.grid cell).function)) q).dirty_parents = 0 := by
            intro q
            rw [hdm q, hz q]
          have hg3 : g3 = update_graph (updCell b.grid cell (fun cd =>
              { cd with function := (parse_expression s b.rows b.cols).1 })) cell
              ((getCell b.grid cell).function) :=
            check_circular_restore hBm hzm hcm heq
          subst hg3
          simp only [Option.some.injEq, Prod.mk.injEq] at hres
          rw [← hres.2]
          intro q hq
          rw [(update_graph_fields _ _ _ q).2.1, (updCell_fn_fields _ _ _ q).2.1,
            (update_graph_fields _ _ _ q).2.1, (updCell_fn_fields _ _ _ q).2.1] at hq
          rw [(update_graph_fields _ _ _ q).1, (updCell_fn_fields _ _ _ q).1,
            (update_graph_fields _ _ _ q).1, (updCell_fn_fields _ _ _ q).1]
          exact hEZ q hq
        · rename_i g3 heq
          obtain ⟨hBm, hdm, hcm⟩ := mid_state_props b.grid cell
            (parse_expression s b.rows b.cols).1 hB hcB
          have hzm : ∀ q, (getCell (update_graph (updCell b.grid cell (fun cd =>
              { cd with function := (parse_expression s b.rows b.cols).1 })) cell
              ((getCell b.grid cell).function)) q).dirty_parents = 0 := by
            intro q
            rw [hdm q, hz q]
          have hg3 : g3 = update_graph (updCell b.grid cell (fun cd =>
              { cd with function := (parse_expression s b.rows b.cols).1 })) cell
              ((getCell b.grid cell).function) :=
            check_circular_restore hBm hzm hcm heq
          subst hg3
          split at hres
          · exact Option.noConfusion hres
          · rename_i g5 tr heq2
            simp only [Option.some.injEq, Prod.mk.injEq] at hres
            rw [← hres.2]
            refine update_dependents_errzero sv heq2 ?_
            intro q hq
            rw [getCell_updCell] at hq ⊢
            by_cases hqc : q = cell ∧ inB (update_graph (updCell b.grid cell (fun cd =>
                { cd with function := (parse_expression s b.rows b.cols).1 })) cell
                ((getCell b.grid cell).function)) cell
            · rw [if_pos hqc] at hq ⊢
              show (if (evaluate_expression sv (update_graph (updCell b.grid cell (fun cd =>
                  { cd with function := (parse_expression s b.rows b.cols).1 })) cell
                  ((getCell b.grid cell).function))
                    (parse_expression s b.rows b.cols).1).2 = CellError.NoError
                then (evaluate_expression sv (update_graph (updCell b.grid cell (fun cd =>
                  { cd with function := (parse_expression s b.rows b.cols).1 })) cell
                  ((getCell b.grid cell).function))
                    (parse_expression s b.rows b.cols).1).1
                else 0) = 0
              split
              · rename_i hnoerr
                exact absurd hnoerr hq
              · rfl
            · rw [if_neg hqc] at hq ⊢
              rw [(update_graph_fields _ _ _ q).2.1, (updCell_fn_fields _ _ _ q).2.1] at hq
              rw [(update_graph_fields _ _ _ q).1, (updCell_fn_fields _ _ _ q).1]
              exact hEZ q hq

/-! ### Error variants propagate unchanged through reads -/

/-- A cell-reference operand read returns exactly the referenced cell's
error variant. -/
theorem get_operand_value_err (g : Grid) (op : Operand) (c : Cell)
    (hop : op.data = OperandData.Cell c)
    (herr : (getCell g c).error ≠ CellError.NoError) :
    get_operand_value g op = Except.error ((getCell g c).error) := by
  unfold get_operand_value
  rw [hop]
  dsimp only
  rcases he : (getCell g c).error with _ | _ | _ | _
  · exact absurd he herr
  · rfl
  · rfl
  · rfl

/-- Any error returned by the row-major sum scan is the error of a cell
in the scanned list, with the variant unchanged. -/
theorem sumScan_err (g : Grid) :
    ∀ (cs : List Cell) (s k : Int) (e : CellError),
      sumScan g cs s k = Except.error e →
      e ≠ CellError.NoError ∧ ∃ c ∈ cs, (getCell g c).error = e := by
  intro cs
  induction cs with
  | nil =>
    intro s k e h
    exact absurd h (by unfold sumScan; intro hh; exact Except.noConfusion hh)
  | cons c cs ih =>
    intro s k e h
    unfold sumScan at h
    split at h
    · obtain ⟨h1, x, hx, hxe⟩ := ih _ _ _ h
      exact ⟨h1, x, by simp [hx], hxe⟩
    · rename_i he
      have he2 : e = CellError.DivideByZero := by
        injection h with h'
        exact h'.symm
      subst he2
      exact ⟨fun hh => CellError.noConfusion hh, c, by simp, he⟩
    · rename_i he
      have he2 : e = CellError.DependencyError := by
        injection h with h'
        exact h'.symm
      subst he2
      exact ⟨fun hh => CellError.noConfusion hh, c, by simp, he⟩
    · rename_i he
      have he2 : e = CellError.Overflow := by
        injection h with h'
        exact h'.symm
      subst he2
      exact ⟨fun hh => CellError.noConfusion hh, c, by simp, he⟩

/-- Any error returned by `sum_function` originates from a cell of the
range, with the variant unchanged (never a generic substitute). -/
theorem sum_function_err (g : Grid) (range : RangeFunction) (e : CellError)
    (h : sum_function g range = Except.error e) :
    e ≠ CellError.NoError ∧ ∃ c ∈ rangeCells range, (getCell g c).error = e := by
  unfold sum_function at h
  cases hs : sumScan g (rangeCells range) 0 0 with
  | error e2 =>
    rw [hs] at h
    have he : e2 = e := by
      have h2 : (Except.error e2 : Except CellError Int) = Except.error e := h
      injection h2
    subst he
    exact sumScan_err g (rangeCells range) 0 0 e2 hs
  | ok p =>
    rw [hs] at h
    exact absurd h (by intro hh; exact Except.noConfusion hh)

/-- Decidable reformulation of the errored-cells-hold-0 invariant over
the finitely many real cells (out-of-bounds reads give the default cell,
whose error is `NoError`). -/
theorem errZero_iff (g : Grid) :
    (∀ q, (getCell g q).error ≠ CellError.NoError → (getCell g q).value = 0) ↔
    ∀ r < g.length, ∀ k < (g.getD r []).length,
      (getCell g ⟨r, k⟩).error ≠ CellError.NoError → (getCell g ⟨r, k⟩).value = 0 := by
  constructor
  · intro h r hr k hk
    exact h ⟨r, k⟩
  · intro h q
    by_cases hq : inB g q
    · obtain ⟨hr, hk⟩ := hq
      cases q
      exact h _ hr _ hk
    · rw [getCell_oob hq]
      intro hcontra
      exact absurd rfl hcontra

/-- C5 (amended): the runtime evaluation errors the code catches never
make `set_cell_value` fail.  On a well-formed grid, whenever a parsed
edit returns at all, the result is `Ok` or — only for a rejected cycle —
`CircularDependency` (`DivideByZero`, `Overflow` and `DependencyError`
from evaluation are stored, never surfaced as an `Err`); in the returned
backend every cell whose error field is set (the edited cell and the
dependents re-evaluated in the same pass included) has its value forced
to 0; a binary-operand read of an errored cell returns exactly that
cell's error variant; and any error from the `SUM` aggregate is the
unchanged variant of some cell inside the range.  The one way a parsed,
cycle-free edit can fail to return is the unguarded division overflow
`i32::MIN / -1`, on which the program panics instead of returning `Ok`
(see the counterexample). -/
theorem C5_runtime_errors_propagate (sv : List Int → Int → Int → Int)
    (b : Backend) (cell : Cell) (s : List Char)
    (hB : BoundsG b.grid) (hz : ∀ q, (getCell b.grid q).dirty_parents = 0)
    (hcell : inB b.grid cell)
    (hEZ : ∀ q, (getCell b.grid q).error ≠ CellError.NoError → (getCell b.grid q).value = 0)
    (hp : (parse_expression s b.rows b.cols).2 = true) :
    (∀ r b', set_cell_value sv b cell s = some (r, b') →
      (r = Except.ok () ∨ r = Except.error ExpressionError.CircularDependency)) ∧
    (∀ r b', set_cell_value sv b cell s = some (r, b') →
      ∀ q, (getCell b'.grid q).error ≠ CellError.NoError → (getCell b'.grid q).value = 0) ∧
    (∀ (g : Grid) (op : Operand) (c : Cell), op.data = OperandData.Cell c →
      (getCell g c).error ≠ CellError.NoError →
      get_operand_value g op = Except.error ((getCell g c).error)) ∧
    (∀ (g : Grid) (range : RangeFunction) (e : CellError),
      sum_function g range = Except.error e →
      e ≠ CellError.NoError ∧ ∃ c ∈ rangeCells range, (getCell g c).error = e) := by
  refine ⟨?_, fun _ _ hres => scv_errzero sv hB hz hEZ hres,
    fun g op c hop herr => get_operand_value_err g op c hop herr,
    fun g range e h => sum_function_err g range e h⟩
  intro r b' hres
  obtain ⟨r2, b2, hres2, hdisj⟩ := scv_total sv s hB hz hcell hp
  rw [hres] at hres2
  have h' := Option.some.inj hres2
  have hr : r = r2 := congrArg Prod.fst h'
  rcases hdisj with h2 | h2
  · exact Or.inl (hr.trans h2)
  · exact Or.inr (hr.trans h2)

/-- The 1×2 sheet after `A1 = "5/0"`: the division by zero is caught,
the edit succeeds, `A1` holds `(0, DivideByZero)`. -/
def c5b : Backend :=
  applyEdit sv0 (Backend.new 1 2) (⟨0, 0⟩, ['5', '/', '0'])

/-- The `SUM(A1:A1)` formula text for the `B1` edit. -/
def c5s : List Char := "SUM(A1:A1)".data

/-- The sheet after the second edit `B1 = "SUM(A1:A1)"`. -/
def c5After : Backend :=
  ((set_cell_value sv0 c5b ⟨0, 1⟩ c5s).map Prod.snd).getD c5b

/-- Witness for C5: editing `B1 = "SUM(A1:A1)"` on the sheet where
`A1 = "5/0"` completes with `Ok` (checked concretely), the theorem pins
the returned result to the `Ok`-or-cycle shape and forces the value of
the errored `B1` to 0; `A1` holds error `DivideByZero` with value 0, and
`B1` receives the exact `DivideByZero` variant — not a generic
dependency error — with value 0. -/
theorem C5_runtime_errors_propagate_witness :
    set_cell_value sv0 c5b ⟨0, 1⟩ c5s = some (Except.ok (), c5After) ∧
    ((Except.ok () : Except ExpressionError Unit) = Except.ok () ∨
      (Except.ok () : Except ExpressionError Unit)
        = Except.error ExpressionError.CircularDependency) ∧
    ((getCell c5After.grid ⟨0, 1⟩).error ≠ CellError.NoError →
      (getCell c5After.grid ⟨0, 1⟩).value = 0) ∧
    (getCell c5b.grid ⟨0, 0⟩).error = CellError.DivideByZero ∧
    (getCell c5b.grid ⟨0, 0⟩).value = 0 ∧
    (getCell c5After.grid ⟨0, 1⟩).error = CellError.DivideByZero ∧
    (getCell c5After.grid ⟨0, 1⟩).value = 0 :=
  have h := C5_runtime_errors_propagate sv0 c5b ⟨0, 1⟩ c5s
    ((boundsG_iff c5b.grid).mpr (by decide))
    ((zeroDirty_iff c5b.grid).mpr (by decide))
    (by decide)
    ((errZero_iff c5b.grid).mpr (by decide))
    (by decide)
  have hs : set_cell_value sv0 c5b ⟨0, 1⟩ c5s = some (Except.ok (), c5After) := by decide
  ⟨hs, h.1 _ _ hs, h.2.1 _ _ hs ⟨0, 1⟩, by decide, by decide, by decide, by decide⟩

/-- 2×2 sheet holding the two halves of the overflowing division:
`A1 = "-2147483648"` (the constant `i32::MIN` parses directly) and
`B1 = "-1"`. -/
def c5xb : Backend :=
  applyEdit sv0 (applyEdit sv0 (Backend.new 2 2) (⟨0, 0⟩, "-2147483648".data))
    (⟨0, 1⟩, "-1".data)

/-- The division formula text for the `A2` edit of the counterexample. -/
def c5xs : List Char := "A1/B1".data

/-- The sheet the embedding returns for `A2 = "A1/B1"` (the run the real
program never completes). -/
def c5xAfter : Backend :=
  ((set_cell_value sv0 c5xb ⟨1, 0⟩ c5xs).map Prod.snd).getD c5xb

/-- C5 counterexample: with `A1 = i32::MIN` and `B1 = -1`, the edit
`A2 = "A1/B1"` parses to a `Divide` formula, is no self-reference and
creates no cycle, so the call reaches the evaluation; `divide_op`
resolves its operands to `(-2147483648, -1)`, its only guard
(`second == 0`) passes, and the mathematical quotient `2^31` does not
fit in `i32` — Rust's `/` panics on this overflow in every build
profile, so the program aborts instead of returning the promised `Ok`.
The embedding's total `i32div` wraps instead, which is how the model
run completes with the absurd stored value `A2 = -2147483648`
(a negative quotient of two negatives) and no error: the original
claim's "for every expression that parses and creates no cycle,
set_cell_value returns Ok" is false of the program. -/
theorem C5_counterexample :
    ((getCell c5xb.grid ⟨0, 0⟩).value = -2147483648 ∧
     (getCell c5xb.grid ⟨0, 0⟩).error = CellError.NoError ∧
     (getCell c5xb.grid ⟨0, 1⟩).value = -1 ∧
     (getCell c5xb.grid ⟨0, 1⟩).error = CellError.NoError) ∧
    parse_expression c5xs c5xb.rows c5xb.cols
      = (Function.new_binary_op FunctionType.Divide
          ⟨⟨OperandType.Cell, OperandData.Cell ⟨0, 0⟩⟩,
           ⟨OperandType.Cell, OperandData.Cell ⟨0, 1⟩⟩⟩, true) ∧
    (get_operand_value c5xb.grid ⟨OperandType.Cell, OperandData.Cell ⟨0, 0⟩⟩
        = Except.ok (-2147483648) ∧
     get_operand_value c5xb.grid ⟨OperandType.Cell, OperandData.Cell ⟨0, 1⟩⟩
        = Except.ok (-1) ∧
     (-1 : Int) ≠ 0) ∧
    ((-2147483648 : Int) / (-1) = 2 ^ 31 ∧
     ¬ ((-2147483648 : Int) / (-1) < 2 ^ 31)) ∧
    divide_op c5xb.grid
        ⟨⟨OperandType.Cell, OperandData.Cell ⟨0, 0⟩⟩,
         ⟨OperandType.Cell, OperandData.Cell ⟨0, 1⟩⟩⟩
      = Except.ok (-2147483648) ∧
    set_cell_value sv0 c5xb ⟨1, 0⟩ c5xs = some (Except.ok (), c5xAfter) ∧
    (getCell c5xAfter.grid ⟨1, 0⟩).value = -2147483648 ∧
    (getCell c5xAfter.grid ⟨1, 0⟩).error = CellError.NoError := by
  decide

end RustLab
